import Mathlib

/-!
# Memorax (dualtso): min-coverage, dual-channel entailment, constraint container

A shallow embedding of

* `src/min_coverage.tcc` (`MinCoverage::CandSet`, `MinCoverage::min_coverage`),
* `src/dual_channel_constraint.cpp` (`DualChannelConstraint::entailment_compare`,
  `characterize_channels`, `index_of_read`, `is_init_state`, `Common::Common`,
  `Common::store_of_write`),
* `src/sb_container.h` (`SbContainer::ChannelPrioTicketQueue`),
* `src/main.cpp` (`main`, `fencins`, `reachability`),

followed by the theorems that settle the properties of the specification.

Conventions.  `std::set<S>` is a strictly increasing list (elements are natural
numbers), `std::vector` is a list.  The cost of a candidate of `min_coverage` is
an `int` of 32 bits whose additions wrap around (`intWrap`); the other values of
type `int` are indices, control states and data values on which the sources do
no arithmetic that can leave the range, they are `Int` or `Nat`.  A `VecSet` is
only ever asked for membership, so it is a list.
-/

set_option autoImplicit false

namespace MinCoverage

/-! ## `min_coverage.tcc` -/

/-- `std::set<S>::insert`: insertion into a strictly increasing list; an element
that is already present is not inserted again. -/
def setInsert (s : Nat) : List Nat → List Nat
  | [] => [s]
  | x :: xs =>
    if s < x then s :: x :: xs
    else if s = x then x :: xs
    else x :: setInsert s xs

/-- `operator<` of `std::set<S>`: lexicographic comparison of the element
sequences. -/
def setLt : List Nat → List Nat → Bool
  | [], [] => false
  | [], _ :: _ => true
  | _ :: _, [] => false
  | x :: xs, y :: ys =>
    if x < y then true
    else if y < x then false
    else setLt xs ys

/-- The value of type `int` (32 bits, two's complement) that an arithmetic result
`x` is stored as: `x` itself when it lies between `INT_MIN = -2147483648` and
`INT_MAX = 2147483647`, else `x` wrapped around modulo `2^32`. -/
def intWrap (x : Int) : Int :=
  (x + 2147483648) % 4294967296 - 2147483648

/-- `CandSet<S>`: the candidate set, its coverage vector and its cost (an `int`).
The references `T` and `cost_fun` are passed to the operations that read
them. -/
structure CandSet where
  set : List Nat
  coverage : List Bool
  cost : Int
  deriving DecidableEq, Repr

/-- `CandSet::CandSet(T, cost_fun)`: the empty candidate. -/
def CandSet.empty (T : List (List Nat)) : CandSet :=
  { set := [], coverage := List.replicate T.length false, cost := 0 }

/-- The body of the loop of `CandSet::insert` at one index: the new value of
`coverage[i]` from the old one and `T[i]`. -/
def coverUpdate (s : Nat) (c : Bool) (t : List Nat) : Bool :=
  if !c && t.contains s then true else c

/-- `CandSet::insert`; `cost += cost_fun(s)` is an addition of `int`s. -/
def CandSet.insert (T : List (List Nat)) (cost_fun : Nat → Int)
    (cs : CandSet) (s : Nat) : CandSet :=
  { set := setInsert s cs.set
    coverage := List.zipWith (coverUpdate s) cs.coverage T
    cost := intWrap (cs.cost + cost_fun s) }

/-- The loop of `CandSet::get_uncovered_Ti`, started at index `i`. -/
def uncoveredFrom : Nat → List Bool → Int
  | _, [] => -1
  | i, c :: cs => if !c then (i : Int) else uncoveredFrom (i + 1) cs

/-- `CandSet::get_uncovered_Ti`. -/
def CandSet.get_uncovered_Ti (cs : CandSet) : Int :=
  uncoveredFrom 0 cs.coverage

/-- `CandSet::total_coverage`. -/
def CandSet.total_coverage (cs : CandSet) : Bool :=
  cs.get_uncovered_Ti == -1

/-- `CandSet::get_cost`. -/
def CandSet.get_cost (cs : CandSet) : Int := cs.cost

/-- `CandSet::get_set`. -/
def CandSet.get_set (cs : CandSet) : List Nat := cs.set

/-- `CandSet::operator<`. -/
def CandSet.lt (a b : CandSet) : Bool :=
  decide (a.cost < b.cost) || (decide (a.cost = b.cost) && setLt a.set b.set)

/-- `CandSet::operator>`. -/
def CandSet.gt (a b : CandSet) : Bool :=
  decide (a.cost > b.cost) || (decide (a.cost = b.cost) && setLt b.set a.set)

/-- `CandSet::operator==`. -/
def CandSet.eqv (a b : CandSet) : Bool :=
  decide (a.cost = b.cost) && decide (a.set = b.set)

/-- `std::priority_queue<CandSet, vector, std::greater<CandSet>>` as the list of
its elements.  `extractTop` is `top()` together with the queue after `pop()`:
the top is an element that is `operator>` no other element. -/
def extractTop : List CandSet → Option (CandSet × List CandSet)
  | [] => none
  | c :: cs =>
    match extractTop cs with
    | none => some (c, [])
    | some (m, rest) => if CandSet.gt c m then some (m, c :: rest) else some (c, cs)

/-- The body of the `for` loop of `min_coverage`: one copy of `cs` per element of
`Tvec[i]`, each with that element inserted, pushed on the queue. -/
def pushChildren (T : List (List Nat)) (cost : Nat → Int) (cs : CandSet) :
    List Nat → List CandSet → List CandSet
  | [], q => q
  | s :: ss, q => pushChildren T cost cs ss (CandSet.insert T cost cs s :: q)

/-- What a run of `min_coverage` ends in. -/
inductive Outcome where
  /-- `return queue.top().get_set()`. -/
  | returned (s : List Nat)
  /-- `queue.top()` was reached on an empty queue. -/
  | emptyTop
  /-- The iteration budget of the embedding ran out. -/
  | outOfFuel
  deriving DecidableEq, Repr

/-- The `while` loop of `min_coverage`, with an iteration budget. -/
def search (T : List (List Nat)) (cost : Nat → Int) : Nat → List CandSet → Outcome
  | fuel, q =>
    match extractTop q with
    | none => Outcome.emptyTop
    | some (cs, rest) =>
      if cs.total_coverage then Outcome.returned cs.get_set
      else
        match fuel with
        | 0 => Outcome.outOfFuel
        | fuel + 1 =>
          let i := cs.get_uncovered_Ti
          search T cost fuel (pushChildren T cost cs (T.getD i.toNat []) rest)

/-- The largest cardinality of a member of `T`. -/
def maxCard : List (List Nat) → Nat
  | [] => 0
  | t :: ts => max t.length (maxCard ts)

/-- A bound on the number of expansions of a candidate with `k` uncovered
members when every member has at most `m` elements. -/
def expansions (m : Nat) : Nat → Nat
  | 0 => 0
  | k + 1 => 1 + m * expansions m k

/-- `min_coverage(T, cost)`; `T` is the vector `Tvec` of the members of the
family.  The budget covers every run (see `search_fuel_enough`). -/
def min_coverage (T : List (List Nat)) (cost : Nat → Int) : Outcome :=
  search T cost (expansions (maxCard T) T.length) [CandSet.empty T]

/-- `min_coverage(T)`: unit cost. -/
def min_coverage_unit (T : List (List Nat)) : Outcome :=
  min_coverage T (fun _ => 1)

/-! ### Measures and invariants used in the proofs about `min_coverage` -/

/-- The number of members not yet covered, read off a coverage vector. -/
def uncoveredCount : List Bool → Nat
  | [] => 0
  | c :: cs => (if c then 0 else 1) + uncoveredCount cs

/-- The expansions still possible from the candidates of a queue. -/
def potential (m : Nat) : List CandSet → Nat
  | [] => 0
  | c :: q => expansions m (uncoveredCount c.coverage) + potential m q

/-- The total cost of a set: the sum of the cost of its elements. -/
def totalCost (cost : Nat → Int) (s : List Nat) : Int :=
  (s.map cost).sum

/-- The candidate is consistent with its set: `coverage[i]` tells whether the set
meets `T[i]`, `cost` is the total cost of the set as an `int`, the set is
duplicate-free and drawn from the members of `T`. -/
def Good (T : List (List Nat)) (cost : Nat → Int) (cs : CandSet) : Prop :=
  cs.coverage = T.map (fun t => t.any (fun x => decide (x ∈ cs.set))) ∧
  cs.cost = intWrap (totalCost cost cs.set) ∧
  cs.set.Nodup ∧
  ∀ s ∈ cs.set, ∃ t ∈ T, s ∈ t

end MinCoverage

namespace Memorax

/-! ## `dual_channel_constraint.cpp` -/

/-- `Constraint::Comparison`. -/
inductive Comparison where
  | LESS
  | GREATER
  | EQUAL
  | INCOMPARABLE
  deriving DecidableEq, Repr

open Comparison

/-- Modelled from the spec: `Constraint::comb_comp` is declared outside the
sources; this is the combinator table of section 4.2. -/
def comb_comp : Comparison → Comparison → Comparison
  | EQUAL, c => c
  | c, EQUAL => c
  | LESS, LESS => LESS
  | GREATER, GREATER => GREATER
  | _, _ => INCOMPARABLE

/-- Modelled from the spec: the declaration of the enumeration is outside the
sources.  The subword walk negates a comparison (`!comb_comp(LESS, c)`), which
holds exactly for the enumerator of value 0; the subword scenario of section 8
(an equal message must match) fixes that enumerator as `LESS`. -/
def Comparison.isZero : Comparison → Bool
  | LESS => true
  | _ => false

/-- A value of the lattice of section 3: a concrete integer or `*`. -/
inductive Val where
  | int (n : Int)
  | STAR
  deriving DecidableEq, Repr

/-- Modelled from the spec: the order on values of section 3 (`*` is above every
integer, different integers are incomparable). -/
def Val.entailment_compare : Val → Val → Comparison
  | Val.STAR, Val.STAR => EQUAL
  | Val.STAR, Val.int _ => GREATER
  | Val.int _, Val.STAR => LESS
  | Val.int a, Val.int b => if a = b then EQUAL else INCOMPARABLE

/-- `DualChannelConstraint::Store`: a vector of values. -/
abbrev Store := List Val

/-- Modelled from the spec: `Store::entailment_compare` (section 4.1) folds the
per-index comparisons with the combinator, started from `cmp`; an
`INCOMPARABLE` ends the fold. -/
def storeFold : Comparison → Store → Store → Comparison
  | cmp, a :: as, b :: bs =>
    let c := comb_comp cmp (a.entailment_compare b)
    if c = INCOMPARABLE then INCOMPARABLE else storeFold c as bs
  | cmp, _, _ => cmp

/-- Modelled from the spec: `Store::entailment_compare`. -/
def Store.entailment_compare (s t : Store) : Comparison :=
  storeFold EQUAL s t

/-- `DualChannelConstraint::Msg`: writer, locations (a `VecSet<Lang::NML>`, as its
sorted vector of location numbers) and store. -/
structure Msg where
  wpid : Int
  nmls : List Nat
  store : Store
  deriving DecidableEq, Repr

/-- Modelled from the spec: `Msg::entailment_compare` is declared outside the
sources; messages of different writer or locations are incomparable, the others
compare as their stores (message entailment of section 4.3). -/
def Msg.entailment_compare (m n : Msg) : Comparison :=
  if m.wpid ≠ n.wpid ∨ m.nmls ≠ n.nmls then INCOMPARABLE
  else Store.entailment_compare m.store n.store

/-- The state of a `DualChannelConstraint` (the reference to `Common` apart). -/
structure DualChannelConstraint where
  pcs : List Int
  channels : List (List Msg)
  mems : List Store
  reg_stores : List Store
  deriving DecidableEq, Repr

/-- A `VecSet<VecSet<Lang::NML>>`; only `insert` and `count` are used on it. -/
abbrev NmlsSet := List (List Nat)

/-! ### The subword walk, `this` shorter (lines 423-476)

Both channels are read from the highest index downwards, so the walk runs over
the reversed channels: the head of a list is the message at the current index,
and `i < j` compares the lengths of what is left.  `none` is
`return Constraint::INCOMPARABLE`. -/

/-- The inner loop of lines 432-449: `m` is `channels[ci][i]`, `iRem` is `i + 1`,
the list is `dcc.channels[ci][j], ..., dcc.channels[ci][0]`. -/
def lessSearchOwn (ci : Int) (m : Msg) (iRem : Nat) :
    List Msg → NmlsSet → Option (List Msg × NmlsSet)
  | [], _ => none
  | d :: ds, hwd =>
    if (d :: ds).length < iRem then none
    else if d.wpid = ci then
      if d.nmls = m.nmls ∧ (comb_comp LESS (m.entailment_compare d)).isZero = true then
        some (ds, hwd.insert d.nmls)
      else lessSearchOwn ci m iRem ds (hwd.insert d.nmls)
    else lessSearchOwn ci m iRem ds hwd

/-- The inner loop of lines 457-468. -/
def lessSearchAny (ci : Int) (m : Msg) (iRem : Nat) :
    List Msg → NmlsSet → Option (List Msg × NmlsSet)
  | [], _ => none
  | d :: ds, hwd =>
    if (d :: ds).length < iRem then none
    else
      let hwd1 := if d.wpid = ci then hwd.insert d.nmls else hwd
      if d.nmls = m.nmls ∧ d.wpid = m.wpid ∧
          (comb_comp LESS (m.entailment_compare d)).isZero = true then
        some (ds, hwd1)
      else lessSearchAny ci m iRem ds hwd1

/-- The loop of lines 426-476 over `channels[ci]` (first list, reversed) against
`dcc.channels[ci]` (second list, reversed); `true` when the loop ends without
`return Constraint::INCOMPARABLE`. -/
def lessWalk (ci : Int) : List Msg → List Msg → NmlsSet → NmlsSet → Bool
  | [], _, _, _ => true
  | t :: ts, ds, hwt, hwd =>
    if t.nmls ∉ hwt ∧ t.wpid = ci then
      if t.nmls ∈ hwd then false
      else
        match lessSearchOwn ci t (ts.length + 1) ds hwd with
        | none => false
        | some (ds1, hwd1) => lessWalk ci ts ds1 (hwt.insert t.nmls) hwd1
    else
      match lessSearchAny ci t (ts.length + 1) ds hwd with
      | none => false
      | some (ds1, hwd1) =>
        lessWalk ci ts ds1 (if t.wpid = ci then hwt.insert t.nmls else hwt) hwd1

/-! ### The subword walk, `this` longer (lines 358-409) -/

/-- The inner loop of lines 366-383: `m` is `dcc.channels[ci][j]`, `jRem` is
`j + 1`, the list is `channels[ci][i], ..., channels[ci][0]`. -/
def greaterSearchOwn (ci : Int) (m : Msg) (jRem : Nat) :
    List Msg → NmlsSet → Option (List Msg × NmlsSet)
  | [], _ => none
  | t :: ts, hwt =>
    if (t :: ts).length < jRem then none
    else if t.wpid = ci then
      if t.nmls = m.nmls ∧ (comb_comp LESS (m.entailment_compare t)).isZero = true then
        some (ts, hwt.insert t.nmls)
      else greaterSearchOwn ci m jRem ts (hwt.insert t.nmls)
    else greaterSearchOwn ci m jRem ts hwt

/-- The inner loop of lines 391-402. -/
def greaterSearchAny (ci : Int) (m : Msg) (jRem : Nat) :
    List Msg → NmlsSet → Option (List Msg × NmlsSet)
  | [], _ => none
  | t :: ts, hwt =>
    if (t :: ts).length < jRem then none
    else
      let hwt1 := if t.wpid = ci then hwt.insert t.nmls else hwt
      if t.nmls = m.nmls ∧ t.wpid = m.wpid ∧
          (comb_comp LESS (m.entailment_compare t)).isZero = true then
        some (ts, hwt1)
      else greaterSearchAny ci m jRem ts hwt1

/-- The loop of lines 361-409 over `dcc.channels[ci]` (second list, reversed)
against `channels[ci]` (first list, reversed). -/
def greaterWalk (ci : Int) : List Msg → List Msg → NmlsSet → NmlsSet → Bool
  | _, [], _, _ => true
  | ts, d :: ds, hwt, hwd =>
    if d.nmls ∉ hwd ∧ d.wpid = ci then
      if d.nmls ∈ hwt then false
      else
        match greaterSearchOwn ci d (ds.length + 1) ts hwt with
        | none => false
        | some (ts1, hwt1) => greaterWalk ci ts1 ds hwt1 (hwd.insert d.nmls)
    else
      match greaterSearchAny ci d (ds.length + 1) ts hwt with
      | none => false
      | some (ts1, hwt1) =>
        greaterWalk ci ts1 ds hwt1 (if d.wpid = ci then hwd.insert d.nmls else hwd)

/-- The loop of lines 345-348 over two channels of equal length.  The early
`return cmp` inside the loop returns `INCOMPARABLE`, which is what the fold
yields. -/
def msgsLoop : Comparison → List Msg → List Msg → Comparison
  | cmp, a :: as, b :: bs =>
    let c := comb_comp cmp (a.entailment_compare b)
    if c = INCOMPARABLE then INCOMPARABLE else msgsLoop c as bs
  | cmp, _, _ => cmp

/-- The loop of lines 341-484 over the channels of `this` (the list argument,
from index `ci` on), with `n = channels.size()` and `dccCh = dcc.channels`;
falling out of the loop is line 485.  A read of `dcc.channels` beyond its size
(undefined in the source) reads an empty channel. -/
def channelsLoop (n : Nat) (dccCh : List (List Msg)) :
    List (List Msg) → Nat → Comparison → Comparison
  | [], _, _ => INCOMPARABLE
  | a :: rest, ci, cmp =>
    let b := dccCh.getD ci []
    if a.length = b.length then
      let c := msgsLoop cmp a b
      if c = INCOMPARABLE then INCOMPARABLE
      else if ci + 1 = n then c
      else channelsLoop n dccCh rest (ci + 1) c
    else if a.length > b.length then
      if comb_comp cmp GREATER = INCOMPARABLE then INCOMPARABLE
      else if greaterWalk (ci : Int) a.reverse b.reverse [] [] then
        if ci + 1 = n then GREATER
        else channelsLoop n dccCh rest (ci + 1) GREATER
      else INCOMPARABLE
    else
      if comb_comp cmp LESS = INCOMPARABLE then INCOMPARABLE
      else if lessWalk (ci : Int) a.reverse b.reverse [] [] then
        if ci + 1 = n then LESS
        else channelsLoop n dccCh rest (ci + 1) LESS
      else INCOMPARABLE

/-- `DualChannelConstraint::entailment_compare_channels`. -/
def DualChannelConstraint.entailment_compare_channels
    (this dcc : DualChannelConstraint) (cmp : Comparison) : Comparison :=
  channelsLoop this.channels.length dcc.channels this.channels 0 cmp

/-- The loop of lines 326-329 over the register stores of `this` (the list
argument, from index `p` on) against `chcRegs = chc.reg_stores`. -/
def regStoresLoop (chcRegs : List Store) : List Store → Nat → Comparison → Comparison
  | [], _, cmp => cmp
  | r :: rs, p, cmp =>
    let c := comb_comp cmp (Store.entailment_compare r (chcRegs.getD p []))
    if c = INCOMPARABLE then INCOMPARABLE else regStoresLoop chcRegs rs (p + 1) c

/-- `DualChannelConstraint::entailment_compare_impl`. -/
def DualChannelConstraint.entailment_compare_impl
    (this chc : DualChannelConstraint) : Comparison :=
  if this.pcs ≠ chc.pcs then INCOMPARABLE
  else
    let cmp := regStoresLoop chc.reg_stores this.reg_stores 0 EQUAL
    if cmp = INCOMPARABLE then INCOMPARABLE
    else
      let cmp1 := comb_comp cmp
        (Store.entailment_compare (this.mems.getD 0 []) (chc.mems.getD 0 []))
      if cmp1 = INCOMPARABLE then INCOMPARABLE
      else this.entailment_compare_channels chc cmp1

/-- `DualChannelConstraint::entailment_compare`. -/
def DualChannelConstraint.entailment_compare
    (this c : DualChannelConstraint) : Comparison :=
  this.entailment_compare_impl c

/-- `DualChannelConstraint::MsgCharacterization`: writer and locations. -/
abbrev MsgCharacterization := Int × List Nat

/-- The loop of lines 499-504 over `channels[ci]` reversed: `chni`. -/
def characterizeChannel (ci : Int) : List Msg → NmlsSet → List MsgCharacterization
  | [], _ => []
  | m :: ms, hw =>
    if m.wpid = ci ∧ m.nmls ∉ hw then
      (m.wpid, m.nmls) :: characterizeChannel ci ms (hw.insert m.nmls)
    else characterizeChannel ci ms hw

/-- The loop of lines 496-513 over the channels from index `ci` on. -/
def characterizeFrom : Nat → List (List Msg) → List (List MsgCharacterization)
  | _, [] => []
  | ci, ch :: rest =>
    (characterizeChannel (ci : Int) ch.reverse []).reverse :: characterizeFrom (ci + 1) rest

/-- `DualChannelConstraint::characterize_channels`. -/
def DualChannelConstraint.characterize_channels (c : DualChannelConstraint) :
    List (List MsgCharacterization) :=
  characterizeFrom 0 c.channels

/-! ## `sb_container.h` -/

/-- Modelled from the spec: `TicketQueue` (`ticket_queue.h`) is not among the
sources.  It is the FIFO ticket queue of sections 4.4 and 9: a ticket is a
monotone counter, elements leave in the order of their tickets.  `items` holds
the queued elements with their tickets, oldest first. -/
structure TicketQueue (α : Type) where
  items : List (Nat × α)
  next_ticket : Nat
  deriving Repr

/-- The empty ticket queue. -/
def TicketQueue.empty {α : Type} : TicketQueue α :=
  { items := [], next_ticket := 0 }

/-- `TicketQueue::push`: the ticket and the queue with the element appended. -/
def TicketQueue.push {α : Type} (q : TicketQueue α) (t : α) : Nat × TicketQueue α :=
  (q.next_ticket, { items := q.items ++ [(q.next_ticket, t)], next_ticket := q.next_ticket + 1 })

/-- `TicketQueue::pop`: the oldest element and the queue without it. -/
def TicketQueue.pop {α : Type} (q : TicketQueue α) : Option (α × TicketQueue α) :=
  match q.items with
  | [] => none
  | (_, t) :: rest => some (t, { items := rest, next_ticket := q.next_ticket })

/-- `TicketQueue::size`. -/
def TicketQueue.size {α : Type} (q : TicketQueue α) : Nat :=
  q.items.length

/-- `TicketQueue::in_queue`. -/
def TicketQueue.in_queue {α : Type} (q : TicketQueue α) (tck : Nat) : Bool :=
  q.items.any (fun p => p.1 == tck)

/-- A pointer to a `SbContainer::CWrapper`, as far as the queue reads it: the
address of the wrapper and `sbc->get_channel_length()`. -/
structure CWrapper where
  addr : Nat
  channel_length : Nat
  deriving DecidableEq, Repr

/-- `SbContainer::ChannelPrioTicketQueue`: `queues[i]` holds the wrappers whose
channel has length `i`. -/
structure ChannelPrioTicketQueue where
  queues : List (TicketQueue CWrapper)
  deriving Repr

/-- The queue of a new container. -/
def ChannelPrioTicketQueue.empty : ChannelPrioTicketQueue :=
  { queues := [] }

/-- `queues.resize(n)` for `n` above the size. -/
def resizeQueues (qs : List (TicketQueue CWrapper)) (n : Nat) : List (TicketQueue CWrapper) :=
  qs ++ List.replicate (n - qs.length) TicketQueue.empty

/-- `ChannelPrioTicketQueue::push`: the ticket and the new queue. -/
def ChannelPrioTicketQueue.push (Q : ChannelPrioTicketQueue) (cw : CWrapper) :
    Nat × ChannelPrioTicketQueue :=
  let qs := if Q.queues.length ≤ cw.channel_length
    then resizeQueues Q.queues (cw.channel_length + 1) else Q.queues
  let r := (qs.getD cw.channel_length TicketQueue.empty).push cw
  (r.1, { queues := qs.set cw.channel_length r.2 })

/-- The loop of `ChannelPrioTicketQueue::pop` over the queues from some index
on: the first queue of positive size is popped. -/
def popScan : List (TicketQueue CWrapper) →
    Option (CWrapper × List (TicketQueue CWrapper))
  | [] => none
  | q :: qs =>
    if q.size > 0 then
      match q.pop with
      | some (cw, q1) => some (cw, q1 :: qs)
      | none => none
    else
      match popScan qs with
      | some (cw, qs1) => some (cw, q :: qs1)
      | none => none

/-- `ChannelPrioTicketQueue::pop`: the loop starts at index 1; `none` is the
null pointer. -/
def ChannelPrioTicketQueue.pop (Q : ChannelPrioTicketQueue) :
    Option CWrapper × ChannelPrioTicketQueue :=
  match Q.queues with
  | [] => (none, Q)
  | q0 :: rest =>
    match popScan rest with
    | some (cw, rest1) => (some cw, { queues := q0 :: rest1 })
    | none => (none, Q)

/-- `ChannelPrioTicketQueue::in_queue`. -/
def ChannelPrioTicketQueue.in_queue (Q : ChannelPrioTicketQueue) (tck : Nat)
    (chan_len : Nat) : Bool :=
  (Q.queues.getD chan_len TicketQueue.empty).in_queue tck

/-- `ChannelPrioTicketQueue::clear`. -/
def ChannelPrioTicketQueue.clear (_Q : ChannelPrioTicketQueue) : ChannelPrioTicketQueue :=
  { queues := [] }

/-- The states of the queue that `push`, `pop` and `clear` build from the empty
queue, each with the list of the wrappers it holds, in the order in which they
were pushed. -/
inductive QueueHolds : ChannelPrioTicketQueue → List CWrapper → Prop where
  | empty : QueueHolds ChannelPrioTicketQueue.empty []
  | push (Q : ChannelPrioTicketQueue) (held : List CWrapper) (cw : CWrapper) :
      QueueHolds Q held → QueueHolds (Q.push cw).2 (held ++ [cw])
  | pop (Q : ChannelPrioTicketQueue) (held : List CWrapper) :
      QueueHolds Q held →
      QueueHolds Q.pop.2 (match Q.pop.1 with
        | some cw => held.erase cw
        | none => held)
  | clear (Q : ChannelPrioTicketQueue) (held : List CWrapper) :
      QueueHolds Q held → QueueHolds Q.clear []

/-! ### Relations used in the proofs about `entailment_compare` -/

/-- The comparison says "less than or equal". -/
def Comparison.le : Comparison → Bool
  | LESS => true
  | EQUAL => true
  | _ => false

/-- The comparison says "greater than or equal". -/
def Comparison.ge : Comparison → Bool
  | GREATER => true
  | EQUAL => true
  | _ => false

/-- The converse of a comparison. -/
def Comparison.conv : Comparison → Comparison
  | LESS => GREATER
  | GREATER => LESS
  | c => c

/-- The comparison with the given "less or equal" and "greater or equal" parts. -/
def Comparison.ofParts : Bool → Bool → Comparison
  | true, true => EQUAL
  | true, false => LESS
  | false, true => GREATER
  | false, false => INCOMPARABLE

/-- Index-wise order of two stores (up to the shorter length). -/
def storeLe : Store → Store → Bool
  | a :: as, b :: bs => (a.entailment_compare b).le && storeLe as bs
  | _, _ => true

/-- Message entailment: same writer, same locations, stores in order. -/
def msgLe (m n : Msg) : Bool :=
  decide (m.wpid = n.wpid) && decide (m.nmls = n.nmls) && storeLe m.store n.store

/-- Two lists of equal length, related element by element. -/
def allLe {α : Type} (f : α → α → Bool) : List α → List α → Bool
  | a :: as, b :: bs => f a b && allLe f as bs
  | [], [] => true
  | _, _ => false

/-- The has-written set after the message `d` of channel `ci` was visited. -/
def addOwn (ci : Int) (d : Msg) (h : NmlsSet) : NmlsSet :=
  if d.wpid = ci then h.insert d.nmls else h

/-- The has-written set after the messages of a list were visited. -/
def addOwns (ci : Int) (l : List Msg) (h : NmlsSet) : NmlsSet :=
  l.foldl (fun h d => addOwn ci d h) h

/-- The inner loops of the walk in one: find the first message that `m` entails,
recording the visited own messages. -/
def walkSearch (ci : Int) (m : Msg) (iRem : Nat) :
    List Msg → NmlsSet → Option (List Msg × NmlsSet)
  | [], _ => none
  | d :: ds, h =>
    if (d :: ds).length < iRem then none
    else if msgLe m d then some (ds, addOwn ci d h)
    else walkSearch ci m iRem ds (addOwn ci d h)

/-- The subword relation that the walk decides: every message of the shorter
side (first list, newest first) is matched, in order, with a message of the longer
side that it entails, and a message that is the newest own write to its
locations on the shorter side meets no own write to these locations that the
longer side has passed before the match is searched. -/
def Subword (ci : Int) : NmlsSet → NmlsSet → List Msg → List Msg → Prop
  | _, _, [], _ => True
  | hS, hL, m :: S, L =>
    (m.wpid = ci → m.nmls ∉ hS → m.nmls ∉ hL) ∧
    ∃ pre d L1, L = pre ++ d :: L1 ∧ msgLe m d = true ∧
      Subword ci (addOwn ci m hS) (addOwns ci (pre ++ [d]) hL) S L1

/-- The order of two channels of index `ci`: element-wise for equal lengths, the
walk for a shorter first channel. -/
def chanLe (ci : Nat) (x y : List Msg) : Bool :=
  if x.length = y.length then allLe msgLe x y
  else if x.length < y.length then lessWalk (ci : Int) x.reverse y.reverse [] []
  else false

/-- The order of two lists of channels, the first of index `ci`. -/
def chansLe : Nat → List (List Msg) → List (List Msg) → Bool
  | ci, a :: as, b :: bs => chanLe ci a b && chansLe (ci + 1) as bs
  | _, [], [] => true
  | _, _, _ => false

/-- The order on constraints that `entailment_compare` decides. -/
def DualChannelConstraint.le (a b : DualChannelConstraint) : Bool :=
  decide (a.pcs = b.pcs) && allLe storeLe a.reg_stores b.reg_stores &&
    storeLe (a.mems.getD 0 []) (b.mems.getD 0 []) && chansLe 0 a.channels b.channels

/-- The part of `DualChannelConstraint::Common` that fixes the shape of a
constraint: the size of a memory store and the number of registers of each
process. -/
structure Common where
  mem_size : Nat
  reg_count : List Nat

/-- The constraint is one over `common`: one channel and one register store per
process, stores of the sizes that `common` prescribes. -/
def DualChannelConstraint.over (common : Common) (c : DualChannelConstraint) : Prop :=
  c.pcs.length = common.reg_count.length ∧
  c.channels.length = common.reg_count.length ∧
  c.reg_stores.map List.length = common.reg_count ∧
  (c.mems.getD 0 []).length = common.mem_size ∧
  ∀ ch ∈ c.channels, ∀ m ∈ ch, m.store.length = common.mem_size

/-- One turn of the loop over the channels: the comparison after channel `ci`
(`a` of `this`, `b` of `dcc`) was compared, `INCOMPARABLE` when the turn returns
it. -/
def chanStep (ci : Nat) (a b : List Msg) (cmp : Comparison) : Comparison :=
  if a.length = b.length then msgsLoop cmp a b
  else if a.length > b.length then
    if comb_comp cmp GREATER = INCOMPARABLE then INCOMPARABLE
    else if greaterWalk (ci : Int) a.reverse b.reverse [] [] then GREATER
    else INCOMPARABLE
  else
    if comb_comp cmp LESS = INCOMPARABLE then INCOMPARABLE
    else if lessWalk (ci : Int) a.reverse b.reverse [] [] then LESS
    else INCOMPARABLE

instance (common : Common) (c : DualChannelConstraint) : Decidable (c.over common) := by
  unfold DualChannelConstraint.over
  exact inferInstance

/-! ### Example constraints -/

/-- A write message of process `p` to the single location `x`, with the store
unconstrained. -/
def wmsg (p : Int) (x : Nat) : Msg :=
  { wpid := p, nmls := [x], store := [Val.STAR] }

/-- A constraint of two processes at control state 0 with the given channels,
one memory cell and no registers. -/
def twoProc (c0 c1 : List Msg) : DualChannelConstraint :=
  { pcs := [0, 0], channels := [c0, c1], mems := [[Val.STAR]], reg_stores := [[], []] }

/-- A constraint of one process with the given channel. -/
def oneProc (c0 : List Msg) : DualChannelConstraint :=
  { pcs := [0], channels := [c0], mems := [[Val.STAR]], reg_stores := [[]] }

/-- The constraint of a machine without processes, as the constructor builds it
from an empty vector of control states. -/
def noProc : DualChannelConstraint :=
  { pcs := [], channels := [], mems := [[Val.STAR]], reg_stores := [] }

/-- The wrappers in queue `i`, oldest first. -/
def queued (qs : List (TicketQueue CWrapper)) (i : Nat) : List CWrapper :=
  (qs.getD i TicketQueue.empty).items.map Prod.snd

/-- Queue `i` holds, in the order of pushing, the held wrappers of channel
length `i`. -/
def QueueInv (Q : ChannelPrioTicketQueue) (held : List CWrapper) : Prop :=
  ∀ i, queued Q.queues i = held.filter (fun w => decide (w.channel_length = i))

/-! ## The container `SbContainer` (section 4.4)

`sb_container.cpp` and `sb_constraint.h` are not among the sources: the
operations below follow the subsumption policy of the specification, over a
constraint type that provides the comparison, the indexing key and the channel
length. -/

/-- Modelled from the spec: what the container uses of a constraint (the source
of `SbConstraint` is missing): `entailment_compare`, the indexing key (control
states and channel characterization) and `get_channel_length`. -/
structure ConstraintOps (C K : Type) where
  entailment_compare : C → C → Comparison
  key : C → K
  channel_length : C → Nat

/-- A `CWrapper` in the arena `F`: the constraint, the index of the parent
wrapper (`none` for a root) and the flag `valid`. -/
structure FEntry (C : Type) where
  sbc : C
  parent : Option Nat
  valid : Bool

/-- The state of the container: the wrappers of `F` in the order of insertion
(the invalidated ones stay, with `valid = false`) and the queue `Q`. -/
structure SbContainer (C : Type) where
  F : List (FEntry C)
  Q : ChannelPrioTicketQueue

/-- The container after construction. -/
def SbContainer.empty {C : Type} : SbContainer C :=
  { F := [], Q := ChannelPrioTicketQueue.empty }

/-- Modelled from the spec: step 2 of the subsumption policy: the valid wrapper
`e` of the bucket of `c` holds a constraint smaller than or equal to `c`. -/
def subsumes {C K : Type} [DecidableEq K] (ops : ConstraintOps C K) (c : C)
    (e : FEntry C) : Bool :=
  e.valid && decide (ops.key e.sbc = ops.key c) && (ops.entailment_compare e.sbc c).le

/-- Modelled from the spec: step 3 of the subsumption policy: `c` is smaller than
or equal to the constraint of the valid wrapper `e` of its bucket. -/
def subsumedBy {C K : Type} [DecidableEq K] (ops : ConstraintOps C K) (c : C)
    (e : FEntry C) : Bool :=
  e.valid && decide (ops.key e.sbc = ops.key c) && (ops.entailment_compare c e.sbc).le

/-- Modelled from the spec: step 3 over the arena from index `i` on: a wrapper
that `c` subsumes is marked invalid and, with the genealogy optimization, so is
every descendant of an invalidated wrapper (`dead` collects their indices). -/
def invalidateFrom {C K : Type} [DecidableEq K] (ops : ConstraintOps C K) (gen : Bool)
    (c : C) : List (FEntry C) → Nat → List Nat → List (FEntry C)
  | [], _, _ => []
  | e :: es, i, dead =>
    let kill := subsumedBy ops c e ||
      (gen && (match e.parent with
        | some p => decide (p ∈ dead)
        | none => false))
    (if kill then { e with valid := false } else e) ::
      invalidateFrom ops gen c es (i + 1) (if kill then i :: dead else dead)

/-- Modelled from the spec: the attempted insertion of `c` (subsumption policy,
steps 1 to 4). -/
def SbContainer.insertWrapper {C K : Type} [DecidableEq K] (ops : ConstraintOps C K)
    (gen : Bool) (s : SbContainer C) (c : C) (parent : Option Nat) : SbContainer C :=
  if s.F.any (subsumes ops c) then s
  else
    { F := invalidateFrom ops gen c s.F 0 [] ++ [{ sbc := c, parent := parent, valid := true }]
      Q := (s.Q.push { addr := s.F.length, channel_length := ops.channel_length c }).2 }

/-- Modelled from the spec: `insert(parent, transition, child)`; the transition
is only kept for the trace. -/
def SbContainer.insert {C K : Type} [DecidableEq K] (ops : ConstraintOps C K)
    (gen : Bool) (s : SbContainer C) (parent : Nat) (c : C) : SbContainer C :=
  s.insertWrapper ops gen c (some parent)

/-- Modelled from the spec: `pop()` takes wrappers from `Q` until a valid one
comes; at most `fuel` wrappers are taken. -/
def SbContainer.popLoop {C : Type} : Nat → SbContainer C → Option Nat × SbContainer C
  | 0, s => (none, s)
  | fuel + 1, s =>
    match s.Q.pop with
    | (none, Q1) => (none, { s with Q := Q1 })
    | (some cw, Q1) =>
      if (s.F.map FEntry.valid).getD cw.addr false then (some cw.addr, { s with Q := Q1 })
      else SbContainer.popLoop fuel { s with Q := Q1 }

/-- Modelled from the spec: `pop()`; the budget is the number of queued
wrappers. -/
def SbContainer.pop {C : Type} (s : SbContainer C) : Option Nat × SbContainer C :=
  SbContainer.popLoop (s.Q.queues.map TicketQueue.size).sum s

/-- A `Lang::VarDecl` as far as it is read: the declared initial value, `none` when
`value.is_wild()`. -/
structure VarDecl where
  value : Option Int
  deriving DecidableEq, Repr

/-- `Lang::Value::is_wild`. -/
def VarDecl.is_wild (d : VarDecl) : Bool := d.value.isNone

/-- `Lang::Value::get_value` (of a value that is not wild). -/
def VarDecl.get_value (d : VarDecl) : Int := d.value.getD 0

/-- `value_t::get_int` (of a value that is not `STAR`). -/
def Val.get_int : Val → Int
  | Val.int n => n
  | Val.STAR => 0

/-- An expression as far as `store_of_write` reads it: `is_integer()` and
`get_integer()`. -/
inductive Expr where
  | integer (v : Int)
  | other
  deriving DecidableEq, Repr

/-- `Lang::Stmt::get_type()`, the types that the sources test for and one for
the rest. -/
inductive StmtType where
  | WRITE
  | READASSERT
  | LOCKED
  | SLOCKED
  | SEQUENCE
  | OTHER
  deriving DecidableEq, Repr

/-- A `Lang::Stmt<int>` as far as it is read: memory locations are numbers. -/
inductive Stmt where
  | write (memloc : Nat) (expr : Expr)
  | readassert (memloc : Nat) (expr : Expr)
  | locked (stmts : List Stmt)
  | slocked (stmts : List Stmt)
  | sequence (stmts : List Stmt)
  | other
  deriving Repr

/-- `Lang::Stmt::get_type`. -/
def Stmt.get_type : Stmt → StmtType
  | Stmt.write _ _ => StmtType.WRITE
  | Stmt.readassert _ _ => StmtType.READASSERT
  | Stmt.locked _ => StmtType.LOCKED
  | Stmt.slocked _ => StmtType.SLOCKED
  | Stmt.sequence _ => StmtType.SEQUENCE
  | Stmt.other => StmtType.OTHER

/-- `Lang::Stmt::get_statement_count`. -/
def Stmt.get_statement_count : Stmt → Nat
  | Stmt.locked ss => ss.length
  | Stmt.slocked ss => ss.length
  | Stmt.sequence ss => ss.length
  | _ => 0

/-- `Lang::Stmt::get_statement(i)`. -/
def Stmt.get_statement (s : Stmt) (i : Nat) : Stmt :=
  match s with
  | Stmt.locked ss => ss.getD i Stmt.other
  | Stmt.slocked ss => ss.getD i Stmt.other
  | Stmt.sequence ss => ss.getD i Stmt.other
  | _ => Stmt.other

/-- A `Machine::PTransition` as far as it is read: the process, the instruction
and `instruction.get_write_sets()` (the method is outside the sources; its result
is part of the data). -/
structure PTransition where
  pid : Nat
  instruction : Stmt
  write_sets : List (List Nat)
  deriving Repr

/-- The `Machine` as far as `Common` and the constraint read it:
`automata[p].get_states()[i].fwd_transitions`, the declarations of the global
variables, of the local variables and of the registers of each process. -/
structure Machine where
  automata : List (List (List PTransition))
  gvars : List VarDecl
  lvars : List (List VarDecl)
  regs : List (List VarDecl)
  deriving Repr

/-- The functions of `Lang::NML` and `Common` that are declared outside the
sources, as parameters: `nml m p` is `Lang::NML(m, p)` (a location normalized for
process `p`, as a number), `index n` is `common.index(n)`, `global_nml i` and
`local_nml i p` are `Lang::NML::global(i)` and `Lang::NML::local(i, p)`. -/
structure Layout where
  nml : Nat → Nat → Nat
  index : Nat → Nat
  global_nml : Nat → Nat
  local_nml : Nat → Nat → Nat

/-- `Common::MsgHdr`: writer and locations. -/
abbrev MsgHdr := Int × List Nat

/-- `VecSet<Lang::NML>::insert`: insertion into the sorted vector of a set. -/
def vecInsert (x : Nat) : List Nat → List Nat
  | [] => [x]
  | y :: ys =>
    if x < y then x :: y :: ys
    else if x = y then y :: ys
    else y :: vecInsert x ys

/-- The loop of lines 89-92 (and 108-110): the set `nmls` of the normalized
locations of one write set. -/
def nmlsOf (layout : Layout) (p : Nat) : List Nat → List Nat → List Nat
  | [], acc => acc
  | w :: ws, acc => nmlsOf layout p ws (vecInsert (layout.nml w p) acc)

/-- The data members of `DualChannelConstraint::Common` that its constructor
sets. -/
structure CommonTables where
  machine : Machine
  gvar_count : Nat
  max_lvar_count : Nat
  reg_count : List Nat
  mem_size : Nat
  messages : List MsgHdr
  nmls : List Nat
  removed_lock_blocks_messages : List MsgHdr
  deriving Repr

/-- The loop of lines 70-73: `max_lvar_count` and `reg_count`, over the processes
from index `p` on. -/
def countLoop (regs : List (List VarDecl)) :
    List (List VarDecl) → Nat → Nat → List Nat → Nat × List Nat
  | [], _, mx, rc => (mx, rc)
  | lv :: rest, p, mx, rc =>
    countLoop regs rest (p + 1) (max mx lv.length) (rc ++ [(regs.getD p []).length])

/-- All transitions of the machine with the index of their process, in the order
of the loops over `automata[p]`, its states and their `fwd_transitions`. -/
def allTransitions : List (List (List PTransition)) → Nat → List (Nat × PTransition)
  | [], _ => []
  | states :: rest, p => (states.flatten.map (fun t => (p, t))) ++ allTransitions rest (p + 1)

/-- The loop of lines 86-95 over the write sets of one transition of process
`p`: `messages` and `this->nmls`. -/
def addMessages (layout : Layout) (p : Nat) :
    List (List Nat) → List MsgHdr × List Nat → List MsgHdr × List Nat
  | [], acc => acc
  | ws :: rest, (msgs, nmls) =>
    if ws.length > 0 then
      addMessages layout p rest
        (msgs.insert ((p : Int), nmlsOf layout p ws []), nmlsOf layout p ws nmls)
    else addMessages layout p rest (msgs, nmls)

/-- The loop of lines 105-117 over the write sets of one transition of process
`p`: `removed_lock_blocks_messages`; `none` is the `throw` of line 113. -/
def addUnlocked (layout : Layout) (p : Nat) (type : StmtType) :
    List (List Nat) → List MsgHdr → Option (List MsgHdr)
  | [], acc => some acc
  | ws :: rest, acc =>
    if ws.length > 0 then
      if type ≠ StmtType.LOCKED then
        if (nmlsOf layout p ws []).length > 1 then none
        else addUnlocked layout p type rest (acc.insert ((p : Int), nmlsOf layout p ws []))
      else addUnlocked layout p type rest acc
    else addUnlocked layout p type rest acc

/-- The loops of lines 100-120 over the transitions. -/
def unlockedLoop (layout : Layout) :
    List (Nat × PTransition) → List MsgHdr → Option (List MsgHdr)
  | [], acc => some acc
  | (p, t) :: rest, acc =>
    match addUnlocked layout p t.instruction.get_type t.write_sets acc with
    | none => none
    | some acc1 => unlockedLoop layout rest acc1

/-- The loops of lines 81-98 over the transitions. -/
def messagesLoop (layout : Layout) :
    List (Nat × PTransition) → List MsgHdr × List Nat → List MsgHdr × List Nat
  | [], acc => acc
  | (p, t) :: rest, acc => messagesLoop layout rest (addMessages layout p t.write_sets acc)

/-- `DualChannelConstraint::Common::Common(m)`; `none` is the `std::logic_error`
thrown at line 113. -/
def Common.construct (layout : Layout) (m : Machine) : Option CommonTables :=
  let cnt := countLoop m.regs m.lvars 0 0 []
  let msgs := messagesLoop layout (allTransitions m.automata 0) ([((0 : Int), [])], [])
  match unlockedLoop layout (allTransitions m.automata 0) [] with
  | none => none
  | some removed =>
    some { machine := m
           gvar_count := m.gvars.length
           max_lvar_count := cnt.1
           reg_count := cnt.2
           mem_size := m.gvars.length + m.automata.length * cnt.1
           messages := msgs.1
           nmls := msgs.2
           removed_lock_blocks_messages := removed }

/-- `Store(n)`: the store of `n` cells, each `STAR` (the constructor of
`ZStar<int>::Vector` is outside the sources; section 3 of the specification). -/
def Store.star (n : Nat) : Store := List.replicate n Val.STAR

/-- Modelled from the spec: `Store::assign(i, v)` (section 4.1): the store that is
equal except at `i`; an index out of range is fatal, `none`. -/
def Store.assign (s : Store) (i : Nat) (v : Int) : Option Store :=
  if i < s.length then some (s.set i (Val.int v)) else none

/-- `Lang::Expr::is_integer`. -/
def Expr.is_integer : Expr → Bool
  | Expr.integer _ => true
  | Expr.other => false

/-- `Lang::Expr::get_integer`. -/
def Expr.get_integer : Expr → Int
  | Expr.integer v => v
  | Expr.other => 0

/-- `Lang::Stmt::get_expr`. -/
def Stmt.get_expr : Stmt → Expr
  | Stmt.write _ e => e
  | Stmt.readassert _ e => e
  | _ => Expr.other

/-- `Lang::Stmt::get_memloc`. -/
def Stmt.get_memloc : Stmt → Nat
  | Stmt.write m _ => m
  | Stmt.readassert m _ => m
  | _ => 0

/-- `DualChannelConstraint::Common::store_of_write`, for a transition `t` with
`mem_size` and the layout of `common`; `none` when `assign` fails. -/
def store_of_write (layout : Layout) (mem_size : Nat) (t : PTransition) : Option Store :=
  let store := Store.star mem_size
  let ins := t.instruction
  if ins.get_type = StmtType.WRITE ∧ ins.get_expr.is_integer = true then
    store.assign (layout.index (layout.nml ins.get_memloc t.pid)) ins.get_expr.get_integer
  else if (ins.get_type = StmtType.LOCKED ∨ ins.get_type = StmtType.SLOCKED) ∧
      ins.get_statement_count = 1 ∧
      (ins.get_statement 0).get_type = StmtType.WRITE ∧
      (ins.get_statement 0).get_expr.is_integer = true then
    store.assign (layout.index (layout.nml (ins.get_statement 0).get_memloc t.pid))
      (ins.get_statement 0).get_expr.get_integer
  else if ins.get_type = StmtType.LOCKED ∧ ins.get_statement_count = 1 ∧
      (ins.get_statement 0).get_type = StmtType.SEQUENCE then
    let seq := ins.get_statement 0
    if seq.get_statement_count = 2 ∧
        (seq.get_statement 0).get_type = StmtType.READASSERT ∧
        (seq.get_statement 1).get_type = StmtType.WRITE ∧
        (seq.get_statement 1).get_expr.is_integer = true then
      store.assign (layout.index (layout.nml (seq.get_statement 1).get_memloc t.pid))
        (seq.get_statement 1).get_expr.get_integer
    else some store
  else some store

/-- The test of lines 200-201 (and 208-209, 217-218) on one cell `v` against the
declaration `d`: the cell contradicts the declared initial value. -/
def contradicts (v : Val) (d : VarDecl) : Bool :=
  v != Val.STAR && !d.is_wild && v.get_int != d.get_value

/-- The loop of lines 186-190 over the control states. -/
def pcsLoop : List Int → Bool
  | [] => true
  | pc :: rest => if pc ≠ 0 then false else pcsLoop rest

/-- The loop of lines 191-195 over the channels. -/
def channelsEmptyLoop : List (List Msg) → Bool
  | [] => true
  | ch :: rest => if ch.length ≠ 0 then false else channelsEmptyLoop rest

/-- The loop of lines 198-204 over the global variables from index `i` on; `str`
is `mems[0]`.  A read beyond the store (undefined in the source) reads
`STAR`. -/
def gvarsLoop (str : Store) : List VarDecl → Nat → Bool
  | [], _ => true
  | d :: rest, i => if contradicts (str.getD i Val.STAR) d then false else gvarsLoop str rest (i + 1)

/-- The inner loop of lines 206-212 over the local variables of process `p` from
index `i` on. -/
def lvarsInnerLoop (layout : Layout) (str : Store) (p : Nat) : List VarDecl → Nat → Bool
  | [], _ => true
  | d :: rest, i =>
    if contradicts (str.getD (layout.index (layout.local_nml i p)) Val.STAR) d then false
    else lvarsInnerLoop layout str p rest (i + 1)

/-- The loop of lines 205-213 over the processes `p, ..., pcs.size() - 1`; the
first argument counts the processes that are left. -/
def lvarsLoop (layout : Layout) (str : Store) (lvars : List (List VarDecl)) :
    Nat → Nat → Bool
  | 0, _ => true
  | n + 1, p =>
    if lvarsInnerLoop layout str p (lvars.getD p []) 0 then
      lvarsLoop layout str lvars n (p + 1)
    else false

/-- The inner loop of lines 216-221 over the registers `i, ..., reg_count[p] - 1`
of one process; the first argument counts the registers that are left. -/
def regsInnerLoop (store : Store) (decls : List VarDecl) : Nat → Nat → Bool
  | 0, _ => true
  | n + 1, i =>
    if contradicts (store.getD i Val.STAR) (decls.getD i { value := none }) then false
    else regsInnerLoop store decls n (i + 1)

/-- The loop of lines 215-222 over the register stores from index `p` on. -/
def regsLoop (reg_count : List Nat) (regs : List (List VarDecl)) :
    List Store → Nat → Bool
  | [], _ => true
  | store :: rest, p =>
    if regsInnerLoop store (regs.getD p []) (reg_count.getD p 0) 0 then
      regsLoop reg_count regs rest (p + 1)
    else false

/-- `DualChannelConstraint::is_init_state`, with the tables and the layout of
`common`. -/
def DualChannelConstraint.is_init_state (common : CommonTables) (layout : Layout)
    (c : DualChannelConstraint) : Bool :=
  if pcsLoop c.pcs = false then false
  else if channelsEmptyLoop c.channels = false then false
  else if gvarsLoop (c.mems.getD 0 []) common.machine.gvars 0 = false then false
  else if lvarsLoop layout (c.mems.getD 0 []) common.machine.lvars c.pcs.length 0 = false
    then false
  else if regsLoop common.reg_count common.machine.regs c.reg_stores 0 = false then false
  else true

/-- The cell agrees with the declaration: it is `STAR`, or the declared initial
value is wild, or the declared value is the value of the cell. -/
def CellOk (v : Val) (d : VarDecl) : Prop :=
  v = Val.STAR ∨ d.value = none ∨ d.value = some v.get_int

/-- The layout in which a location, a normalized location and a cell are the
same number. -/
def idLayout : Layout :=
  { nml := fun m _ => m, index := fun n => n, global_nml := fun i => i,
    local_nml := fun i _ => i }

/-- A transition of process 0: the block of type LOCKED that writes the
locations 0 and 1 together. -/
def lockedPairTransition : PTransition :=
  { pid := 0
    instruction := Stmt.locked [Stmt.sequence
      [Stmt.write 0 (Expr.integer 1), Stmt.write 1 (Expr.integer 1)]]
    write_sets := [[0, 1]] }

/-- The same block with type SLOCKED. -/
def slockedPairTransition : PTransition :=
  { pid := 0
    instruction := Stmt.slocked [Stmt.sequence
      [Stmt.write 0 (Expr.integer 1), Stmt.write 1 (Expr.integer 1)]]
    write_sets := [[0, 1]] }

/-- The machine of one process with one state, two global variables and the
transition `lockedPairTransition`. -/
def lockedPair : Machine :=
  { automata := [[[lockedPairTransition]]]
    gvars := [{ value := some 0 }, { value := some 0 }]
    lvars := [[]]
    regs := [[]] }

/-- The machine of one process with one state, two global variables and the
transition `slockedPairTransition`. -/
def slockedPair : Machine :=
  { automata := [[[slockedPairTransition]]]
    gvars := [{ value := some 0 }, { value := some 0 }]
    lvars := [[]]
    regs := [[]] }

/-! ## `main.cpp`: the command line, `fencins` and `reachability` -/

/-- `struct Flag` of `main.cpp`. -/
structure Flag where
  name : String
  given_name : String
  given_by_user : Bool
  has_argument : Bool
  argument : String
  deriving DecidableEq, Repr

/-- `Flag(name, given_name, given_by_user)`. -/
def Flag.plain (name given_name : String) (given_by_user : Bool) : Flag :=
  { name := name, given_name := given_name, given_by_user := given_by_user,
    has_argument := false, argument := "" }

/-- `Flag(name, given_name, given_by_user, argument)`. -/
def Flag.withArgument (name given_name : String) (given_by_user : Bool)
    (argument : String) : Flag :=
  { name := name, given_name := given_name, given_by_user := given_by_user,
    has_argument := true, argument := argument }

/-- `std::map<std::string,Flag>` as an association list with one entry per key. -/
abbrev FlagMap := List (String × Flag)

/-- `flags.find(key)`, `none` for `flags.end()`. -/
def FlagMap.find : FlagMap → String → Option Flag
  | [], _ => none
  | (k, f) :: rest, key => if k = key then some f else FlagMap.find rest key

/-- `flags.erase(key)`. -/
def FlagMap.erase : FlagMap → String → FlagMap
  | [], _ => []
  | (k, f) :: rest, key =>
    if k = key then FlagMap.erase rest key else (k, f) :: FlagMap.erase rest key

/-- `flags[key] = f`. -/
def FlagMap.assign (m : FlagMap) (key : String) (f : Flag) : FlagMap :=
  (key, f) :: FlagMap.erase m key

/-- `flags.count(key)`. -/
def FlagMap.count (m : FlagMap) (key : String) : Nat :=
  if (FlagMap.find m key).isSome then 1 else 0

/-- `flags.find(key)->second.argument`; the sources read it only where the key is
present, the empty string stands for the other case. -/
def FlagMap.argument (m : FlagMap) (key : String) : String :=
  match FlagMap.find m key with
  | some f => f.argument
  | none => ""

/-- `enum command` of `main`. -/
inductive Command where
  | UNDEF
  | DOTIFY
  | TEST
  | REACHABILITY
  | FENCINS
  deriving DecidableEq, Repr

/-- The branches of the chain of comparisons of `argv[i]` in `main` (lines
573-707): a command; a flag without value, stored under `name`; a flag with a
value, stored under `name`; `--json`; the final `else if` and `else`. -/
inductive ArgKind where
  | command (c : Command)
  | plain (name : String)
  | valued (name : String)
  | json
  | other
  deriving DecidableEq, Repr

/-- The chain of comparisons of lines 573-692, in the order of the source. -/
def classify (a : String) : ArgKind :=
  if a = "dotify" then ArgKind.command Command.DOTIFY
  else if a = "reach" then ArgKind.command Command.REACHABILITY
  else if a = "fencins" then ArgKind.command Command.FENCINS
  else if a = "test" then ArgKind.command Command.TEST
  else if a = "--cegar" then ArgKind.plain "cegar"
  else if a = "-o1" ∨ a = "--only-one" then ArgKind.plain "only-one"
  else if a = "-v" ∨ a = "--verbose" then ArgKind.plain "verbose"
  else if a = "-vv" ∨ a = "--very-verbose" then ArgKind.plain "very-verbose"
  else if a = "-vvv" ∨ a = "--very-very-verbose" then ArgKind.plain "very-very-verbose"
  else if a = "-o" ∨ a = "--output" then ArgKind.valued "o"
  else if a = "--rff" then ArgKind.plain "rff"
  else if a = "--max-refinements" then ArgKind.valued "max-refinements"
  else if a = "-k" then ArgKind.valued "k"
  else if a = "--fencins-minimality" ∨ a = "--fmin" then ArgKind.valued "fmin"
  else if a = "-a" ∨ a = "--abstraction" then ArgKind.valued "a"
  else if a = "--version" ∨ a = "-V" then ArgKind.plain "version"
  else if a = "--json" then ArgKind.json
  else ArgKind.other

/-- The variables of `main` that the loop over `argv` sets: `cmd`, `flags`, the
file that `input_stream` reads (`none` for `std::cin`) and whether the stream
of json directives was set. -/
structure ParseState where
  cmd : Command
  flags : FlagMap
  input : Option String
  json : Bool
  deriving DecidableEq, Repr

/-- `needs_input_stream.count(cmd)`. -/
def needs_input_stream (cmd : Command) : Bool :=
  cmd = Command.REACHABILITY ∨ cmd = Command.DOTIFY ∨ cmd = Command.FENCINS

/-- The loop of lines 572-708 over `argv[i], ..., argv[argc-1]`; `fileGood a` is
`input_stream->good()` after opening the file `a`; `Except.error code` is
`return code` from inside the loop. A flag with a value consumes the next
argument (`i++`); `i < argc-1` is `rest ≠ []`. -/
def parseLoop (fileGood : String → Bool) :
    List String → ParseState → Except Int ParseState
  | [], st => Except.ok st
  | a :: rest, st =>
    match classify a with
    | ArgKind.command c =>
      if st.cmd = Command.UNDEF then parseLoop fileGood rest { st with cmd := c }
      else Except.error 1
    | ArgKind.plain name =>
      parseLoop fileGood rest
        { st with flags := FlagMap.assign st.flags name (Flag.plain name a true) }
    | ArgKind.valued name =>
      if FlagMap.count st.flags name ≠ 0 then Except.error 1
      else
        match rest with
        | [] => Except.error 1
        | v :: rest1 =>
          if name = "a" ∧ ¬ (v = "sb" ∨ v = "pb" ∨ v = "vips") then Except.error 1
          else
            parseLoop fileGood rest1
              { st with flags :=
                  FlagMap.assign st.flags name (Flag.withArgument name a true v) }
    | ArgKind.json => parseLoop fileGood rest { st with json := true }
    | ArgKind.other =>
      if rest = [] ∧ needs_input_stream st.cmd = true then
        if fileGood a = true then parseLoop fileGood rest { st with input := some a }
        else Except.error 1
      else Except.error 1

/-- What `main` does: it returns a code without calling a command, or it calls
the function of the command `cmd` with `flags` and the input stream. -/
inductive MainResult where
  | returned (code : Int)
  | dispatch (cmd : Command) (flags : FlagMap) (input : Option String)
  deriving DecidableEq, Repr

/-- The function `main` up to the `switch` of line 738, for `argv` (with
`argv[0]`). -/
def main (fileGood : String → Bool) (argv : List String) : MainResult :=
  match parseLoop fileGood argv.tail
      { cmd := Command.UNDEF, flags := [], input := none, json := false } with
  | Except.error code => MainResult.returned code
  | Except.ok st =>
    if FlagMap.count st.flags "version" ≠ 0 then MainResult.returned 0
    else if st.cmd = Command.UNDEF then MainResult.returned 1
    else
      let flags :=
        if FlagMap.count st.flags "a" = 0 then
          FlagMap.assign st.flags "a" (Flag.withArgument "a" "-a" false "sb")
        else st.flags
      let flags := FlagMap.erase flags "verbose"
      let flags := FlagMap.erase flags "very-verbose"
      let flags := FlagMap.erase flags "very-very-verbose"
      MainResult.dispatch st.cmd flags st.input

/-- The arguments of the command line as the loop of `main` reads them, by
position: a command, a flag without value, a flag with the value that follows
it (`none` when the vector ends with the flag), `--json`, or an argument that
is none of these, with whether it is the last argument. -/
inductive Item where
  | command (c : Command)
  | plain (name : String)
  | valued (name : String) (value : Option String)
  | json
  | unknown (final : Bool)
  deriving DecidableEq, Repr

/-- The items of an argument vector (without `argv[0]`): the argument after a
flag with a value is its value and no item of its own. -/
def items : List String → List Item
  | [] => []
  | a :: rest =>
    match classify a with
    | ArgKind.command c => Item.command c :: items rest
    | ArgKind.plain name => Item.plain name :: items rest
    | ArgKind.valued name =>
      match rest with
      | [] => [Item.valued name none]
      | v :: rest1 => Item.valued name (some v) :: items rest1
    | ArgKind.json => Item.json :: items rest
    | ArgKind.other => Item.unknown (decide (rest = [])) :: items rest

/-- An item that names a command. -/
def Item.isCommand : Item → Bool
  | Item.command _ => true
  | _ => false

/-- An item that is the flag with a value stored under `name`. -/
def Item.isValued (name : String) : Item → Bool
  | Item.valued n _ => decide (n = name)
  | _ => false

/-- The argument vectors with invalid flags: more than one command; no command
and no `--version`; one of `-o`, `-a`, `-k`, `--fmin`, `--max-refinements`
twice; one of these flags at the end without its value; `-a` with a value other
than `sb`, `pb`, `vips`; an unrecognised argument that is not the last one. -/
def InvalidFlags (args : List String) : Prop :=
  2 ≤ ((items args).filter Item.isCommand).length ∨
  ((∀ it ∈ items args, Item.isCommand it = false) ∧ Item.plain "version" ∉ items args) ∨
  (∃ name ∈ ["o", "a", "k", "fmin", "max-refinements"],
    2 ≤ ((items args).filter (Item.isValued name)).length) ∨
  (∃ name ∈ ["o", "a", "k", "fmin", "max-refinements"],
    Item.valued name none ∈ items args) ∨
  (∃ v, Item.valued "a" (some v) ∈ items args ∧ ¬ (v = "sb" ∨ v = "pb" ∨ v = "vips")) ∨
  Item.unknown false ∈ items args

/-- What the functions of the commands read of the parsed machine:
`machine->predicates` (`none` for a predicate that is not nullary, on which
`convert` throws) and the result of `PbConstraint::extract_predicates`. -/
structure MachineInfo where
  predicates : List (Option Nat)
  extracted : List Nat
  deriving DecidableEq, Repr

/-- The loops of lines 192-194 and 387-389: `none` when `convert` throws. -/
def convertAll : List (Option Nat) → Option (List Nat)
  | [] => some []
  | none :: _ => none
  | some p :: rest => (convertAll rest).map (fun ps => p :: ps)

/-- The `Reachability::Arg` that is handed to the analysis. -/
inductive ReachArg where
  | pbCegar (k : Int) (preds : List Nat) (max_refinements : Int)
  | pbExact (k : Int) (preds : List Nat)
  | sb
  | vips
  deriving DecidableEq, Repr

/-- The `max_refinements` argument of `PbCegar::Arg`. -/
def ReachArg.max_refinements : ReachArg → Option Int
  | ReachArg.pbCegar _ _ n => some n
  | _ => none

/-- The lambda of lines 197-222 with its captures `preds` (by reference, so the
new value is returned), `k` and `max_refinements`; `prev_res` is the predicate
set of the previous result (`preds2`), `none` for a null pointer. -/
def pbCegarArgInit (k max_refinements : Int) (preds : List Nat)
    (prev_res : Option (List Nat)) : List Nat × ReachArg :=
  let preds1 :=
    match prev_res with
    | some preds2 => if preds2.length > preds.length then preds2 else preds
    | none => preds
  (preds1, ReachArg.pbCegar k preds1 max_refinements)

/-- Successive calls of the lambda, each with the predicate set of a previous
result: the values of `preds` after each call. -/
def pbCegarArgInitCalls (k max_refinements : Int) :
    List Nat → List (Option (List Nat)) → List (List Nat)
  | _, [] => []
  | preds, prev :: rest =>
    (pbCegarArgInit k max_refinements preds prev).1 ::
      pbCegarArgInitCalls k max_refinements
        (pbCegarArgInit k max_refinements preds prev).1 rest

/-- The `reach_arg_init_t` closures that `fencins` builds. -/
inductive ArgInit where
  | pbCegar (k : Int) (preds : List Nat) (max_refinements : Int)
  | pbExact (k : Int) (preds : List Nat)
  | sb
  | vips
  deriving DecidableEq, Repr

/-- A call of the closure: the closure after the call and the argument it
returns. -/
def ArgInit.call : ArgInit → Option (List Nat) → ArgInit × ReachArg
  | ArgInit.pbCegar k preds n, prev =>
    (ArgInit.pbCegar k (pbCegarArgInit k n preds prev).1 n, (pbCegarArgInit k n preds prev).2)
  | ArgInit.pbExact k preds, _ => (ArgInit.pbExact k preds, ReachArg.pbExact k preds)
  | ArgInit.sb, _ => (ArgInit.sb, ReachArg.sb)
  | ArgInit.vips, _ => (ArgInit.vips, ReachArg.vips)

/-- `Fencins::min_aspect_t`. -/
inductive MinAspect where
  | COST
  | SUBSET
  deriving DecidableEq, Repr

/-- The fencer handed to `Fencins::fencins`. -/
inductive Fencer where
  | tsoSimpleLocked
  | vipsSimple
  deriving DecidableEq, Repr

/-- The computation of synchronization sets that `fencins` starts:
`TsoFencins::fencins` or `Fencins::fencins`. -/
inductive FencinsCall where
  | tso (init : ArgInit) (only_one : Bool)
  | general (init : ArgInit) (fencer : Fencer) (aspect : MinAspect) (only_one : Bool)
  deriving DecidableEq, Repr

/-- The closure handed to the computation. -/
def FencinsCall.init : FencinsCall → ArgInit
  | FencinsCall.tso init _ => init
  | FencinsCall.general init _ _ _ => init

/-- What a command does: it returns `code`, after the analysis `call` if there is
one (the code is then returned once the analysis has returned), or an exception
leaves it before any analysis. -/
inductive CmdResult (α : Type) where
  | returned (code : Int) (call : Option α)
  | threw
  deriving DecidableEq, Repr

/-- The exit code of `main` for the result of a command: the `catch` clauses set
`retval = 1`. -/
def CmdResult.exitCode {α : Type} : CmdResult α → Int
  | CmdResult.returned code _ => code
  | CmdResult.threw => 1

/-- The analysis that the command ran. -/
def CmdResult.analysis {α : Type} : CmdResult α → Option α
  | CmdResult.returned _ call => call
  | CmdResult.threw => none

/-- The value of an integer flag: `parseInt s` is the integer that `ss >> x`
reads from `s` when it succeeds and reaches `ss.eof()`; `dflt` when the flag is
absent. -/
def intFlag (parseInt : String → Option Int) (flags : FlagMap) (key : String)
    (dflt : Int) : Option Int :=
  if FlagMap.count flags key ≠ 0 then parseInt (FlagMap.argument flags key) else some dflt

/-- The value of `-k` (lines 173-180 and 395-402): invalid also when `k < 1`. -/
def kFlag (parseInt : String → Option Int) (flags : FlagMap) : Option Int :=
  match intFlag parseInt flags "k" 1 with
  | none => none
  | some k => if k < 1 then none else some k

/-- The variable `fmin` of lines 235-238 and 280-283. -/
def fminOf (flags : FlagMap) : String :=
  if FlagMap.count flags "fmin" ≠ 0 then FlagMap.argument flags "fmin" else "cheap"

/-- Lines 239-267 and 284-312: the computation for `fmin`, or the return of 1. -/
def tsoFencins (flags : FlagMap) (init : ArgInit) : CmdResult FencinsCall :=
  let fmin := fminOf flags
  let only_one := decide (FlagMap.count flags "only-one" ≠ 0)
  if fmin = "cheap" then CmdResult.returned 0 (some (FencinsCall.tso init only_one))
  else if fmin = "subset" ∨ fmin = "cost" then
    CmdResult.returned 0 (some (FencinsCall.general init Fencer.tsoSimpleLocked
      (if fmin = "cost" then MinAspect.COST else MinAspect.SUBSET) only_one))
  else CmdResult.returned 1 none

/-- Lines 314-325: `min_aspect` for `-a vips`, `none` for the return of 1. -/
def vipsAspect (flags : FlagMap) : Option MinAspect :=
  if FlagMap.count flags "fmin" ≠ 0 then
    if FlagMap.argument flags "fmin" = "cost" then some MinAspect.COST
    else if FlagMap.argument flags "fmin" = "subset" then some MinAspect.SUBSET
    else none
  else some MinAspect.SUBSET

/-- The function `fencins(flags, input_stream)`; `machine` is the result of
`get_machine`, `none` when it throws. -/
def fencins (parseInt : String → Option Int) (machine : Option MachineInfo)
    (flags : FlagMap) : CmdResult FencinsCall :=
  match machine with
  | none => CmdResult.threw
  | some m =>
    match intFlag parseInt flags "max-refinements" (-1) with
    | none => CmdResult.returned 1 none
    | some max_refinements =>
      if FlagMap.argument flags "a" = "pb" then
        match kFlag parseInt flags with
        | none => CmdResult.returned 1 none
        | some k =>
          if FlagMap.count flags "cegar" ≠ 0 then
            match convertAll m.predicates with
            | none => CmdResult.threw
            | some preds => tsoFencins flags (ArgInit.pbCegar k preds max_refinements)
          else tsoFencins flags (ArgInit.pbExact k m.extracted)
      else if FlagMap.argument flags "a" = "sb" then tsoFencins flags ArgInit.sb
      else if FlagMap.argument flags "a" = "vips" then
        match vipsAspect flags with
        | none => CmdResult.returned 1 none
        | some min_aspect =>
          CmdResult.returned 0 (some (FencinsCall.general ArgInit.vips Fencer.vipsSimple
            min_aspect (decide (FlagMap.count flags "only-one" ≠ 0))))
      else CmdResult.returned 1 none

/-- The function `reachability(flags, input_stream)`; `machine` is the result of
`get_machine`, `none` when it throws. -/
def reachability (parseInt : String → Option Int) (machine : Option MachineInfo)
    (flags : FlagMap) : CmdResult ReachArg :=
  match machine with
  | none => CmdResult.threw
  | some m =>
    if FlagMap.argument flags "a" = "pb" then
      if FlagMap.count flags "cegar" > 0 then
        CmdResult.returned 0 (some (ReachArg.pbCegar 1 [] (-1)))
      else
        match (if m.predicates.length ≠ 0 then convertAll m.predicates
               else some m.extracted) with
        | none => CmdResult.threw
        | some preds =>
          match kFlag parseInt flags with
          | none => CmdResult.returned 1 none
          | some k => CmdResult.returned 0 (some (ReachArg.pbExact k preds))
    else if FlagMap.argument flags "a" = "sb" then CmdResult.returned 0 (some ReachArg.sb)
    else if FlagMap.argument flags "a" = "vips" then
      CmdResult.returned 0 (some ReachArg.vips)
    else CmdResult.returned 1 none

/-- A reading of decimal digits, for the examples. -/
def digitsValue : List Char → Nat → Option Nat
  | [], acc => some acc
  | c :: rest, acc =>
    if c.isDigit then digitsValue rest (acc * 10 + (c.toNat - 48)) else none

/-- An instance of `parseInt` for the examples: an optional sign and decimal
digits, nothing else. -/
def parseDecimal (s : String) : Option Int :=
  match s.data with
  | [] => none
  | '-' :: d :: rest => (digitsValue (d :: rest) 0).map (fun n => - (n : Int))
  | '+' :: d :: rest => (digitsValue (d :: rest) 0).map (fun n => (n : Int))
  | cs => (digitsValue cs 0).map (fun n => (n : Int))

/-- The flags of `main` for an argument vector that it dispatches, `[]`
otherwise. -/
def flagsOf (r : MainResult) : FlagMap :=
  match r with
  | MainResult.dispatch _ flags _ => flags
  | MainResult.returned _ => []

/-- What a run of the loop that reaches its end says of the items. -/
def ParseOk (args : List String) (st st1 : ParseState) : Prop :=
  ((items args).filter Item.isCommand).length +
      (if st.cmd = Command.UNDEF then 0 else 1) ≤ 1 ∧
  ((∀ it ∈ items args, Item.isCommand it = false) → st.cmd = Command.UNDEF →
      st1.cmd = Command.UNDEF) ∧
  (Item.plain "version" ∉ items args → FlagMap.count st.flags "version" = 0 →
      FlagMap.count st1.flags "version" = 0) ∧
  (∀ name, ((items args).filter (Item.isValued name)).length +
      FlagMap.count st.flags name ≤ 1) ∧
  (∀ name, Item.valued name none ∉ items args) ∧
  (∀ v, Item.valued "a" (some v) ∈ items args → v = "sb" ∨ v = "pb" ∨ v = "vips") ∧
  Item.unknown false ∉ items args

/-- The flags with which `main` dispatches
`memorax reach -a pb --cegar --max-refinements 5 file.rmm`. -/
def reachCegarFlags : FlagMap :=
  flagsOf (main (fun _ => true)
    ["memorax", "reach", "-a", "pb", "--cegar", "--max-refinements", "5", "file.rmm"])

/-- The flags with which `main` dispatches
`memorax fencins -a pb --cegar --max-refinements 5 file.rmm`. -/
def fencinsCegarFlags : FlagMap :=
  flagsOf (main (fun _ => true)
    ["memorax", "fencins", "-a", "pb", "--cegar", "--max-refinements", "5", "file.rmm"])

/-- The flags with which `main` dispatches `memorax reach -a sb -k foo file.rmm`. -/
def reachSbBadKFlags : FlagMap :=
  flagsOf (main (fun _ => true) ["memorax", "reach", "-a", "sb", "-k", "foo", "file.rmm"])

/-- The flags with which `main` dispatches
`memorax fencins -a pb -k 0 file.rmm`. -/
def fencinsPbBadKFlags : FlagMap :=
  flagsOf (main (fun _ => true) ["memorax", "fencins", "-a", "pb", "-k", "0", "file.rmm"])

/-- The flags with which `main` dispatches
`memorax fencins -a vips --fmin cheap file.rmm`. -/
def fencinsVipsCheapFlags : FlagMap :=
  flagsOf (main (fun _ => true)
    ["memorax", "fencins", "-a", "vips", "--fmin", "cheap", "file.rmm"])

/-- A machine without predicates. -/
def plainMachine : MachineInfo := { predicates := [], extracted := [] }

/-! ## `dual_channel_constraint.cpp`: `index_of_read`, and the components of a comparison -/

/-- The loop of lines 299-304 of `index_of_read` over `channels[pid]` reversed: the
head of the list is the message at the current index `i`, which is the length of
the tail; `none` when the loop ends with `i < 0`. -/
def indexLoop (pid : Int) (nml : Nat) : List Msg → Option Nat
  | [] => none
  | m :: ms =>
    if m.wpid = pid ∧ nml ∈ m.nmls then some ms.length else indexLoop pid nml ms

/-- `DualChannelConstraint::index_of_read(nml, pid)`.  A read of `channels` beyond
its size (undefined in the source) reads an empty channel. -/
def DualChannelConstraint.index_of_read (c : DualChannelConstraint) (nml : Nat)
    (pid : Nat) : Int :=
  match indexLoop (pid : Int) nml (c.channels.getD pid []).reverse with
  | some i => (i : Int)
  | none =>
    if (c.channels.getD pid []).length > 0 then
      match (c.channels.getD pid [])[0]? with
      | some m => if m.wpid = -1 ∧ nml ∈ m.nmls then -1 else -2
      | none => -2
    else -2

/-- The component comparisons of two constraints: the register stores process by
process, `mems[0]`, and the messages of the channels position by position. -/
def DualChannelConstraint.components (a b : DualChannelConstraint) : List Comparison :=
  List.zipWith Store.entailment_compare a.reg_stores b.reg_stores ++
    [Store.entailment_compare (a.mems.getD 0 []) (b.mems.getD 0 [])] ++
    (List.zipWith (List.zipWith Msg.entailment_compare) a.channels b.channels).flatten

/-- Position `k` of the channel `ch` of process `ci` holds a message written by
`ci` and no later position holds a message written by `ci` with the same
locations. -/
def LastOwnAt (ci : Int) (ch : List Msg) (k : Nat) : Prop :=
  ∃ m, ch[k]? = some m ∧ m.wpid = ci ∧
    ∀ (k1 : Nat) (d : Msg), k < k1 → ch[k1]? = some d → ¬ (d.wpid = ci ∧ d.nmls = m.nmls)

/-- The characterization of a channel of process `ci`, oldest message first: the
messages written by `ci` that no later message written by `ci` with the same
locations follows. -/
def lastOwn (ci : Int) : List Msg → List MsgCharacterization
  | [] => []
  | m :: ms =>
    if m.wpid = ci ∧ ∀ d ∈ ms, ¬ (d.wpid = ci ∧ d.nmls = m.nmls) then
      (m.wpid, m.nmls) :: lastOwn ci ms
    else lastOwn ci ms

/-- A message of process `p` to the location `x` whose store holds the value `v`. -/
def vmsg (p : Int) (x : Nat) (v : Int) : Msg :=
  { wpid := p, nmls := [x], store := [Val.int v] }

end Memorax

namespace MinCoverage

/-! ## Candidates of `min_coverage.tcc` built by calls of `insert` -/

/-- The candidate obtained from the empty candidate over `T` by the calls
`insert(s)` for the elements `s` of `ss`, in this order. -/
def CandSet.inserts (T : List (List Nat)) (cost_fun : Nat → Int) (ss : List Nat) : CandSet :=
  ss.foldl (CandSet.insert T cost_fun) (CandSet.empty T)

/-- The candidates that a run of `min_coverage` can push: the empty candidate
(line 179) and, for a candidate `cs` without total coverage, the copies of `cs`
with an element of `Tvec[cs.get_uncovered_Ti()]` inserted (lines 185-192). -/
inductive InRun (T : List (List Nat)) (cost : Nat → Int) : CandSet → Prop where
  | empty : InRun T cost (CandSet.empty T)
  | push (cs : CandSet) (s : Nat) : InRun T cost cs → cs.total_coverage = false →
      s ∈ T.getD cs.get_uncovered_Ti.toNat [] → InRun T cost (CandSet.insert T cost cs s)

/-- The set `C` hits every member of `T`. -/
def Hits (T : List (List Nat)) (C : List Nat) : Prop :=
  ∀ t ∈ T, ∃ s ∈ t, s ∈ C

/-- A cost function with values close to `INT_MAX`: the elements 0, 1, 2 cost 2,
1 and 2147483647, every other element costs 2147483646. -/
def wideCost (s : Nat) : Int :=
  if s = 0 then 2 else if s = 1 then 1 else if s = 2 then 2147483647 else 2147483646

/-- A cost function with strictly positive values close to `INT_MAX`: the
elements 0 and 1 cost 1 and 2147483647, every other element costs 2147483646. -/
def steepCost (s : Nat) : Int :=
  if s = 0 then 1 else if s = 1 then 2147483647 else 2147483646

end MinCoverage

/-! # Theorems -/

namespace MinCoverage

/-! ## `min_coverage`: the search returns a cheapest hitting set -/

theorem mem_setInsert (s x : Nat) (l : List Nat) :
    x ∈ setInsert s l ↔ x = s ∨ x ∈ l := by
  induction l with
  | nil => simp [setInsert]
  | cons y ys ih =>
    unfold setInsert
    split_ifs with h1 h2
    · simp
    · subst h2; simp
    · simp only [List.mem_cons, ih]; tauto

theorem intWrap_of_range {x : Int} (h1 : -2147483648 ≤ x) (h2 : x ≤ 2147483647) :
    intWrap x = x := by
  unfold intWrap
  omega

theorem intWrap_add_left (a b : Int) : intWrap (intWrap a + b) = intWrap (a + b) := by
  unfold intWrap
  omega

theorem intWrap_idem (a : Int) : intWrap (intWrap a) = intWrap a := by
  unfold intWrap
  omega

theorem totalCost_setInsert (cost : Nat → Int) (s : Nat) (l : List Nat) (h : s ∉ l) :
    totalCost cost (setInsert s l) = totalCost cost l + cost s := by
  induction l with
  | nil => simp [setInsert, totalCost]
  | cons y ys ih =>
    have hy : s ≠ y := fun e => h (by simp [e])
    have hys : s ∉ ys := fun e => h (by simp [e])
    unfold setInsert
    split_ifs with h1
    · simp [totalCost]; ring
    · have := ih hys
      simp only [totalCost, List.map_cons, List.sum_cons] at this ⊢
      rw [this]; ring

theorem nodup_setInsert (s : Nat) (l : List Nat) (hs : s ∉ l) (h : l.Nodup) :
    (setInsert s l).Nodup := by
  induction l with
  | nil => simp [setInsert]
  | cons y ys ih =>
    have hys : s ∉ ys := fun e => hs (by simp [e])
    have h' := List.nodup_cons.mp h
    unfold setInsert
    split_ifs with h1 h2
    · exact List.nodup_cons.mpr ⟨hs, h⟩
    · exact h
    · rw [List.nodup_cons]
      exact ⟨fun hm => by
        rcases (mem_setInsert s y ys).mp hm with e | e
        · exact h2 e.symm
        · exact h'.1 e, ih hys h'.2⟩

theorem extractTop_mem {q : List CandSet} {m : CandSet} {rest : List CandSet}
    (h : extractTop q = some (m, rest)) (x : CandSet) :
    x ∈ q ↔ x = m ∨ x ∈ rest := by
  induction q generalizing m rest with
  | nil => simp [extractTop] at h
  | cons c cs ih =>
    unfold extractTop at h
    cases hcs : extractTop cs with
    | none =>
      rw [hcs] at h
      simp only [Option.some.injEq, Prod.mk.injEq] at h
      obtain ⟨rfl, rfl⟩ := h
      cases cs with
      | nil => simp
      | cons d ds =>
        unfold extractTop at hcs
        cases hds : extractTop ds with
        | none => rw [hds] at hcs; simp at hcs
        | some p => rw [hds] at hcs; simp only at hcs; split_ifs at hcs
    | some p =>
      obtain ⟨m', rest'⟩ := p
      rw [hcs] at h
      simp only at h
      have ih' := ih hcs
      split_ifs at h with hg
      · simp only [Option.some.injEq, Prod.mk.injEq] at h
        obtain ⟨rfl, rfl⟩ := h
        simp only [List.mem_cons, ih']; tauto
      · simp only [Option.some.injEq, Prod.mk.injEq] at h
        obtain ⟨rfl, rfl⟩ := h
        simp

theorem extractTop_eq_none {q : List CandSet} (h : extractTop q = none) : q = [] := by
  cases q with
  | nil => rfl
  | cons c cs =>
    unfold extractTop at h
    cases hcs : extractTop cs with
    | none => rw [hcs] at h; simp at h
    | some p => rw [hcs] at h; simp only at h; split_ifs at h

theorem extractTop_cost_le {q : List CandSet} {m : CandSet} {rest : List CandSet}
    (h : extractTop q = some (m, rest)) : ∀ x ∈ q, m.cost ≤ x.cost := by
  induction q generalizing m rest with
  | nil => simp [extractTop] at h
  | cons c cs ih =>
    unfold extractTop at h
    cases hcs : extractTop cs with
    | none =>
      rw [hcs] at h
      simp only [Option.some.injEq, Prod.mk.injEq] at h
      obtain ⟨rfl, rfl⟩ := h
      have := extractTop_eq_none hcs
      subst this
      simp
    | some p =>
      obtain ⟨m', rest'⟩ := p
      rw [hcs] at h
      simp only at h
      have ih' := ih hcs
      split_ifs at h with hg
      · simp only [Option.some.injEq, Prod.mk.injEq] at h
        obtain ⟨rfl, rfl⟩ := h
        intro x hx
        rcases List.mem_cons.mp hx with e | e
        · subst e
          simp only [CandSet.gt, Bool.or_eq_true, decide_eq_true_eq, Bool.and_eq_true] at hg
          rcases hg with hg | hg
          · omega
          · omega
        · exact ih' x e
      · simp only [Option.some.injEq, Prod.mk.injEq] at h
        obtain ⟨rfl, rfl⟩ := h
        intro x hx
        rcases List.mem_cons.mp hx with e | e
        · subst e; exact le_refl _
        · have h1 := ih' x e
          simp only [CandSet.gt, Bool.or_eq_true, decide_eq_true_eq, Bool.and_eq_true,
            not_or, not_and] at hg
          have := hg.1
          omega

theorem extractTop_potential (k : Nat) {q : List CandSet} {m : CandSet}
    {rest : List CandSet} (h : extractTop q = some (m, rest)) :
    potential k q = expansions k (uncoveredCount m.coverage) + potential k rest := by
  induction q generalizing m rest with
  | nil => simp [extractTop] at h
  | cons c cs ih =>
    unfold extractTop at h
    cases hcs : extractTop cs with
    | none =>
      rw [hcs] at h
      simp only [Option.some.injEq, Prod.mk.injEq] at h
      obtain ⟨rfl, rfl⟩ := h
      have := extractTop_eq_none hcs
      subst this
      simp [potential]
    | some p =>
      obtain ⟨m', rest'⟩ := p
      rw [hcs] at h
      simp only at h
      have ih' := ih hcs
      split_ifs at h with hg
      · simp only [Option.some.injEq, Prod.mk.injEq] at h
        obtain ⟨rfl, rfl⟩ := h
        simp only [potential, ih']; omega
      · simp only [Option.some.injEq, Prod.mk.injEq] at h
        obtain ⟨rfl, rfl⟩ := h
        simp [potential]

theorem uncoveredFrom_spec (k : Nat) (cov : List Bool) :
    (uncoveredFrom k cov = -1 ∧ ∀ c ∈ cov, c = true) ∨
    ∃ j : Nat, uncoveredFrom k cov = ((k + j : Nat) : Int) ∧ cov[j]? = some false ∧
      ∀ j2, j2 < j → cov[j2]? = some true := by
  induction cov generalizing k with
  | nil => left; simp [uncoveredFrom]
  | cons c cs ih =>
    unfold uncoveredFrom
    cases c with
    | false =>
      right
      exact ⟨0, by simp, by simp, by intro j2 h; omega⟩
    | true =>
      simp only [Bool.not_true, Bool.false_eq_true, ↓reduceIte]
      rcases ih (k + 1) with ⟨h1, h2⟩ | ⟨j, h1, h2, h3⟩
      · left; exact ⟨h1, by simpa using h2⟩
      · right
        refine ⟨j + 1, ?_, by simpa using h2, ?_⟩
        · rw [h1]; congr 1; omega
        · intro j2 hj2
          cases j2 with
          | zero => simp
          | succ j3 => simpa using h3 j3 (by omega)

theorem expansions_mono (m : Nat) {a b : Nat} (h : a ≤ b) :
    expansions m a ≤ expansions m b := by
  induction b generalizing a with
  | zero => have : a = 0 := by omega
            subst this; exact le_refl _
  | succ b ih =>
    cases a with
    | zero => simp [expansions]
    | succ a =>
      simp only [expansions]
      have := ih (a := a) (by omega)
      have := Nat.mul_le_mul_left m this
      omega

theorem length_le_maxCard {T : List (List Nat)} {t : List Nat} (h : t ∈ T) :
    t.length ≤ maxCard T := by
  induction T with
  | nil => simp at h
  | cons u us ih =>
    simp only [maxCard]
    rcases List.mem_cons.mp h with e | e
    · subst e; exact le_max_left _ _
    · exact le_trans (ih e) (le_max_right _ _)

theorem uncoveredCount_zipWith_le (s : Nat) (cov : List Bool) (T : List (List Nat)) :
    uncoveredCount (List.zipWith (coverUpdate s) cov T) ≤ uncoveredCount cov := by
  induction cov generalizing T with
  | nil => simp [uncoveredCount]
  | cons c cs ih =>
    cases T with
    | nil => simp [uncoveredCount]
    | cons t ts =>
      simp only [List.zipWith_cons_cons, uncoveredCount]
      have := ih ts
      generalize uncoveredCount (List.zipWith (coverUpdate s) cs ts) = a at this ⊢
      cases c <;> by_cases hs : s ∈ t <;> simp [coverUpdate, hs] <;> omega

theorem uncoveredCount_zipWith_lt (s : Nat) (cov : List Bool) (T : List (List Nat))
    (j : Nat) (t : List Nat) (hc : cov[j]? = some false) (ht : T[j]? = some t)
    (hs : s ∈ t) :
    uncoveredCount (List.zipWith (coverUpdate s) cov T) + 1 ≤ uncoveredCount cov := by
  induction cov generalizing T j with
  | nil => simp at hc
  | cons c cs ih =>
    cases T with
    | nil => simp at ht
    | cons u us =>
      simp only [List.zipWith_cons_cons, uncoveredCount]
      cases j with
      | zero =>
        simp only [List.getElem?_cons_zero, Option.some.injEq] at hc ht
        subst hc
        rw [← ht] at hs
        have := uncoveredCount_zipWith_le s cs us
        generalize uncoveredCount (List.zipWith (coverUpdate s) cs us) = a at this ⊢
        simp [coverUpdate, hs]
        omega
      | succ j =>
        simp only [List.getElem?_cons_succ] at hc ht
        have := ih us j hc ht
        generalize uncoveredCount (List.zipWith (coverUpdate s) cs us) = a at this ⊢
        cases c <;> by_cases hs : s ∈ u <;> simp [coverUpdate, hs] <;> omega

theorem uncoveredCount_pos {cov : List Bool} {j : Nat} (h : cov[j]? = some false) :
    1 ≤ uncoveredCount cov := by
  induction cov generalizing j with
  | nil => simp at h
  | cons c cs ih =>
    cases j with
    | zero =>
      simp only [List.getElem?_cons_zero, Option.some.injEq] at h
      subst h; simp [uncoveredCount]
    | succ j =>
      simp only [List.getElem?_cons_succ] at h
      have := ih h
      simp only [uncoveredCount]; omega

theorem good_empty (T : List (List Nat)) (cost : Nat → Int) :
    Good T cost (CandSet.empty T) := by
  refine ⟨?_, ?_, ?_, ?_⟩
  · simp only [CandSet.empty, List.not_mem_nil, decide_False, List.any_eq_false]
    induction T with
    | nil => rfl
    | cons t ts ih =>
      simp only [List.length_cons, List.replicate_succ, List.map_cons, ih, List.cons.injEq,
        and_true]
      symm
      simp
  · simp [CandSet.empty, totalCost, intWrap]
  · simp [CandSet.empty]
  · simp [CandSet.empty]

theorem zipWith_coverUpdate (s : Nat) (set : List Nat) (T : List (List Nat)) :
    List.zipWith (coverUpdate s)
      (T.map (fun t => t.any (fun x => decide (x ∈ set)))) T =
    T.map (fun t => t.any (fun x => decide (x ∈ setInsert s set))) := by
  induction T with
  | nil => rfl
  | cons t ts ih =>
    simp only [List.map_cons, List.zipWith_cons_cons, ih, List.cons.injEq, and_true]
    simp only [coverUpdate]
    by_cases h1 : (t.any fun x => decide (x ∈ set)) = true
    · have : (t.any fun x => decide (x ∈ setInsert s set)) = true := by
        simp only [List.any_eq_true, decide_eq_true_eq] at h1 ⊢
        obtain ⟨x, hx, hxs⟩ := h1
        exact ⟨x, hx, (mem_setInsert s x set).mpr (Or.inr hxs)⟩
      simp [h1, this]
    · have h1' : (t.any fun x => decide (x ∈ set)) = false := by simpa using h1
      rw [h1']
      by_cases hs : s ∈ t
      · have : (t.any fun x => decide (x ∈ setInsert s set)) = true := by
          simp only [List.any_eq_true, decide_eq_true_eq]
          exact ⟨s, hs, (mem_setInsert s s set).mpr (Or.inl rfl)⟩
        simp [hs, this]
      · have : (t.any fun x => decide (x ∈ setInsert s set)) = false := by
          simp only [List.any_eq_false, decide_eq_true_eq]
          intro x hx hxs
          rcases (mem_setInsert s x set).mp hxs with e | e
          · subst e; exact hs hx
          · simp only [List.any_eq_false, decide_eq_true_eq] at h1'
            exact h1' x hx e
        simp [hs, this]

theorem not_mem_of_uncovered {T : List (List Nat)} {cost : Nat → Int} {cs : CandSet}
    (hg : Good T cost cs) {j : Nat} {t : List Nat} (hc : cs.coverage[j]? = some false)
    (ht : T[j]? = some t) {s : Nat} (hs : s ∈ t) : s ∉ cs.set := by
  rw [hg.1, List.getElem?_map, ht] at hc
  simp only [Option.map_some', Option.some.injEq, List.any_eq_false, decide_eq_true_eq] at hc
  exact hc s hs

theorem good_insert {T : List (List Nat)} {cost : Nat → Int} {cs : CandSet}
    (hg : Good T cost cs) {j : Nat} {t : List Nat} (hc : cs.coverage[j]? = some false)
    (ht : T[j]? = some t) {s : Nat} (hs : s ∈ t) :
    Good T cost (CandSet.insert T cost cs s) := by
  have hns := not_mem_of_uncovered hg hc ht hs
  obtain ⟨h1, h2, h3, h4⟩ := hg
  refine ⟨?_, ?_, ?_, ?_⟩
  · simp only [CandSet.insert]
    rw [h1]; exact zipWith_coverUpdate s cs.set T
  · simp only [CandSet.insert]
    rw [totalCost_setInsert cost s cs.set hns, h2, intWrap_add_left]
  · exact nodup_setInsert s cs.set hns h3
  · intro x hx
    rcases (mem_setInsert s x cs.set).mp hx with e | e
    · subst e; exact ⟨t, List.getElem?_mem ht, hs⟩
    · exact h4 x e

theorem totalCost_nonneg {cost : Nat → Int} (hnn : ∀ s, 0 ≤ cost s) (l : List Nat) :
    0 ≤ totalCost cost l := by
  unfold totalCost
  apply List.sum_nonneg
  intro x hx
  obtain ⟨s, _, rfl⟩ := List.mem_map.mp hx
  exact hnn s

theorem totalCost_le_of_subset {cost : Nat → Int} (hnn : ∀ s, 0 ≤ cost s)
    {l1 l2 : List Nat} (h1 : l1.Nodup) (h2 : l2.Nodup) (hsub : ∀ s ∈ l1, s ∈ l2) :
    totalCost cost l1 ≤ totalCost cost l2 := by
  rw [totalCost, totalCost, ← List.sum_toFinset cost h1, ← List.sum_toFinset cost h2]
  apply Finset.sum_le_sum_of_subset_of_nonneg
  · intro x hx
    exact List.mem_toFinset.mpr (hsub x (List.mem_toFinset.mp hx))
  · intro x _ _
    exact hnn x

/-- Without overflow the cost of a consistent candidate is the total cost of its
set: the costs are not negative and the costs of all elements of the members of
`T` together do not exceed `INT_MAX`. -/
theorem good_cost_exact {T : List (List Nat)} {cost : Nat → Int} {cs : CandSet}
    (hg : Good T cost cs) (hnn : ∀ s, 0 ≤ cost s)
    (hb : totalCost cost T.flatten.dedup ≤ 2147483647) :
    cs.cost = totalCost cost cs.set := by
  rw [hg.2.1]
  apply intWrap_of_range
  · have := totalCost_nonneg hnn cs.set
    omega
  · refine le_trans (totalCost_le_of_subset hnn hg.2.2.1 (List.nodup_dedup _) ?_) hb
    intro s hs
    obtain ⟨t, ht, hst⟩ := hg.2.2.2 s hs
    exact List.mem_dedup.mpr (List.mem_flatten.mpr ⟨t, ht, hst⟩)

theorem mem_pushChildren (T : List (List Nat)) (cost : Nat → Int) (cs : CandSet)
    (ss : List Nat) (q : List CandSet) (x : CandSet) :
    x ∈ pushChildren T cost cs ss q ↔ x ∈ q ∨ ∃ s ∈ ss, x = CandSet.insert T cost cs s := by
  induction ss generalizing q with
  | nil => simp [pushChildren]
  | cons s ss ih =>
    simp only [pushChildren, ih, List.mem_cons, exists_eq_or_imp]
    tauto

theorem potential_pushChildren (T : List (List Nat)) (cost : Nat → Int) (cs : CandSet)
    (m b : Nat) (ss : List Nat) (q : List CandSet)
    (h : ∀ s ∈ ss, uncoveredCount (CandSet.insert T cost cs s).coverage ≤ b) :
    potential m (pushChildren T cost cs ss q) ≤ ss.length * expansions m b + potential m q := by
  induction ss generalizing q with
  | nil => simp [pushChildren]
  | cons s ss ih =>
    simp only [pushChildren, List.length_cons]
    have h1 := ih (CandSet.insert T cost cs s :: q) (fun x hx => h x (List.mem_cons_of_mem _ hx))
    have h2 := expansions_mono m (h s (List.mem_cons_self _ _))
    simp only [potential] at h1
    rw [Nat.succ_mul]
    omega

/-- The search loop returns: from a queue of consistent candidates that holds a
candidate inside a set `C` hitting every member of `T`, with enough budget, the
loop returns the set of a consistent, totally covering candidate whose cost is at
most the cost of some consistent candidate inside `C`. -/
theorem search_returns (T : List (List Nat)) (cost : Nat → Int) (C : Nat → Prop)
    (hC : ∀ t ∈ T, ∃ s ∈ t, C s) :
    ∀ (fuel : Nat) (q : List CandSet), (∀ cs ∈ q, Good T cost cs) →
      potential (maxCard T) q ≤ fuel → (∃ cs ∈ q, ∀ s ∈ cs.set, C s) →
      ∃ cs cs0, search T cost fuel q = Outcome.returned cs.set ∧ Good T cost cs ∧
        cs.total_coverage = true ∧ Good T cost cs0 ∧ (∀ s ∈ cs0.set, C s) ∧
        cs.cost ≤ cs0.cost := by
  intro fuel
  induction fuel with
  | zero =>
    intro q hq hpot hex
    obtain ⟨c1, hc1, hc1C⟩ := hex
    unfold search
    cases htop : extractTop q with
    | none => rw [extractTop_eq_none htop] at hc1; simp at hc1
    | some p =>
      obtain ⟨cs, rest⟩ := p
      simp only
      have hcsq : cs ∈ q := (extractTop_mem htop cs).mpr (Or.inl rfl)
      by_cases htot : cs.total_coverage = true
      · simp only [htot, ↓reduceIte, CandSet.get_set]
        exact ⟨cs, c1, rfl, hq cs hcsq, htot, hq c1 hc1, hc1C, extractTop_cost_le htop c1 hc1⟩
      · exfalso
        have hpot' := extractTop_potential (maxCard T) htop
        rcases uncoveredFrom_spec 0 cs.coverage with ⟨h1, _⟩ | ⟨j, _, h2, _⟩
        · apply htot
          simp [CandSet.total_coverage, CandSet.get_uncovered_Ti, h1]
        · have := uncoveredCount_pos h2
          have h3 := expansions_mono (maxCard T) this
          simp only [expansions] at h3
          omega
  | succ fuel ih =>
    intro q hq hpot hex
    obtain ⟨c1, hc1, hc1C⟩ := hex
    unfold search
    cases htop : extractTop q with
    | none => rw [extractTop_eq_none htop] at hc1; simp at hc1
    | some p =>
      obtain ⟨cs, rest⟩ := p
      simp only
      have hcsq : cs ∈ q := (extractTop_mem htop cs).mpr (Or.inl rfl)
      by_cases htot : cs.total_coverage = true
      · simp only [htot, ↓reduceIte, CandSet.get_set]
        exact ⟨cs, c1, rfl, hq cs hcsq, htot, hq c1 hc1, hc1C, extractTop_cost_le htop c1 hc1⟩
      · simp only [htot, Bool.false_eq_true, ↓reduceIte]
        have hpot' := extractTop_potential (maxCard T) htop
        have hgood := hq cs hcsq
        rcases uncoveredFrom_spec 0 cs.coverage with ⟨h1, _⟩ | ⟨j, h1, h2, _⟩
        · exfalso; apply htot
          simp [CandSet.total_coverage, CandSet.get_uncovered_Ti, h1]
        · have hi : cs.get_uncovered_Ti.toNat = j := by
            simp [CandSet.get_uncovered_Ti, h1]
          rw [hi]
          -- the member T[j]
          have hjT : ∃ t, T[j]? = some t := by
            have := h2
            rw [hgood.1, List.getElem?_map] at this
            cases hT : T[j]? with
            | none => rw [hT] at this; simp at this
            | some t => exact ⟨t, rfl⟩
          obtain ⟨t, ht⟩ := hjT
          have htd : T.getD j [] = t := by simp [ht]
          rw [htd]
          have htT : t ∈ T := List.getElem?_mem ht
          apply ih
          · intro x hx
            rcases (mem_pushChildren T cost cs t rest x).mp hx with e | ⟨s, hs, e⟩
            · exact hq x ((extractTop_mem htop x).mpr (Or.inr e))
            · subst e; exact good_insert hgood h2 ht hs
          · have hu := uncoveredCount_pos h2
            have hb := potential_pushChildren T cost cs (maxCard T)
              (uncoveredCount cs.coverage - 1) t rest (by
                intro s hs
                have := uncoveredCount_zipWith_lt s cs.coverage T j t h2 ht hs
                simp only [CandSet.insert]
                omega)
            have hlen := length_le_maxCard htT
            have hexp : expansions (maxCard T) (uncoveredCount cs.coverage) =
                1 + maxCard T * expansions (maxCard T) (uncoveredCount cs.coverage - 1) := by
              obtain ⟨k, hk⟩ : ∃ k, uncoveredCount cs.coverage = k + 1 :=
                ⟨uncoveredCount cs.coverage - 1, by omega⟩
              rw [hk]; simp [expansions]
            have hmul := Nat.mul_le_mul_right
              (expansions (maxCard T) (uncoveredCount cs.coverage - 1)) hlen
            rw [hexp] at hpot'
            generalize maxCard T * expansions (maxCard T) (uncoveredCount cs.coverage - 1) = A
              at hmul hpot'
            generalize t.length * expansions (maxCard T) (uncoveredCount cs.coverage - 1) = B
              at hmul hb
            omega
          · rcases (extractTop_mem htop c1).mp hc1 with e | e
            · subst e
              obtain ⟨s, hs, hsC⟩ := hC t htT
              refine ⟨CandSet.insert T cost c1 s, ?_, ?_⟩
              · exact (mem_pushChildren T cost c1 t rest _).mpr (Or.inr ⟨s, hs, rfl⟩)
              · intro x hx
                rcases (mem_setInsert s x c1.set).mp hx with e | e
                · subst e; exact hsC
                · exact hc1C x e
            · exact ⟨c1, (mem_pushChildren T cost cs t rest c1).mpr (Or.inl e), hc1C⟩

theorem uncoveredCount_replicate (n : Nat) : uncoveredCount (List.replicate n false) = n := by
  induction n with
  | zero => rfl
  | succ n ih => simp [List.replicate_succ, uncoveredCount, ih]; omega

/-- The run of `min_coverage`, for a set `C` that hits every member of `T`. -/
theorem min_coverage_returns (T : List (List Nat)) (cost : Nat → Int) (C : Nat → Prop)
    (hC : ∀ t ∈ T, ∃ s ∈ t, C s) :
    ∃ cs cs0, min_coverage T cost = Outcome.returned cs.set ∧ Good T cost cs ∧
      cs.total_coverage = true ∧ Good T cost cs0 ∧ (∀ s ∈ cs0.set, C s) ∧
      cs.cost ≤ cs0.cost := by
  unfold min_coverage
  apply search_returns T cost C hC
  · intro cs hcs
    simp only [List.mem_singleton] at hcs
    subst hcs; exact good_empty T cost
  · simp [potential, CandSet.empty, uncoveredCount_replicate]
  · exact ⟨CandSet.empty T, by simp, by simp [CandSet.empty]⟩

/-- A consistent candidate with total coverage meets every member of `T`. -/
theorem covers_of_total {T : List (List Nat)} {cost : Nat → Int} {cs : CandSet}
    (hg : Good T cost cs) (ht : cs.total_coverage = true) :
    ∀ t ∈ T, ∃ s ∈ t, s ∈ cs.set := by
  intro t htT
  rcases uncoveredFrom_spec 0 cs.coverage with ⟨_, h2⟩ | ⟨j, h1, _, _⟩
  · have : (t.any fun x => decide (x ∈ cs.set)) = true := by
      apply h2
      rw [hg.1]
      exact List.mem_map.mpr ⟨t, htT, rfl⟩
    simpa using this
  · exfalso
    simp only [CandSet.total_coverage, CandSet.get_uncovered_Ti, h1, beq_iff_eq] at ht
    omega

/-! ### The properties of `min_coverage` -/

theorem ne_nil_hits {T : List (List Nat)} (hne : ∀ t ∈ T, t ≠ []) :
    ∀ t ∈ T, ∃ s ∈ t, (fun _ : Nat => True) s := by
  intro t ht
  cases t with
  | nil => exact absurd rfl (hne [] ht)
  | cons s ss => exact ⟨s, List.mem_cons_self _ _, trivial⟩

/-- C1 fails on the code: the cost of a candidate is an `int`. For the family
`{{0,1},{2,3}}` with the costs 2, 1, 2147483647 and 2147483646, none negative,
the candidate `{1,2}` gets the cost `1 + 2147483647`, which wraps around to
`INT_MIN`, and is returned; the set `{1,3}` hits both members and is cheaper. -/
theorem min_coverage_overflow_not_cheapest :
    (∀ t ∈ [[0, 1], [2, 3]], t ≠ ([] : List Nat)) ∧
    (∀ s : Nat, 0 ≤ wideCost s) ∧
    min_coverage [[0, 1], [2, 3]] wideCost = Outcome.returned [1, 2] ∧
    (∀ t ∈ [[0, 1], [2, 3]], ∃ s ∈ t, s ∈ ({1, 3} : Finset Nat)) ∧
    ∑ s in ({1, 3} : Finset Nat), wideCost s = 2147483647 ∧
    totalCost wideCost [1, 2] = 2147483648 ∧
    (CandSet.inserts [[0, 1], [2, 3]] wideCost [1, 2]).get_cost = -2147483648 := by
  refine ⟨by decide, ?_, by decide, by decide, by decide, by decide, by decide⟩
  intro s
  unfold wideCost
  split_ifs <;> decide

/-- C1, amended: for every family `T` of non-empty sets and every cost function
with non-negative values such that the costs of all elements of the members of
`T` together do not exceed `INT_MAX`, `min_coverage(T, cost)` returns a set whose
total cost is at most the total cost of every set that contains an element of
each member of `T`. -/
theorem min_coverage_cost_optimal (T : List (List Nat)) (cost : Nat → Int)
    (hne : ∀ t ∈ T, t ≠ []) (hcost : ∀ s, 0 ≤ cost s)
    (hb : totalCost cost T.flatten.dedup ≤ 2147483647) :
    ∃ R, min_coverage T cost = Outcome.returned R ∧
      ∀ C : Finset Nat, (∀ t ∈ T, ∃ s ∈ t, s ∈ C) →
        totalCost cost R ≤ ∑ s in C, cost s := by
  obtain ⟨cs, _, hret, hg, _, _, _, _⟩ :=
    min_coverage_returns T cost (fun _ => True) (ne_nil_hits hne)
  refine ⟨cs.set, hret, ?_⟩
  intro C hC
  obtain ⟨cs1, cs0, hret1, hg1, _, hg0, hsub, hle⟩ :=
    min_coverage_returns T cost (fun s => s ∈ C) hC
  have hset : cs1.set = cs.set := by
    rw [hret] at hret1
    exact (Outcome.returned.inj hret1).symm
  rw [← hset, ← good_cost_exact hg1 hcost hb]
  refine le_trans hle ?_
  rw [good_cost_exact hg0 hcost hb, totalCost, ← List.sum_toFinset cost hg0.2.2.1]
  apply Finset.sum_le_sum_of_subset_of_nonneg
  · intro x hx
    exact hsub x (List.mem_toFinset.mp hx)
  · intro x _ _
    exact hcost x

/-- C1, amended, at the family `{{a,b},{a,c},{b,c}}` (`a = 0`, `b = 1`, `c = 2`)
with cost `a = 3`, `b = 1`, `c = 1`: the result is `{b,c}`; with unit cost the
result has two elements. -/
theorem min_coverage_cost_optimal_witness :
    (∀ t ∈ [[0, 1], [0, 2], [1, 2]], t ≠ ([] : List Nat)) ∧
    (∀ s : Nat, (0 : Int) ≤ (if s = 0 then 3 else 1)) ∧
    totalCost (fun s => if s = 0 then 3 else 1) [[0, 1], [0, 2], [1, 2]].flatten.dedup ≤
      2147483647 ∧
    (∃ R, min_coverage [[0, 1], [0, 2], [1, 2]] (fun s => if s = 0 then 3 else 1) =
        Outcome.returned R ∧
      ∀ C : Finset Nat, (∀ t ∈ [[0, 1], [0, 2], [1, 2]], ∃ s ∈ t, s ∈ C) →
        totalCost (fun s => if s = 0 then 3 else 1) R ≤
          ∑ s in C, (if s = 0 then 3 else 1 : Int)) ∧
    min_coverage [[0, 1], [0, 2], [1, 2]] (fun s => if s = 0 then 3 else 1) =
      Outcome.returned [1, 2] ∧
    min_coverage_unit [[0, 1], [0, 2], [1, 2]] = Outcome.returned [0, 1] :=
  ⟨by decide, fun s => by split_ifs <;> decide, by decide,
   min_coverage_cost_optimal [[0, 1], [0, 2], [1, 2]] (fun s => if s = 0 then 3 else 1)
     (by decide) (fun s => by dsimp only; split_ifs <;> decide) (by decide),
   by decide, by decide⟩

/-- C2: for every family `T` of non-empty sets and every cost function,
`min_coverage(T, cost)` returns a set `R` such that every member of `T` contains
an element of `R` and every element of `R` belongs to a member of `T`. -/
theorem min_coverage_covers (T : List (List Nat)) (cost : Nat → Int)
    (hne : ∀ t ∈ T, t ≠ []) :
    ∃ R, min_coverage T cost = Outcome.returned R ∧
      (∀ t ∈ T, ∃ s ∈ t, s ∈ R) ∧ (∀ s ∈ R, ∃ t ∈ T, s ∈ t) := by
  obtain ⟨cs, _, hret, hg, htot, _, _, _⟩ :=
    min_coverage_returns T cost (fun _ => True) (ne_nil_hits hne)
  exact ⟨cs.set, hret, covers_of_total hg htot, hg.2.2.2⟩

/-- C2 at the family `{{0,1},{0,2},{1,2}}` with a cost function of mixed sign. -/
theorem min_coverage_covers_witness :
    (∀ t ∈ [[0, 1], [0, 2], [1, 2]], t ≠ ([] : List Nat)) ∧
    ∃ R, min_coverage [[0, 1], [0, 2], [1, 2]] (fun s => if s = 1 then -2 else 1) =
        Outcome.returned R ∧
      (∀ t ∈ [[0, 1], [0, 2], [1, 2]], ∃ s ∈ t, s ∈ R) ∧
      (∀ s ∈ R, ∃ t ∈ [[0, 1], [0, 2], [1, 2]], s ∈ t) :=
  ⟨by decide,
   min_coverage_covers [[0, 1], [0, 2], [1, 2]] (fun s => if s = 1 then -2 else 1)
     (by decide)⟩

end MinCoverage

namespace Memorax

open Comparison

/-! ## `entailment_compare`: the order it decides -/

/-! ### Comparisons as pairs -/

theorem Comparison.ext_parts {a b : Comparison} (h1 : a.le = b.le) (h2 : a.ge = b.ge) :
    a = b := by
  cases a <;> cases b <;> simp_all [Comparison.le, Comparison.ge]

theorem Comparison.ofParts_parts (c : Comparison) : Comparison.ofParts c.le c.ge = c := by
  cases c <;> rfl

theorem comb_comp_le (a b : Comparison) : (comb_comp a b).le = (a.le && b.le) := by
  cases a <;> cases b <;> rfl

theorem comb_comp_ge (a b : Comparison) : (comb_comp a b).ge = (a.ge && b.ge) := by
  cases a <;> cases b <;> rfl

theorem eq_incomparable_iff (c : Comparison) :
    c = INCOMPARABLE ↔ c.le = false ∧ c.ge = false := by
  cases c <;> simp [Comparison.le, Comparison.ge]

theorem isZero_comb_less (c : Comparison) : (comb_comp LESS c).isZero = c.le := by
  cases c <;> rfl

theorem val_ge (a b : Val) :
    (a.entailment_compare b).ge = (b.entailment_compare a).le := by
  cases a <;> cases b <;> simp [Val.entailment_compare, Comparison.le, Comparison.ge]
  · split_ifs with h1 h2 h2 <;> simp_all [Comparison.le, Comparison.ge]

theorem storeFold_le (c : Comparison) (s t : Store) :
    (storeFold c s t).le = (c.le && storeLe s t) := by
  induction s generalizing c t with
  | nil => simp [storeFold, storeLe]
  | cons a as ih =>
    cases t with
    | nil => simp [storeFold, storeLe]
    | cons b bs =>
      simp only [storeFold, storeLe]
      split_ifs with h
      · rw [eq_incomparable_iff, comb_comp_le] at h
        rw [show INCOMPARABLE.le = false from rfl, ← Bool.and_assoc, h.1]; rfl
      · rw [ih, comb_comp_le, Bool.and_assoc]

theorem storeFold_ge (c : Comparison) (s t : Store) :
    (storeFold c s t).ge = (c.ge && storeLe t s) := by
  induction s generalizing c t with
  | nil => cases t <;> simp [storeFold, storeLe]
  | cons a as ih =>
    cases t with
    | nil => simp [storeFold, storeLe]
    | cons b bs =>
      simp only [storeFold, storeLe]
      split_ifs with h
      · rw [eq_incomparable_iff, comb_comp_ge, val_ge] at h
        rw [show INCOMPARABLE.ge = false from rfl, ← Bool.and_assoc, h.2]; rfl
      · rw [ih, comb_comp_ge, Bool.and_assoc, val_ge]

theorem store_le (s t : Store) : (Store.entailment_compare s t).le = storeLe s t := by
  rw [Store.entailment_compare, storeFold_le]; rfl

theorem store_ge (s t : Store) : (Store.entailment_compare s t).ge = storeLe t s := by
  rw [Store.entailment_compare, storeFold_ge]; rfl

theorem msg_le (m n : Msg) : (m.entailment_compare n).le = msgLe m n := by
  unfold Msg.entailment_compare msgLe
  split_ifs with h
  · rcases h with h | h <;> simp [Comparison.le, h]
  · push_neg at h
    simp [store_le, h.1, h.2]

theorem msg_ge (m n : Msg) : (m.entailment_compare n).ge = msgLe n m := by
  unfold Msg.entailment_compare msgLe
  split_ifs with h
  · rcases h with h | h
    · simp [Comparison.ge, Ne.symm h]
    · simp [Comparison.ge, Ne.symm h]
  · push_neg at h
    simp [store_ge, h.1, h.2]

theorem msgsLoop_le (c : Comparison) (x y : List Msg) (h : x.length = y.length) :
    (msgsLoop c x y).le = (c.le && allLe msgLe x y) := by
  induction x generalizing c y with
  | nil =>
    cases y with
    | nil => simp [msgsLoop, allLe]
    | cons b bs => simp at h
  | cons a as ih =>
    cases y with
    | nil => simp at h
    | cons b bs =>
      simp only [List.length_cons, add_left_inj] at h
      simp only [msgsLoop, allLe]
      split_ifs with h1
      · rw [eq_incomparable_iff, comb_comp_le, msg_le] at h1
        rw [show INCOMPARABLE.le = false from rfl, ← Bool.and_assoc, h1.1]; rfl
      · rw [ih _ _ h, comb_comp_le, Bool.and_assoc, msg_le]

theorem msgsLoop_ge (c : Comparison) (x y : List Msg) (h : x.length = y.length) :
    (msgsLoop c x y).ge = (c.ge && allLe msgLe y x) := by
  induction x generalizing c y with
  | nil =>
    cases y with
    | nil => simp [msgsLoop, allLe]
    | cons b bs => simp at h
  | cons a as ih =>
    cases y with
    | nil => simp at h
    | cons b bs =>
      simp only [List.length_cons, add_left_inj] at h
      simp only [msgsLoop, allLe]
      split_ifs with h1
      · rw [eq_incomparable_iff, comb_comp_ge, msg_ge] at h1
        rw [show INCOMPARABLE.ge = false from rfl, ← Bool.and_assoc, h1.2]; rfl
      · rw [ih _ _ h, comb_comp_ge, Bool.and_assoc, msg_ge]

/-! ### The register-store loop -/

theorem drop_eq_cons {α : Type} {B : List α} {p : Nat} {b : α} {bs : List α}
    (h : B.drop p = b :: bs) : B[p]? = some b ∧ B.drop (p + 1) = bs := by
  induction B generalizing p with
  | nil => simp at h
  | cons x xs ih =>
    cases p with
    | zero =>
      simp only [List.drop_zero, List.cons.injEq] at h
      simp [h.1, h.2]
    | succ p =>
      simp only [List.drop_succ_cons] at h
      simpa using ih h

theorem regStoresLoop_parts (B : List Store) :
    ∀ (A : List Store) (p : Nat) (c : Comparison), A.length = (B.drop p).length →
      (regStoresLoop B A p c).le = (c.le && allLe storeLe A (B.drop p)) ∧
      (regStoresLoop B A p c).ge = (c.ge && allLe storeLe (B.drop p) A) := by
  intro A
  induction A with
  | nil =>
    intro p c h
    have : B.drop p = [] := List.eq_nil_of_length_eq_zero h.symm
    simp [regStoresLoop, this, allLe]
  | cons r rs ih =>
    intro p c h
    cases hd : B.drop p with
    | nil => rw [hd] at h; simp at h
    | cons b bs =>
      have hb : B.getD p [] = b := by simp [(drop_eq_cons hd).1]
      have hbs : B.drop (p + 1) = bs := (drop_eq_cons hd).2
      rw [hd] at h
      simp only [List.length_cons, add_left_inj] at h
      have ih' := ih (p + 1)
      rw [hbs] at ih'
      simp only [regStoresLoop, allLe, hb]
      split_ifs with h1
      · rw [eq_incomparable_iff, comb_comp_le, comb_comp_ge, store_le, store_ge] at h1
        constructor
        · rw [show INCOMPARABLE.le = false from rfl, ← Bool.and_assoc, h1.1]; rfl
        · rw [show INCOMPARABLE.ge = false from rfl, ← Bool.and_assoc, h1.2]; rfl
      · obtain ⟨i1, i2⟩ := ih' (comb_comp c (Store.entailment_compare r b)) h
        rw [i1, i2, comb_comp_le, comb_comp_ge, store_le, store_ge]
        simp [Bool.and_assoc]

/-! ### The inner loops of the walk -/

theorem lessSearchAny_eq (ci : Int) (m : Msg) (i : Nat) (L : List Msg) (h : NmlsSet) :
    lessSearchAny ci m i L h = walkSearch ci m i L h := by
  induction L generalizing h with
  | nil => rfl
  | cons d ds ih =>
    simp only [lessSearchAny, walkSearch, isZero_comb_less, msg_le]
    have hc : (d.nmls = m.nmls ∧ d.wpid = m.wpid ∧ msgLe m d = true) ↔ msgLe m d = true := by
      constructor
      · exact fun h => h.2.2
      · intro h
        have h' := h
        simp only [msgLe, Bool.and_eq_true, decide_eq_true_eq] at h'
        exact ⟨h'.1.2.symm, h'.1.1.symm, h⟩
    simp only [hc, addOwn, ih]

theorem lessSearchOwn_eq (ci : Int) (m : Msg) (hm : m.wpid = ci) (i : Nat) (L : List Msg)
    (h : NmlsSet) : lessSearchOwn ci m i L h = walkSearch ci m i L h := by
  induction L generalizing h with
  | nil => rfl
  | cons d ds ih =>
    simp only [lessSearchOwn, walkSearch, isZero_comb_less, msg_le, addOwn]
    by_cases hl : ds.length + 1 < i
    · simp [hl]
    · simp only [List.length_cons, hl, ↓reduceIte]
      by_cases hd : d.wpid = ci
      · have hc : (d.nmls = m.nmls ∧ msgLe m d = true) ↔ msgLe m d = true := by
          constructor
          · exact fun h => h.2
          · intro h
            have h' := h
            simp only [msgLe, Bool.and_eq_true, decide_eq_true_eq] at h'
            exact ⟨h'.1.2.symm, h⟩
        simp only [hd, ↓reduceIte, hc, ih]
      · have hn : msgLe m d = false := by
          simp only [msgLe, Bool.and_eq_false_iff, decide_eq_false_iff_not]
          left; left
          rw [hm]; exact fun e => hd e.symm
        simp only [hd, ↓reduceIte, hn, Bool.false_eq_true, ih]

theorem greaterSearchAny_eq (ci : Int) (m : Msg) (i : Nat) (L : List Msg) (h : NmlsSet) :
    greaterSearchAny ci m i L h = lessSearchAny ci m i L h := by
  induction L generalizing h with
  | nil => rfl
  | cons d ds ih => simp only [greaterSearchAny, lessSearchAny, ih]

theorem greaterSearchOwn_eq (ci : Int) (m : Msg) (i : Nat) (L : List Msg) (h : NmlsSet) :
    greaterSearchOwn ci m i L h = lessSearchOwn ci m i L h := by
  induction L generalizing h with
  | nil => rfl
  | cons d ds ih => simp only [greaterSearchOwn, lessSearchOwn, ih]

/-- The two copies of the walk are mirror images: the walk of the branch "this
longer" is the walk of the branch "this shorter" with the channels exchanged. -/
theorem greaterWalk_eq (ci : Int) (S L : List Msg) (hS hL : NmlsSet) :
    greaterWalk ci L S hL hS = lessWalk ci S L hS hL := by
  induction S generalizing L hS hL with
  | nil => cases L <;> simp [greaterWalk, lessWalk]
  | cons m S ih =>
    simp only [greaterWalk, lessWalk, greaterSearchOwn_eq, greaterSearchAny_eq]
    by_cases h1 : m.nmls ∉ hS ∧ m.wpid = ci
    · simp only [h1, not_false_eq_true, and_self, ↓reduceIte]
      by_cases h2 : m.nmls ∈ hL
      · simp only [h2, ↓reduceIte]
      · simp only [h2, ↓reduceIte]
        cases lessSearchOwn ci m (S.length + 1) L hL with
        | none => rfl
        | some p => obtain ⟨a, b⟩ := p; simp only [ih]
    · simp only [h1, ↓reduceIte]
      cases lessSearchAny ci m (S.length + 1) L hL with
      | none => rfl
      | some p => obtain ⟨a, b⟩ := p; simp only [ih]

/-- The walk with its two inner loops replaced by the common search. -/
theorem lessWalk_cons (ci : Int) (m : Msg) (S L : List Msg) (hS hL : NmlsSet) :
    lessWalk ci (m :: S) L hS hL =
      (decide (m.wpid = ci → m.nmls ∉ hS → m.nmls ∉ hL) &&
        match walkSearch ci m (S.length + 1) L hL with
        | none => false
        | some (L1, hL1) => lessWalk ci S L1 (addOwn ci m hS) hL1) := by
  simp only [lessWalk, lessSearchAny_eq]
  by_cases h1 : m.nmls ∉ hS ∧ m.wpid = ci
  · rw [lessSearchOwn_eq ci m h1.2]
    simp only [h1, not_false_eq_true, and_self, ↓reduceIte, addOwn]
    by_cases h2 : m.nmls ∈ hL
    · simp [h2, h1.1]
    · simp only [h2, ↓reduceIte, not_false_eq_true, implies_true, decide_True, Bool.true_and]
  · simp only [h1, ↓reduceIte]
    have : (m.wpid = ci → m.nmls ∉ hS → m.nmls ∉ hL) := by
      intro a b; exact absurd ⟨b, a⟩ h1
    have hd : decide (m.wpid = ci → m.nmls ∉ hS → m.nmls ∉ hL) = true := decide_eq_true this
    rw [hd]
    simp only [Bool.true_and, addOwn]

/-! ### Has-written sets -/

theorem mem_addOwn (ci : Int) (d : Msg) (h : NmlsSet) (x : List Nat) :
    x ∈ addOwn ci d h ↔ x ∈ h ∨ (d.wpid = ci ∧ x = d.nmls) := by
  unfold addOwn
  split_ifs with h1
  · simp only [List.mem_insert_iff, h1, true_and]; tauto
  · simp [h1]

theorem addOwns_append (ci : Int) (a b : List Msg) (h : NmlsSet) :
    addOwns ci (a ++ b) h = addOwns ci b (addOwns ci a h) := by
  simp [addOwns, List.foldl_append]

theorem addOwns_cons (ci : Int) (d : Msg) (l : List Msg) (h : NmlsSet) :
    addOwns ci (d :: l) h = addOwns ci l (addOwn ci d h) := rfl

theorem addOwns_nil (ci : Int) (h : NmlsSet) : addOwns ci [] h = h := rfl

theorem mem_addOwns (ci : Int) (l : List Msg) (h : NmlsSet) (x : List Nat) :
    x ∈ addOwns ci l h ↔ x ∈ h ∨ ∃ d ∈ l, d.wpid = ci ∧ x = d.nmls := by
  induction l generalizing h with
  | nil => simp [addOwns]
  | cons d l ih =>
    rw [addOwns_cons, ih, mem_addOwn]
    simp only [List.mem_cons, exists_eq_or_imp]
    tauto

/-! ### The subword relation -/

theorem subword_length (ci : Int) {hS hL : NmlsSet} {S L : List Msg}
    (h : Subword ci hS hL S L) : S.length ≤ L.length := by
  induction S generalizing hS hL L with
  | nil => simp
  | cons m S ih =>
    obtain ⟨_, pre, d, L1, rfl, _, h3⟩ := h
    have := ih h3
    simp only [List.length_cons, List.length_append]
    omega

theorem subword_prepend (ci : Int) {hS hL : NmlsSet} {S L : List Msg} (X : List Msg)
    (h : Subword ci hS (addOwns ci X hL) S L) : Subword ci hS hL S (X ++ L) := by
  cases S with
  | nil => trivial
  | cons m S =>
    obtain ⟨h1, pre, d, L1, rfl, h2, h3⟩ := h
    refine ⟨?_, X ++ pre, d, L1, by simp, h2, ?_⟩
    · intro a b hm
      exact h1 a b ((mem_addOwns ci X hL m.nmls).mpr (Or.inl hm))
    · rw [List.append_assoc, addOwns_append]
      rw [addOwns_append] at h3 ⊢
      exact h3

theorem walkSearch_some (ci : Int) (m : Msg) (i : Nat) {L L1 : List Msg} {h h1 : NmlsSet}
    (hs : walkSearch ci m i L h = some (L1, h1)) :
    ∃ pre d, L = pre ++ d :: L1 ∧ msgLe m d = true ∧ h1 = addOwns ci (pre ++ [d]) h := by
  induction L generalizing h with
  | nil => simp [walkSearch] at hs
  | cons x xs ih =>
    unfold walkSearch at hs
    split_ifs at hs with hl hm
    · simp only [Option.some.injEq, Prod.mk.injEq] at hs
      obtain ⟨rfl, rfl⟩ := hs
      exact ⟨[], x, rfl, hm, rfl⟩
    · obtain ⟨pre, d, rfl, hd, rfl⟩ := ih hs
      exact ⟨x :: pre, d, rfl, hd, rfl⟩

theorem walkSearch_cons (ci : Int) (m : Msg) (i : Nat) (d : Msg) (ds : List Msg)
    (h : NmlsSet) :
    walkSearch ci m i (d :: ds) h =
      if ds.length + 1 < i then none
      else if msgLe m d = true then some (ds, addOwn ci d h)
      else walkSearch ci m i ds (addOwn ci d h) := by
  simp [walkSearch]

theorem walkSearch_of_match (ci : Int) (m : Msg) (i : Nat) (pre : List Msg) (d : Msg)
    (L1 : List Msg) (h : NmlsSet) (hd : msgLe m d = true) (hi : i ≤ L1.length + 1) :
    ∃ pg dg mid, pre ++ [d] = pg ++ dg :: mid ∧ msgLe m dg = true ∧
      walkSearch ci m i (pre ++ d :: L1) h = some (mid ++ L1, addOwns ci (pg ++ [dg]) h) := by
  induction pre generalizing h with
  | nil =>
    refine ⟨[], d, [], rfl, hd, ?_⟩
    rw [List.nil_append, walkSearch_cons, if_neg (by omega), if_pos hd]
    rfl
  | cons p pre ih =>
    have hw : walkSearch ci m i (p :: pre ++ d :: L1) h =
        if msgLe m p = true then some (pre ++ d :: L1, addOwn ci p h)
        else walkSearch ci m i (pre ++ d :: L1) (addOwn ci p h) := by
      rw [List.cons_append, walkSearch_cons,
        if_neg (by simp only [List.length_append, List.length_cons]; omega)]
    by_cases hp : msgLe m p = true
    · refine ⟨[], p, pre ++ [d], rfl, hp, ?_⟩
      rw [hw, if_pos hp]
      simp [addOwns, List.foldl]
    · obtain ⟨pg, dg, mid, e1, e2, e3⟩ := ih (addOwn ci p h)
      refine ⟨p :: pg, dg, mid, by simp [e1], e2, ?_⟩
      rw [hw, if_neg hp, e3]
      rfl

/-- The walk decides the subword relation. -/
theorem lessWalk_iff (ci : Int) (S L : List Msg) (hS hL : NmlsSet) :
    lessWalk ci S L hS hL = true ↔ Subword ci hS hL S L := by
  induction S generalizing L hS hL with
  | nil => simp [lessWalk, Subword]
  | cons m S ih =>
    rw [lessWalk_cons]
    simp only [Bool.and_eq_true, decide_eq_true_eq, Subword]
    constructor
    · rintro ⟨h1, h2⟩
      refine ⟨h1, ?_⟩
      cases hs : walkSearch ci m (S.length + 1) L hL with
      | none => rw [hs] at h2; simp at h2
      | some p =>
        obtain ⟨L1, hL1⟩ := p
        rw [hs] at h2
        simp only at h2
        obtain ⟨pre, d, rfl, hd, rfl⟩ := walkSearch_some ci m _ hs
        exact ⟨pre, d, L1, rfl, hd, (ih _ _ _).mp h2⟩
    · rintro ⟨h1, pre, d, L1, rfl, hd, h3⟩
      refine ⟨h1, ?_⟩
      have hlen := subword_length ci h3
      obtain ⟨pg, dg, mid, e1, e2, e3⟩ :=
        walkSearch_of_match ci m (S.length + 1) pre d L1 hL hd (by omega)
      rw [e3]
      simp only
      rw [ih]
      apply subword_prepend
      rw [← addOwns_append]
      have : pg ++ [dg] ++ mid = pre ++ [d] := by simp [e1]
      rw [this]
      exact h3

/-- Running the relation through a prefix of the shorter side. -/
theorem subword_run (ci : Int) (P : List Msg) (d : Msg) {M1 L : List Msg} {hM hL : NmlsSet}
    (h : Subword ci hM hL (P ++ d :: M1) L) :
    ∃ preL e L2, L = preL ++ e :: L2 ∧ msgLe d e = true ∧
      Subword ci (addOwns ci (P ++ [d]) hM) (addOwns ci (preL ++ [e]) hL) M1 L2 := by
  induction P generalizing L hM hL with
  | nil =>
    obtain ⟨_, pre, e, L1, rfl, h2, h3⟩ := h
    exact ⟨pre, e, L1, rfl, h2, h3⟩
  | cons p P ih =>
    obtain ⟨_, pre1, e1, L1, rfl, _, h3⟩ := h
    obtain ⟨preL, e, L2, rfl, he, h4⟩ := ih h3
    refine ⟨pre1 ++ e1 :: preL, e, L2, by simp, he, ?_⟩
    have e1' : addOwns ci (pre1 ++ e1 :: preL ++ [e]) hL =
        addOwns ci (preL ++ [e]) (addOwns ci (pre1 ++ [e1]) hL) := by
      rw [← addOwns_append]; simp
    rw [e1']
    exact h4

/-- The check on the newest own write, through a prefix of the shorter side. -/
theorem subword_precheck (ci : Int) (P : List Msg) (d : Msg) {M1 L : List Msg}
    {hM hL : NmlsSet} (h : Subword ci hM hL (P ++ d :: M1) L) (hd : d.wpid = ci)
    (hn : d.nmls ∉ hM) : d.nmls ∉ hL := by
  induction P generalizing L hM hL with
  | nil => exact h.1 hd hn
  | cons p P ih =>
    obtain ⟨h1, pre1, e1, L1, rfl, _, h3⟩ := h
    by_cases hp : p.wpid = ci ∧ p.nmls = d.nmls
    · rw [← hp.2]; exact h1 hp.1 (by rw [hp.2]; exact hn)
    · have hn' : d.nmls ∉ addOwn ci p hM := by
        rw [mem_addOwn]
        rintro (e | ⟨e1, e2⟩)
        · exact hn e
        · exact hp ⟨e1, e2.symm⟩
      have := ih h3 hn'
      intro hmem
      exact this ((mem_addOwns ci _ hL d.nmls).mpr (Or.inl hmem))

/-- The subword relation is transitive. -/
theorem subword_trans (ci : Int) {S M L : List Msg} {hS hM hM1 hL : NmlsSet}
    (htr : ∀ m ∈ S, ∀ d ∈ M, ∀ e ∈ L, msgLe m d = true → msgLe d e = true → msgLe m e = true)
    (h1 : Subword ci hS hM S M) (h2 : Subword ci hM1 hL M L)
    (hsub : ∀ x, x ∈ hM1 → x ∈ hM) : Subword ci hS hL S L := by
  induction S generalizing M L hS hM hM1 hL with
  | nil => trivial
  | cons m S ih =>
    obtain ⟨hpre, pre, d, M1, rfl, hmd, h3⟩ := h1
    have hwn : m.wpid = d.wpid ∧ m.nmls = d.nmls := by
      simp only [msgLe, Bool.and_eq_true, decide_eq_true_eq] at hmd
      exact hmd.1
    obtain ⟨preL, e, L2, rfl, hde, h4⟩ := subword_run ci pre d h2
    refine ⟨?_, preL, e, L2, rfl, ?_, ?_⟩
    · intro hown hnS
      have hnM := hpre hown hnS
      rw [hwn.2]
      apply subword_precheck ci pre d h2 (by rw [← hwn.1]; exact hown)
      intro hx
      exact hnM (by rw [hwn.2]; exact hsub _ hx)
    · exact htr m (List.mem_cons_self _ _) d (by simp) e (by simp) hmd hde
    · apply ih _ h3 h4
      · intro x hx
        rw [mem_addOwns] at hx ⊢
        rcases hx with hx | hx
        · exact Or.inl (hsub x hx)
        · exact Or.inr hx
      · intro m1 hm1 d1 hd1 e1 he1
        exact htr m1 (List.mem_cons_of_mem _ hm1) d1 (by simp [hd1]) e1 (by simp [he1])

/-! ### Element-wise order and the subword relation -/

theorem allLe_iff_forall₂ {α : Type} (f : α → α → Bool) (x y : List α) :
    allLe f x y = true ↔ List.Forall₂ (fun a b => f a b = true) x y := by
  induction x generalizing y with
  | nil => cases y <;> simp [allLe]
  | cons a as ih =>
    cases y with
    | nil => simp [allLe]
    | cons b bs => simp [allLe, ih]

theorem allLe_reverse {α : Type} (f : α → α → Bool) (x y : List α) :
    allLe f x.reverse y.reverse = allLe f x y := by
  rw [Bool.eq_iff_iff, allLe_iff_forall₂, allLe_iff_forall₂, List.forall₂_reverse_iff]

theorem allLe_length {α : Type} (f : α → α → Bool) {x y : List α}
    (h : allLe f x y = true) : x.length = y.length :=
  ((allLe_iff_forall₂ f x y).mp h).length_eq

theorem subword_of_allLe (ci : Int) {S L : List Msg} {hS hL : NmlsSet}
    (h : allLe msgLe S L = true) (hsub : ∀ x, x ∈ hL → x ∈ hS) : Subword ci hS hL S L := by
  induction S generalizing L hS hL with
  | nil => trivial
  | cons m S ih =>
    cases L with
    | nil => simp [allLe] at h
    | cons d L =>
      simp only [allLe, Bool.and_eq_true] at h
      have hwn : m.wpid = d.wpid ∧ m.nmls = d.nmls := by
        have := h.1
        simp only [msgLe, Bool.and_eq_true, decide_eq_true_eq] at this
        exact this.1
      refine ⟨fun _ hn hx => hn (hsub _ hx), [], d, L, rfl, h.1, ?_⟩
      apply ih h.2
      intro x hx
      simp only [List.nil_append, addOwns, List.foldl] at hx
      rw [mem_addOwn] at hx ⊢
      rcases hx with hx | ⟨e1, e2⟩
      · exact Or.inl (hsub x hx)
      · exact Or.inr ⟨by rw [hwn.1]; exact e1, by rw [hwn.2]; exact e2⟩

theorem allLe_of_subword (ci : Int) {S L : List Msg} {hS hL : NmlsSet}
    (h : Subword ci hS hL S L) (hlen : S.length = L.length) : allLe msgLe S L = true := by
  induction S generalizing L hS hL with
  | nil =>
    cases L with
    | nil => rfl
    | cons d L => simp at hlen
  | cons m S ih =>
    obtain ⟨_, pre, d, L1, rfl, h2, h3⟩ := h
    have hl := subword_length ci h3
    cases pre with
    | nil =>
      simp only [List.nil_append, List.length_cons, add_left_inj] at hlen
      simp only [List.nil_append, allLe, h2, Bool.true_and]
      exact ih h3 hlen
    | cons p pre =>
      simp only [List.length_cons, List.cons_append, List.length_append] at hlen
      omega

/-- The order of two channels is the subword relation on the reversed channels. -/
theorem chanLe_iff (ci : Nat) (x y : List Msg) :
    chanLe ci x y = true ↔ Subword (ci : Int) [] [] x.reverse y.reverse := by
  unfold chanLe
  split_ifs with h1 h2
  · rw [← allLe_reverse]
    constructor
    · intro h; exact subword_of_allLe _ h (fun _ hx => hx)
    · intro h; exact allLe_of_subword _ h (by simp [h1])
  · exact lessWalk_iff _ _ _ _ _
  · simp only [Bool.false_eq_true, false_iff]
    intro h
    have := subword_length _ h
    simp only [List.length_reverse] at this
    omega

theorem val_le_trans {a b c : Val} (h1 : (a.entailment_compare b).le = true)
    (h2 : (b.entailment_compare c).le = true) : (a.entailment_compare c).le = true := by
  cases a <;> cases b <;> cases c <;>
    simp_all [Val.entailment_compare, Comparison.le]
  split_ifs at h1 h2 with e1 e2
  simp_all [Comparison.le]

theorem val_le_refl (a : Val) : (a.entailment_compare a).le = true := by
  cases a <;> simp [Val.entailment_compare, Comparison.le]

theorem storeLe_refl (s : Store) : storeLe s s = true := by
  induction s with
  | nil => rfl
  | cons a as ih => simp [storeLe, val_le_refl, ih]

theorem storeLe_trans {s t u : Store} (hst : s.length = t.length)
    (h1 : storeLe s t = true) (h2 : storeLe t u = true) : storeLe s u = true := by
  induction s generalizing t u with
  | nil => cases u <;> rfl
  | cons a as ih =>
    cases t with
    | nil => simp at hst
    | cons b bs =>
      cases u with
      | nil => rfl
      | cons c cs =>
        simp only [storeLe, Bool.and_eq_true] at h1 h2 ⊢
        simp only [List.length_cons, add_left_inj] at hst
        exact ⟨val_le_trans h1.1 h2.1, ih hst h1.2 h2.2⟩

theorem msgLe_refl (m : Msg) : msgLe m m = true := by
  simp [msgLe, storeLe_refl]

theorem msgLe_trans {m d e : Msg} (hlen : m.store.length = d.store.length)
    (h1 : msgLe m d = true) (h2 : msgLe d e = true) : msgLe m e = true := by
  simp only [msgLe, Bool.and_eq_true, decide_eq_true_eq] at h1 h2 ⊢
  exact ⟨⟨h1.1.1.trans h2.1.1, h1.1.2.trans h2.1.2⟩, storeLe_trans hlen h1.2 h2.2⟩

theorem allLe_refl {α : Type} (f : α → α → Bool) (hf : ∀ a, f a a = true) (x : List α) :
    allLe f x x = true := by
  induction x with
  | nil => rfl
  | cons a as ih => simp [allLe, hf, ih]

theorem chanLe_refl (ci : Nat) (x : List Msg) : chanLe ci x x = true := by
  simp [chanLe, allLe_refl msgLe msgLe_refl]

theorem chanLe_trans (ci : Nat) {x y z : List Msg} (n : Nat)
    (hx : ∀ m ∈ x, m.store.length = n) (hy : ∀ m ∈ y, m.store.length = n)
    (h1 : chanLe ci x y = true) (h2 : chanLe ci y z = true) : chanLe ci x z = true := by
  rw [chanLe_iff] at h1 h2 ⊢
  refine subword_trans _ ?_ h1 h2 (fun _ h => h)
  intro m hm d hd e _ hmd hde
  exact msgLe_trans (by rw [hx m (List.mem_reverse.mp hm), hy d (List.mem_reverse.mp hd)])
    hmd hde

theorem chansLe_refl (ci : Nat) (x : List (List Msg)) : chansLe ci x x = true := by
  induction x generalizing ci with
  | nil => rfl
  | cons a as ih => simp [chansLe, chanLe_refl, ih]

theorem chansLe_trans (ci : Nat) {x y z : List (List Msg)} (n : Nat)
    (hx : ∀ ch ∈ x, ∀ m ∈ ch, m.store.length = n)
    (hy : ∀ ch ∈ y, ∀ m ∈ ch, m.store.length = n)
    (h1 : chansLe ci x y = true) (h2 : chansLe ci y z = true) : chansLe ci x z = true := by
  induction x generalizing ci y z with
  | nil =>
    cases y with
    | nil => exact h2
    | cons b bs => simp [chansLe] at h1
  | cons a as ih =>
    cases y with
    | nil => simp [chansLe] at h1
    | cons b bs =>
      cases z with
      | nil => simp [chansLe] at h2
      | cons c cs =>
        simp only [chansLe, Bool.and_eq_true] at h1 h2 ⊢
        exact ⟨chanLe_trans ci n (hx a (List.mem_cons_self _ _)) (hy b (List.mem_cons_self _ _))
            h1.1 h2.1,
          ih (ci + 1) (fun ch h => hx ch (List.mem_cons_of_mem _ h))
            (fun ch h => hy ch (List.mem_cons_of_mem _ h)) h1.2 h2.2⟩

theorem regsLe_trans {x y z : List Store} (hxy : x.map List.length = y.map List.length)
    (h1 : allLe storeLe x y = true) (h2 : allLe storeLe y z = true) :
    allLe storeLe x z = true := by
  induction x generalizing y z with
  | nil =>
    cases y with
    | nil => exact h2
    | cons b bs => simp [allLe] at h1
  | cons a as ih =>
    cases y with
    | nil => simp [allLe] at h1
    | cons b bs =>
      cases z with
      | nil => simp [allLe] at h2
      | cons c cs =>
        simp only [allLe, Bool.and_eq_true] at h1 h2 ⊢
        simp only [List.map_cons, List.cons.injEq] at hxy
        exact ⟨storeLe_trans hxy.1 h1.1 h2.1, ih hxy.2 h1.2 h2.2⟩

/-- The order on constraints over one `Common` is transitive. -/
theorem DualChannelConstraint.le_trans (common : Common) {a b c : DualChannelConstraint}
    (ha : a.over common) (hb : b.over common)
    (h1 : a.le b = true) (h2 : b.le c = true) : a.le c = true := by
  simp only [DualChannelConstraint.le, Bool.and_eq_true, decide_eq_true_eq] at h1 h2 ⊢
  obtain ⟨⟨⟨p1, r1⟩, m1⟩, c1⟩ := h1
  obtain ⟨⟨⟨p2, r2⟩, m2⟩, c2⟩ := h2
  refine ⟨⟨⟨p1.trans p2, ?_⟩, ?_⟩, ?_⟩
  · exact regsLe_trans (by rw [ha.2.2.1, hb.2.2.1]) r1 r2
  · exact storeLe_trans (by rw [ha.2.2.2.1, hb.2.2.2.1]) m1 m2
  · exact chansLe_trans 0 common.mem_size ha.2.2.2.2 hb.2.2.2.2 c1 c2

theorem DualChannelConstraint.le_refl (a : DualChannelConstraint) : a.le a = true := by
  simp [DualChannelConstraint.le, allLe_refl storeLe storeLe_refl, storeLe_refl, chansLe_refl]

/-! ### The loop over the channels -/

theorem channelsLoop_cons (n : Nat) (B : List (List Msg)) (a : List Msg)
    (rest : List (List Msg)) (ci : Nat) (c : Comparison) :
    channelsLoop n B (a :: rest) ci c =
      if chanStep ci a (B.getD ci []) c = INCOMPARABLE then INCOMPARABLE
      else if ci + 1 = n then chanStep ci a (B.getD ci []) c
      else channelsLoop n B rest (ci + 1) (chanStep ci a (B.getD ci []) c) := by
  simp only [channelsLoop, chanStep]
  split_ifs <;> simp_all

theorem chanStep_le (ci : Nat) (a b : List Msg) (c : Comparison) :
    (chanStep ci a b c).le = (c.le && chanLe ci a b) := by
  unfold chanStep chanLe
  rcases Nat.lt_trichotomy a.length b.length with hlt | heq | hgt
  · have h1 : ¬ a.length = b.length := by omega
    have h2 : ¬ a.length > b.length := by omega
    simp only [h1, h2, hlt, ↓reduceIte]
    generalize lessWalk (ci : Int) a.reverse b.reverse [] [] = w
    cases c <;> cases w <;> simp [comb_comp, Comparison.le]
  · simp only [heq, ↓reduceIte]
    exact msgsLoop_le c a b heq
  · have h1 : ¬ a.length = b.length := by omega
    have h2 : ¬ a.length < b.length := by omega
    simp only [h1, h2, hgt, ↓reduceIte]
    generalize greaterWalk (ci : Int) a.reverse b.reverse [] [] = w
    cases c <;> cases w <;> simp [comb_comp, Comparison.le]

theorem chanStep_ge (ci : Nat) (a b : List Msg) (c : Comparison) :
    (chanStep ci a b c).ge = (c.ge && chanLe ci b a) := by
  unfold chanStep chanLe
  rcases Nat.lt_trichotomy a.length b.length with hlt | heq | hgt
  · have h1 : ¬ a.length = b.length := by omega
    have h2 : ¬ a.length > b.length := by omega
    have h3 : ¬ b.length = a.length := by omega
    have h4 : ¬ b.length < a.length := by omega
    simp only [h1, h2, h3, h4, ↓reduceIte]
    generalize lessWalk (ci : Int) a.reverse b.reverse [] [] = w
    cases c <;> cases w <;> simp [comb_comp, Comparison.ge]
  · simp only [heq, ↓reduceIte]
    exact msgsLoop_ge c a b heq
  · have h1 : ¬ a.length = b.length := by omega
    have h3 : ¬ b.length = a.length := by omega
    have h4 : b.length < a.length := by omega
    simp only [h1, hgt, h3, h4, ↓reduceIte, greaterWalk_eq]
    generalize lessWalk (ci : Int) b.reverse a.reverse [] [] = w
    cases c <;> cases w <;> simp [comb_comp, Comparison.ge]

theorem channelsLoop_parts (n : Nat) (B : List (List Msg)) :
    ∀ (A : List (List Msg)) (ci : Nat) (c : Comparison), A ≠ [] →
      A.length = (B.drop ci).length → n = ci + A.length →
      (channelsLoop n B A ci c).le = (c.le && chansLe ci A (B.drop ci)) ∧
      (channelsLoop n B A ci c).ge = (c.ge && chansLe ci (B.drop ci) A) := by
  intro A
  induction A with
  | nil => intro ci c h; exact absurd rfl h
  | cons a rest ih =>
    intro ci c _ hlen hn
    cases hd : B.drop ci with
    | nil => rw [hd] at hlen; simp at hlen
    | cons b bs =>
      have hb : B.getD ci [] = b := by simp [(drop_eq_cons hd).1]
      have hbs : B.drop (ci + 1) = bs := (drop_eq_cons hd).2
      rw [hd] at hlen
      simp only [List.length_cons, add_left_inj] at hlen
      rw [channelsLoop_cons, hb]
      have sl := chanStep_le ci a b c
      have sg := chanStep_ge ci a b c
      simp only [chansLe]
      by_cases hinc : chanStep ci a b c = INCOMPARABLE
      · rw [if_pos hinc]
        rw [eq_incomparable_iff, sl, sg] at hinc
        constructor
        · rw [show INCOMPARABLE.le = false from rfl, ← Bool.and_assoc, hinc.1]; rfl
        · rw [show INCOMPARABLE.ge = false from rfl, ← Bool.and_assoc, hinc.2]; rfl
      · rw [if_neg hinc]
        by_cases hlast : ci + 1 = n
        · rw [if_pos hlast]
          have hr : rest = [] := by
            apply List.eq_nil_of_length_eq_zero
            simp only [List.length_cons] at hn
            omega
          have hbs' : bs = [] := by
            apply List.eq_nil_of_length_eq_zero
            rw [← hlen, hr]; rfl
          subst hr; subst hbs'
          simp [sl, sg, chansLe]
        · rw [if_neg hlast]
          have hr : rest ≠ [] := by
            intro e
            subst e
            simp only [List.length_cons, List.length_nil] at hn
            omega
          have := ih (ci + 1) (chanStep ci a b c) hr (by rw [hbs]; exact hlen)
            (by simp only [List.length_cons] at hn; omega)
          rw [hbs] at this
          rw [this.1, this.2, sl, sg]
          simp [Bool.and_assoc]

theorem channelsLoop_nil (n : Nat) (B : List (List Msg)) (ci : Nat) (c : Comparison) :
    channelsLoop n B [] ci c = INCOMPARABLE := rfl

/-- For constraints with the same number of register stores and of channels, at
least one channel, `entailment_compare` is the comparison whose two parts are
the order of the constraints in the two directions. -/
theorem entailment_compare_parts (a b : DualChannelConstraint)
    (hr : a.reg_stores.length = b.reg_stores.length)
    (hc : a.channels.length = b.channels.length) (hne : a.channels ≠ []) :
    (a.entailment_compare b).le = a.le b ∧ (a.entailment_compare b).ge = b.le a := by
  unfold DualChannelConstraint.entailment_compare DualChannelConstraint.entailment_compare_impl
    DualChannelConstraint.le
  by_cases hp : a.pcs = b.pcs
  · have hp' : b.pcs = a.pcs := hp.symm
    simp only [ne_eq, hp, not_true_eq_false, ↓reduceIte, decide_True, Bool.true_and]
    obtain ⟨r1, r2⟩ := regStoresLoop_parts b.reg_stores a.reg_stores 0 EQUAL (by simpa using hr)
    simp only [List.drop_zero, show EQUAL.le = true from rfl, show EQUAL.ge = true from rfl,
      Bool.true_and] at r1 r2
    by_cases h1 : regStoresLoop b.reg_stores a.reg_stores 0 EQUAL = INCOMPARABLE
    · rw [if_pos h1]
      rw [eq_incomparable_iff, r1, r2] at h1
      simp [h1.1, h1.2, Comparison.le, Comparison.ge]
    · rw [if_neg h1]
      generalize hm : comb_comp (regStoresLoop b.reg_stores a.reg_stores 0 EQUAL)
        (Store.entailment_compare (a.mems.getD 0 []) (b.mems.getD 0 [])) = cm
      have m1 : cm.le = (allLe storeLe a.reg_stores b.reg_stores &&
          storeLe (a.mems.getD 0 []) (b.mems.getD 0 [])) := by
        rw [← hm, comb_comp_le, r1, store_le]
      have m2 : cm.ge = (allLe storeLe b.reg_stores a.reg_stores &&
          storeLe (b.mems.getD 0 []) (a.mems.getD 0 [])) := by
        rw [← hm, comb_comp_ge, r2, store_ge]
      by_cases h2 : cm = INCOMPARABLE
      · rw [if_pos h2]
        rw [eq_incomparable_iff, m1, m2] at h2
        rw [show INCOMPARABLE.le = false from rfl, show INCOMPARABLE.ge = false from rfl,
          h2.1, h2.2]
        exact ⟨rfl, rfl⟩
      · rw [if_neg h2]
        obtain ⟨c1, c2⟩ := channelsLoop_parts a.channels.length b.channels a.channels 0 cm hne
          (by simpa using hc) (by simp)
        simp only [List.drop_zero] at c1 c2
        unfold DualChannelConstraint.entailment_compare_channels
        rw [c1, c2, m1, m2]
        exact ⟨rfl, rfl⟩
  · have hp' : ¬ b.pcs = a.pcs := fun e => hp e.symm
    simp [hp, hp', Comparison.le, Comparison.ge]

/-- A constraint without channels is incomparable with every constraint. -/
theorem entailment_compare_no_channel (a b : DualChannelConstraint) (h : a.channels = []) :
    a.entailment_compare b = INCOMPARABLE := by
  unfold DualChannelConstraint.entailment_compare DualChannelConstraint.entailment_compare_impl
    DualChannelConstraint.entailment_compare_channels
  rw [h]
  simp [channelsLoop]

/-! ### The properties of `entailment_compare` -/

theorem entailment_compare_eq_ofParts (a b : DualChannelConstraint)
    (hr : a.reg_stores.length = b.reg_stores.length)
    (hc : a.channels.length = b.channels.length) (hne : a.channels ≠ []) :
    a.entailment_compare b = Comparison.ofParts (a.le b) (b.le a) := by
  obtain ⟨h1, h2⟩ := entailment_compare_parts a b hr hc hne
  rw [← h1, ← h2, Comparison.ofParts_parts]

theorem subword_insert_foreign (ci : Int) (P Q : List Msg) (x : Msg) (hx : x.wpid ≠ ci)
    (h h1 : NmlsSet) (hsub : ∀ z, z ∈ h1 → z ∈ h) :
    Subword ci h h1 (P ++ Q) (P ++ x :: Q) := by
  induction P generalizing h h1 with
  | nil =>
    apply subword_prepend ci [x]
    apply subword_of_allLe ci (allLe_refl msgLe msgLe_refl Q)
    intro z hz
    simp only [addOwns, List.foldl, addOwn, hx, ↓reduceIte] at hz
    exact hsub z hz
  | cons p P ih =>
    refine ⟨fun _ hn hm => hn (hsub _ hm), [], p, P ++ x :: Q, rfl, msgLe_refl p, ?_⟩
    apply ih
    intro z hz
    simp only [List.nil_append, addOwns, List.foldl] at hz
    rw [mem_addOwn] at hz ⊢
    rcases hz with hz | hz
    · exact Or.inl (hsub z hz)
    · exact Or.inr hz

theorem chansLe_append (ci : Nat) (pre X Y : List (List Msg)) :
    chansLe ci (pre ++ X) (pre ++ Y) = chansLe (ci + pre.length) X Y := by
  induction pre generalizing ci with
  | nil => rfl
  | cons p pre ih =>
    have e : chansLe ci (p :: pre ++ X) (p :: pre ++ Y) =
        (chanLe ci p p && chansLe (ci + 1) (pre ++ X) (pre ++ Y)) := rfl
    rw [e, chanLe_refl, ih, Bool.true_and, List.length_cons,
      show ci + 1 + pre.length = ci + (pre.length + 1) by omega]

/-- C3 fails on the code: with one process whose channel is empty in `a` and holds
one own write in `b`, `a.entailment_compare(b)` is `LESS` (the walk has nothing to
match), while the characterizations of `a` and `b` differ. -/
theorem characterize_differs_for_comparable :
    (oneProc []).entailment_compare (oneProc [wmsg 0 0]) = LESS ∧
    (oneProc []).characterize_channels = [[]] ∧
    (oneProc [wmsg 0 0]).characterize_channels = [[(0, [0])]] := by
  decide

/-- C4: `entailment_compare` is converse-symmetric on constraints with the same
number of processes (register stores and channels): `LESS` one way is `GREATER`
the other way, `EQUAL` is `EQUAL`, `INCOMPARABLE` is `INCOMPARABLE`. -/
theorem entailment_compare_converse (a b : DualChannelConstraint)
    (hr : a.reg_stores.length = b.reg_stores.length)
    (hc : a.channels.length = b.channels.length) :
    (a.entailment_compare b = LESS ↔ b.entailment_compare a = GREATER) ∧
    (a.entailment_compare b = EQUAL ↔ b.entailment_compare a = EQUAL) ∧
    (a.entailment_compare b = INCOMPARABLE ↔ b.entailment_compare a = INCOMPARABLE) := by
  by_cases hne : a.channels = []
  · have hb : b.channels = [] := by
      apply List.eq_nil_of_length_eq_zero
      rw [← hc, hne]; rfl
    rw [entailment_compare_no_channel a b hne, entailment_compare_no_channel b a hb]
    simp
  · have hb : b.channels ≠ [] := by
      intro e
      apply hne
      apply List.eq_nil_of_length_eq_zero
      rw [hc, e]; rfl
    rw [entailment_compare_eq_ofParts a b hr hc hne,
      entailment_compare_eq_ofParts b a hr.symm hc.symm hb]
    cases a.le b <;> cases b.le a <;> simp [Comparison.ofParts]

/-- C4 at the constraints of the specification: `A` with channel
`[w_p(x), w_p(y)]`, `B` with channel `[w_p(x), w_q(z), w_p(y)]` (`p = 0`,
`q = 1`). -/
theorem entailment_compare_converse_witness :
    ((twoProc [wmsg 0 0, wmsg 0 1] []).entailment_compare
        (twoProc [wmsg 0 0, wmsg 1 2, wmsg 0 1] []) = LESS ↔
      (twoProc [wmsg 0 0, wmsg 1 2, wmsg 0 1] []).entailment_compare
        (twoProc [wmsg 0 0, wmsg 0 1] []) = GREATER) ∧
    (twoProc [wmsg 0 0, wmsg 0 1] []).entailment_compare
        (twoProc [wmsg 0 0, wmsg 1 2, wmsg 0 1] []) = LESS ∧
    (twoProc [wmsg 0 0, wmsg 1 2, wmsg 0 1] []).entailment_compare
        (twoProc [wmsg 0 0, wmsg 0 1] []) = GREATER :=
  ⟨(entailment_compare_converse (twoProc [wmsg 0 0, wmsg 0 1] [])
      (twoProc [wmsg 0 0, wmsg 1 2, wmsg 0 1] []) rfl rfl).1, by decide, by decide⟩

/-- C5: if `A` and `B` have equal control states, register stores and memory
store, and the channels of `A` are those of `B` except that in one channel `p`
one message written by another process is deleted, then
`A.entailment_compare(B) = LESS`. -/
theorem entailment_compare_delete_foreign (A B : DualChannelConstraint)
    (pre post : List (List Msg)) (x1 x2 : List Msg) (m : Msg)
    (hpcs : A.pcs = B.pcs) (hregs : A.reg_stores = B.reg_stores)
    (hmem : A.mems.getD 0 [] = B.mems.getD 0 [])
    (hA : A.channels = pre ++ (x1 ++ x2) :: post)
    (hB : B.channels = pre ++ (x1 ++ m :: x2) :: post)
    (hm : m.wpid ≠ (pre.length : Int)) :
    A.entailment_compare B = LESS := by
  have hne : A.channels ≠ [] := by rw [hA]; simp
  rw [entailment_compare_eq_ofParts A B (by rw [hregs]) (by rw [hA, hB]; simp) hne]
  have h1 : A.le B = true := by
    simp only [DualChannelConstraint.le, hpcs, hregs, hmem, hA, hB, decide_True, Bool.true_and,
      allLe_refl storeLe storeLe_refl, storeLe_refl, chansLe_append, chansLe, chansLe_refl,
      Bool.and_true, zero_add]
    rw [chanLe_iff]
    simp only [List.reverse_append, List.reverse_cons, List.append_assoc, List.singleton_append]
    exact subword_insert_foreign _ _ _ _ hm _ _ (fun _ h => h)
  have h2 : B.le A = false := by
    have : chanLe pre.length (x1 ++ m :: x2) (x1 ++ x2) = false := by
      unfold chanLe
      rw [if_neg (by simp), if_neg (by simp)]
    simp only [DualChannelConstraint.le, hA, hB, chansLe_append, chansLe, zero_add, this,
      Bool.false_and, Bool.and_false]
  rw [h1, h2]; rfl

/-- C5 at the constraints of the specification: the message `w_q(z)` of the
other process is deleted from channel `p = 0`. -/
theorem entailment_compare_delete_foreign_witness :
    (twoProc [wmsg 0 0, wmsg 0 1] []).entailment_compare
      (twoProc [wmsg 0 0, wmsg 1 2, wmsg 0 1] []) = LESS :=
  entailment_compare_delete_foreign (twoProc [wmsg 0 0, wmsg 0 1] [])
    (twoProc [wmsg 0 0, wmsg 1 2, wmsg 0 1] []) [] [[]] [wmsg 0 0] [wmsg 0 1] (wmsg 1 2)
    rfl rfl rfl rfl rfl (by decide)

/-- C6 fails for the constraint without processes: the loop over the channels is
not entered and `entailment_compare` returns `INCOMPARABLE`. -/
theorem entailment_compare_not_reflexive :
    noProc.entailment_compare noProc ≠ EQUAL := by
  decide

/-- C6, amended: `entailment_compare` is reflexive on constraints with at least
one process: `a.entailment_compare(a) = EQUAL` when `a` has a channel. -/
theorem entailment_compare_reflexive (a : DualChannelConstraint) (h : a.channels ≠ []) :
    a.entailment_compare a = EQUAL := by
  rw [entailment_compare_eq_ofParts a a rfl rfl h, DualChannelConstraint.le_refl]
  rfl

/-- C6, amended, at a constraint of two processes. -/
theorem entailment_compare_reflexive_witness :
    (twoProc [wmsg 0 0, wmsg 1 2, wmsg 0 1] [wmsg 1 2]).entailment_compare
      (twoProc [wmsg 0 0, wmsg 1 2, wmsg 0 1] [wmsg 1 2]) = EQUAL :=
  entailment_compare_reflexive _ (by decide)

theorem le_of_compare {a b : DualChannelConstraint}
    (hr : a.reg_stores.length = b.reg_stores.length)
    (hc : a.channels.length = b.channels.length)
    (h : a.entailment_compare b = LESS ∨ a.entailment_compare b = EQUAL) :
    a.channels ≠ [] ∧ a.le b = true := by
  have hne : a.channels ≠ [] := by
    intro e
    rw [entailment_compare_no_channel a b e] at h
    simp at h
  refine ⟨hne, ?_⟩
  rw [← (entailment_compare_parts a b hr hc hne).1]
  rcases h with h | h <;> rw [h] <;> rfl

/-- C7: `entailment_compare` is transitive on constraints over the same
`Common`: from `a ≤ b` and `b ≤ c` (each `LESS` or `EQUAL`) follows `a ≤ c`, and
`a.entailment_compare(c)` is `LESS` when one of the premises is. -/
theorem entailment_compare_transitive (common : Common) (a b c : DualChannelConstraint)
    (ha : a.over common) (hb : b.over common) (hc : c.over common)
    (hab : a.entailment_compare b = LESS ∨ a.entailment_compare b = EQUAL)
    (hbc : b.entailment_compare c = LESS ∨ b.entailment_compare c = EQUAL) :
    (a.entailment_compare c = LESS ∨ a.entailment_compare c = EQUAL) ∧
    (a.entailment_compare b = LESS ∨ b.entailment_compare c = LESS →
      a.entailment_compare c = LESS) := by
  have rab : a.reg_stores.length = b.reg_stores.length := by
    have := congrArg List.length (ha.2.2.1.trans hb.2.2.1.symm)
    simpa using this
  have rbc : b.reg_stores.length = c.reg_stores.length := by
    have := congrArg List.length (hb.2.2.1.trans hc.2.2.1.symm)
    simpa using this
  have cab : a.channels.length = b.channels.length := ha.2.1.trans hb.2.1.symm
  have cbc : b.channels.length = c.channels.length := hb.2.1.trans hc.2.1.symm
  obtain ⟨nea, lab⟩ := le_of_compare rab cab hab
  obtain ⟨neb, lbc⟩ := le_of_compare rbc cbc hbc
  have lac := DualChannelConstraint.le_trans common ha hb lab lbc
  have eab := entailment_compare_eq_ofParts a b rab cab nea
  have ebc := entailment_compare_eq_ofParts b c rbc cbc neb
  have eac := entailment_compare_eq_ofParts a c (rab.trans rbc) (cab.trans cbc) nea
  rw [eac, lac]
  constructor
  · cases c.le a <;> simp [Comparison.ofParts]
  · intro h
    cases hca : c.le a with
    | false => rfl
    | true =>
      exfalso
      rcases h with h | h
      · have hba := DualChannelConstraint.le_trans common hb hc lbc hca
        rw [eab, lab, hba] at h
        simp [Comparison.ofParts] at h
      · have hcb := DualChannelConstraint.le_trans common hc ha hca lab
        rw [ebc, lbc, hcb] at h
        simp [Comparison.ofParts] at h

/-- C7 at three constraints of two processes whose first channels are
`[w_p(x)]`, `[w_p(x), w_q(z)]` and `[w_p(x), w_q(z), w_p(y)]`. -/
theorem entailment_compare_transitive_witness :
    (twoProc [wmsg 0 0] []).entailment_compare (twoProc [wmsg 0 0, wmsg 1 2] []) = LESS ∧
    (twoProc [wmsg 0 0, wmsg 1 2] []).entailment_compare
      (twoProc [wmsg 0 0, wmsg 1 2, wmsg 0 1] []) = LESS ∧
    (twoProc [wmsg 0 0] []).entailment_compare
      (twoProc [wmsg 0 0, wmsg 1 2, wmsg 0 1] []) = LESS :=
  ⟨by decide, by decide,
   (entailment_compare_transitive { mem_size := 1, reg_count := [0, 0] }
      (twoProc [wmsg 0 0] []) (twoProc [wmsg 0 0, wmsg 1 2] [])
      (twoProc [wmsg 0 0, wmsg 1 2, wmsg 0 1] []) (by decide) (by decide) (by decide)
      (Or.inl (by decide)) (Or.inl (by decide))).2 (Or.inl (by decide))⟩

/-- C8: constraints with different control states are `INCOMPARABLE`, whatever
their stores and channels are. -/
theorem entailment_compare_pcs_differ (a b : DualChannelConstraint) (h : a.pcs ≠ b.pcs) :
    a.entailment_compare b = INCOMPARABLE := by
  unfold DualChannelConstraint.entailment_compare DualChannelConstraint.entailment_compare_impl
  rw [if_pos h]

/-- C8 at two constraints that differ in the control state of the first process
only. -/
theorem entailment_compare_pcs_differ_witness :
    ({ pcs := [1, 0], channels := [[], []], mems := [[Val.STAR]], reg_stores := [[], []] } :
        DualChannelConstraint).entailment_compare (twoProc [] []) = INCOMPARABLE :=
  entailment_compare_pcs_differ _ _ (by decide)

/-! ## `ChannelPrioTicketQueue`: shortest channel first, first in first out -/

theorem queued_nil (i : Nat) : queued [] i = [] := by
  simp [queued, TicketQueue.empty]

theorem queued_cons_zero (q : TicketQueue CWrapper) (qs : List (TicketQueue CWrapper)) :
    queued (q :: qs) 0 = q.items.map Prod.snd := by
  simp [queued]

theorem queued_cons_succ (q : TicketQueue CWrapper) (qs : List (TicketQueue CWrapper))
    (i : Nat) : queued (q :: qs) (i + 1) = queued qs i := by
  simp [queued]

theorem queued_resize (qs : List (TicketQueue CWrapper)) (n i : Nat) :
    queued (resizeQueues qs n) i = queued qs i := by
  unfold queued resizeQueues
  congr 2
  simp only [List.getD_eq_getElem?_getD]
  by_cases h : i < qs.length
  · rw [List.getElem?_append_left h]
  · rw [List.getElem?_append_right (by omega)]
    have h2 : qs[i]? = none := List.getElem?_eq_none (by omega)
    rw [h2]
    by_cases h3 : i - qs.length < n - qs.length
    · rw [List.getElem?_replicate_of_lt h3]; rfl
    · rw [List.getElem?_eq_none (by simp; omega)]

theorem queued_set (qs : List (TicketQueue CWrapper)) (k : Nat) (q : TicketQueue CWrapper)
    (hk : k < qs.length) (i : Nat) :
    queued (qs.set k q) i = if i = k then q.items.map Prod.snd else queued qs i := by
  unfold queued
  simp only [List.getD_eq_getElem?_getD, List.getElem?_set]
  by_cases h1 : i = k
  · subst h1
    simp [hk]
  · have h2 : ¬ k = i := fun e => h1 e.symm
    simp [h1, h2]

theorem popScan_none {qs : List (TicketQueue CWrapper)} (h : popScan qs = none) :
    ∀ i, queued qs i = [] := by
  induction qs with
  | nil => intro i; exact queued_nil i
  | cons q qs ih =>
    unfold popScan at h
    by_cases hs : q.size > 0
    · rw [if_pos hs] at h
      simp only [TicketQueue.size] at hs
      unfold TicketQueue.pop at h
      cases hq : q.items with
      | nil => rw [hq] at hs; simp at hs
      | cons a tl => rw [hq] at h; simp at h
    · rw [if_neg hs] at h
      have hn : popScan qs = none := by
        cases hp : popScan qs with
        | none => rfl
        | some p => rw [hp] at h; simp at h
      intro i
      cases i with
      | zero =>
        rw [queued_cons_zero]
        simp only [TicketQueue.size, gt_iff_lt, List.length_pos, ne_eq, not_not] at hs
        rw [hs]; rfl
      | succ i => rw [queued_cons_succ]; exact ih hn i

theorem popScan_some {qs qs1 : List (TicketQueue CWrapper)} {cw : CWrapper}
    (h : popScan qs = some (cw, qs1)) :
    ∃ k tl, (∀ j, j < k → queued qs j = []) ∧ queued qs k = cw :: tl ∧
      ∀ i, queued qs1 i = if i = k then tl else queued qs i := by
  induction qs generalizing qs1 with
  | nil => simp [popScan] at h
  | cons q qs ih =>
    unfold popScan at h
    by_cases hs : q.size > 0
    · rw [if_pos hs] at h
      unfold TicketQueue.pop at h
      cases hq : q.items with
      | nil => rw [hq] at h; simp at h
      | cons a tl =>
        rw [hq] at h
        simp only [Option.some.injEq, Prod.mk.injEq] at h
        obtain ⟨rfl, rfl⟩ := h
        refine ⟨0, tl.map Prod.snd, by intro j hj; omega, by simp [queued_cons_zero, hq], ?_⟩
        intro i
        cases i with
        | zero => simp [queued_cons_zero]
        | succ i => simp [queued_cons_succ]
    · rw [if_neg hs] at h
      cases hp : popScan qs with
      | none => rw [hp] at h; simp at h
      | some p =>
        obtain ⟨cw1, qs2⟩ := p
        rw [hp] at h
        simp only [Option.some.injEq, Prod.mk.injEq] at h
        obtain ⟨rfl, rfl⟩ := h
        obtain ⟨k, tl, h1, h2, h3⟩ := ih hp
        have hq0 : q.items = [] := by
          simpa [TicketQueue.size, List.length_pos] using hs
        refine ⟨k + 1, tl, ?_, by rw [queued_cons_succ]; exact h2, ?_⟩
        · intro j hj
          cases j with
          | zero => rw [queued_cons_zero, hq0]; rfl
          | succ j => rw [queued_cons_succ]; exact h1 j (by omega)
        · intro i
          cases i with
          | zero => simp [queued_cons_zero]
          | succ i => simp only [queued_cons_succ, h3 i, add_left_inj]

theorem filter_erase_head {α : Type} [DecidableEq α] (p : α → Bool) (l : List α) (a : α)
    (tl : List α) (h : l.filter p = a :: tl) : (l.erase a).filter p = tl := by
  induction l with
  | nil => simp at h
  | cons x xs ih =>
    by_cases hx : x = a
    · subst hx
      have hp : p x = true := by
        have : x ∈ (x :: xs).filter p := by rw [h]; simp
        exact (List.mem_filter.mp this).2
      simp only [List.erase_cons_head]
      simp only [List.filter_cons, hp, ↓reduceIte, List.cons.injEq, true_and] at h
      exact h
    · rw [List.erase_cons_tail (by simpa using hx)]
      by_cases hp : p x = true
      · simp only [List.filter_cons, hp, ↓reduceIte, List.cons.injEq] at h
        exact absurd h.1 hx
      · simp only [List.filter_cons, hp, Bool.false_eq_true, ↓reduceIte] at h ⊢
        exact ih h

theorem filter_erase_of_not {α : Type} [DecidableEq α] (p : α → Bool) (l : List α) (a : α)
    (h : p a = false) : (l.erase a).filter p = l.filter p := by
  induction l with
  | nil => rfl
  | cons x xs ih =>
    by_cases hx : x = a
    · subst hx
      simp [List.filter_cons, h]
    · rw [List.erase_cons_tail (by simpa using hx)]
      simp only [List.filter_cons, ih]

theorem find_of_filter {α : Type} (p : α → Bool) (l : List α) (a : α) (tl : List α)
    (h : l.filter p = a :: tl) : l.find? p = some a := by
  induction l with
  | nil => simp at h
  | cons x xs ih =>
    by_cases hp : p x = true
    · simp only [List.filter_cons, hp, ↓reduceIte, List.cons.injEq] at h
      rw [← h.1]
      simp [List.find?, hp]
    · simp only [List.filter_cons, hp, Bool.false_eq_true, ↓reduceIte] at h
      simp only [Bool.not_eq_true] at hp
      simp [List.find?, hp, ih h]

theorem queueInv_empty : QueueInv ChannelPrioTicketQueue.empty [] := by
  intro i
  simp [ChannelPrioTicketQueue.empty, queued_nil]

theorem queueInv_push {Q : ChannelPrioTicketQueue} {held : List CWrapper}
    (h : QueueInv Q held) (cw : CWrapper) : QueueInv (Q.push cw).2 (held ++ [cw]) := by
  intro i
  unfold ChannelPrioTicketQueue.push
  simp only
  generalize hqs : (if Q.queues.length ≤ cw.channel_length
    then resizeQueues Q.queues (cw.channel_length + 1) else Q.queues) = qs
  have hq : ∀ j, queued qs j = queued Q.queues j := by
    intro j
    rw [← hqs]
    split_ifs
    · exact queued_resize _ _ _
    · rfl
  have hlen : cw.channel_length < qs.length := by
    rw [← hqs]
    split_ifs with h1
    · simp only [resizeQueues, List.length_append, List.length_replicate]; omega
    · omega
  rw [queued_set _ _ _ hlen, List.filter_append]
  split_ifs with h1
  · subst h1
    have := hq cw.channel_length
    unfold queued at this
    simp only [TicketQueue.push, List.map_append, List.map_cons, List.map_nil, this]
    rw [← queued, h cw.channel_length]
    simp
  · rw [hq, h i]
    have : decide (cw.channel_length = i) = false := by
      simp only [decide_eq_false_iff_not]
      exact fun e => h1 e.symm
    simp [List.filter_cons, this]

theorem queueInv_clear (Q : ChannelPrioTicketQueue) : QueueInv Q.clear [] := by
  intro i
  simp [ChannelPrioTicketQueue.clear, queued_nil]

/-- What `pop` does on a queue that satisfies the invariant. -/
theorem pop_cases {Q : ChannelPrioTicketQueue} {held : List CWrapper} (h : QueueInv Q held) :
    (Q.pop.1 = none ∧ Q.pop.2 = Q ∧ ∀ w ∈ held, w.channel_length = 0) ∨
    ∃ cw tl, Q.pop.1 = some cw ∧ 1 ≤ cw.channel_length ∧
      held.filter (fun w => decide (w.channel_length = cw.channel_length)) = cw :: tl ∧
      (∀ w ∈ held, 1 ≤ w.channel_length → cw.channel_length ≤ w.channel_length) ∧
      QueueInv Q.pop.2 (held.erase cw) := by
  have hzero : (∀ i, queued Q.queues (i + 1) = []) → ∀ w ∈ held, w.channel_length = 0 := by
    intro hall w hw
    by_contra hne
    obtain ⟨k, hk⟩ : ∃ k, w.channel_length = k + 1 := ⟨w.channel_length - 1, by omega⟩
    have := h (k + 1)
    rw [hall k] at this
    have hm : w ∈ held.filter (fun w => decide (w.channel_length = k + 1)) :=
      List.mem_filter.mpr ⟨hw, by simpa using hk⟩
    rw [← this] at hm
    simp at hm
  unfold ChannelPrioTicketQueue.pop
  cases hq : Q.queues with
  | nil =>
    left
    refine ⟨rfl, rfl, hzero ?_⟩
    intro i; rw [hq]; exact queued_nil _
  | cons q0 rest =>
    simp only
    cases hp : popScan rest with
    | none =>
      left
      refine ⟨rfl, rfl, hzero ?_⟩
      intro i
      rw [hq, queued_cons_succ]
      exact popScan_none hp i
    | some p =>
      obtain ⟨cw, rest1⟩ := p
      right
      obtain ⟨k, tl, h1, h2, h3⟩ := popScan_some hp
      have hk := h (k + 1)
      rw [hq, queued_cons_succ, h2] at hk
      have hcw : cw.channel_length = k + 1 := by
        have hm : cw ∈ held.filter (fun w => decide (w.channel_length = k + 1)) := by
          rw [← hk]; simp
        simpa using (List.mem_filter.mp hm).2
      refine ⟨cw, tl, rfl, by omega, by rw [hcw]; exact hk.symm, ?_, ?_⟩
      · intro w hw hw1
        by_contra hlt
        obtain ⟨j, hj⟩ : ∃ j, w.channel_length = j + 1 := ⟨w.channel_length - 1, by omega⟩
        have hjk : j < k := by omega
        have := h (j + 1)
        rw [hq, queued_cons_succ, h1 j hjk] at this
        have hm : w ∈ held.filter (fun w => decide (w.channel_length = j + 1)) :=
          List.mem_filter.mpr ⟨hw, by simpa using hj⟩
        rw [← this] at hm
        simp at hm
      · intro i
        simp only
        cases i with
        | zero =>
          rw [queued_cons_zero]
          have := h 0
          rw [hq, queued_cons_zero] at this
          rw [this, filter_erase_of_not]
          simp only [decide_eq_false_iff_not]; omega
        | succ i =>
          rw [queued_cons_succ, h3 i]
          split_ifs with hik
          · subst hik
            exact (filter_erase_head _ _ _ _ hk.symm).symm
          · have := h (i + 1)
            rw [hq, queued_cons_succ] at this
            rw [this, filter_erase_of_not]
            simp only [decide_eq_false_iff_not]; omega

theorem queueInv_of_holds {Q : ChannelPrioTicketQueue} {held : List CWrapper}
    (h : QueueHolds Q held) : QueueInv Q held := by
  induction h with
  | empty => exact queueInv_empty
  | push Q held cw _ ih => exact queueInv_push ih cw
  | pop Q held _ ih =>
    rcases pop_cases ih with ⟨h1, h2, _⟩ | ⟨cw, tl, h1, _, _, _, h5⟩
    · rw [h1, h2]; exact ih
    · rw [h1]; exact h5
  | clear Q held _ _ => exact queueInv_clear Q

/-- C10 fails on the code: a held wrapper of channel length 0 is never returned;
with only such a wrapper held, `pop()` returns null. -/
theorem pop_null_with_wrapper_held :
    QueueHolds (ChannelPrioTicketQueue.empty.push ⟨7, 0⟩).2 [⟨7, 0⟩] ∧
    (ChannelPrioTicketQueue.empty.push ⟨7, 0⟩).2.pop.1 = none :=
  ⟨QueueHolds.push _ _ _ QueueHolds.empty, by decide⟩

/-- C10, amended: whenever a wrapper of channel length at least 1 is held,
`pop()` returns a held wrapper whose channel length is the smallest channel
length, at least 1, of a held wrapper, and among the held wrappers of that length
the one pushed first; `pop()` returns null only when no wrapper of channel length
at least 1 is held. -/
theorem pop_shortest_first (Q : ChannelPrioTicketQueue) (held : List CWrapper)
    (h : QueueHolds Q held) :
    ((∃ w ∈ held, 1 ≤ w.channel_length) →
      ∃ cw, Q.pop.1 = some cw ∧ cw ∈ held ∧ 1 ≤ cw.channel_length ∧
        (∀ w ∈ held, 1 ≤ w.channel_length → cw.channel_length ≤ w.channel_length) ∧
        held.find? (fun w => decide (w.channel_length = cw.channel_length)) = some cw) ∧
    (Q.pop.1 = none ↔ ¬ ∃ w ∈ held, 1 ≤ w.channel_length) := by
  rcases pop_cases (queueInv_of_holds h) with ⟨h1, _, h3⟩ | ⟨cw, tl, h1, h2, h3, h4, _⟩
  · have hno : ¬ ∃ w ∈ held, 1 ≤ w.channel_length := by
      rintro ⟨w, hw, hw1⟩
      have := h3 w hw
      omega
    exact ⟨fun hex => absurd hex hno, by simp only [h1, true_iff]; exact hno⟩
  · have hmem : cw ∈ held := by
      have : cw ∈ held.filter (fun w => decide (w.channel_length = cw.channel_length)) := by
        rw [h3]; simp
      exact (List.mem_filter.mp this).1
    refine ⟨fun _ => ⟨cw, h1, hmem, h2, h4, find_of_filter _ _ _ _ h3⟩, ?_⟩
    rw [h1]
    simp only [reduceCtorEq, false_iff, not_not]
    exact ⟨cw, hmem, h2⟩

/-- C10, amended, on the queue after wrappers of channel lengths 2, 1, 0 and 1
were pushed: `pop()` returns the first wrapper of length 1. -/
theorem pop_shortest_first_witness :
    QueueHolds ((((ChannelPrioTicketQueue.empty.push ⟨1, 2⟩).2.push ⟨2, 1⟩).2.push
        ⟨3, 0⟩).2.push ⟨4, 1⟩).2 ([] ++ [⟨1, 2⟩] ++ [⟨2, 1⟩] ++ [⟨3, 0⟩] ++ [⟨4, 1⟩]) ∧
    ((((ChannelPrioTicketQueue.empty.push ⟨1, 2⟩).2.push ⟨2, 1⟩).2.push
        ⟨3, 0⟩).2.push ⟨4, 1⟩).2.pop.1 = some ⟨2, 1⟩ ∧
    (((((ChannelPrioTicketQueue.empty.push ⟨1, 2⟩).2.push ⟨2, 1⟩).2.push
        ⟨3, 0⟩).2.push ⟨4, 1⟩).2.pop.1 = none ↔
      ¬ ∃ w ∈ ([] ++ [⟨1, 2⟩] ++ [⟨2, 1⟩] ++ [⟨3, 0⟩] ++ [⟨4, 1⟩] : List CWrapper),
        1 ≤ w.channel_length) :=
  ⟨QueueHolds.push _ _ _ (QueueHolds.push _ _ _ (QueueHolds.push _ _ _
      (QueueHolds.push _ _ _ QueueHolds.empty))),
   by decide,
   (pop_shortest_first _ _ (QueueHolds.push _ _ _ (QueueHolds.push _ _ _
      (QueueHolds.push _ _ _ (QueueHolds.push _ _ _ QueueHolds.empty))))).2⟩

/-! ## The container: `F` stays pairwise incomparable -/

theorem contradicts_eq_false (v : Val) (d : VarDecl) :
    contradicts v d = false ↔ CellOk v d := by
  unfold contradicts CellOk VarDecl.is_wild VarDecl.get_value
  cases v with
  | STAR => simp
  | int n =>
    cases hd : d.value with
    | none => simp
    | some w =>
      simp only [Val.get_int, Option.getD_some, Option.isNone_some, Bool.not_false,
        Bool.and_true, reduceCtorEq, false_or, Option.some.injEq]
      have h1 : (Val.int n != Val.STAR) = true := by simp
      rw [h1]
      simp only [Bool.true_and, bne_eq_false_iff_eq]
      exact eq_comm

theorem pcsLoop_iff (pcs : List Int) : pcsLoop pcs = true ↔ ∀ pc ∈ pcs, pc = 0 := by
  induction pcs with
  | nil => simp [pcsLoop]
  | cons pc rest ih =>
    unfold pcsLoop
    by_cases h : pc = 0
    · simp [h, ih]
    · simp [h]

theorem channelsEmptyLoop_iff (chs : List (List Msg)) :
    channelsEmptyLoop chs = true ↔ ∀ ch ∈ chs, ch = [] := by
  induction chs with
  | nil => simp [channelsEmptyLoop]
  | cons ch rest ih =>
    unfold channelsEmptyLoop
    by_cases h : ch = []
    · simp [h, ih]
    · have : ch.length ≠ 0 := fun e => h (List.eq_nil_of_length_eq_zero e)
      simp [h, this]

theorem gvarsLoop_iff (str : Store) (decls : List VarDecl) (k : Nat) :
    gvarsLoop str decls k = true ↔
      ∀ (i : Nat) (d : VarDecl), decls[i]? = some d → CellOk (str.getD (k + i) Val.STAR) d := by
  induction decls generalizing k with
  | nil => simp [gvarsLoop]
  | cons d rest ih =>
    unfold gvarsLoop
    by_cases h : contradicts (str.getD k Val.STAR) d = true
    · simp only [h, ↓reduceIte, Bool.false_eq_true, false_iff, not_forall]
      refine ⟨0, d, by simp, ?_⟩
      intro hc
      rw [← contradicts_eq_false] at hc
      simp only [add_zero] at hc
      rw [h] at hc
      exact absurd hc (by decide)
    · simp only [Bool.not_eq_true] at h
      simp only [h, Bool.false_eq_true, ↓reduceIte, ih]
      constructor
      · intro hall i d1 hi
        cases i with
        | zero =>
          simp only [List.getElem?_cons_zero, Option.some.injEq] at hi
          subst hi
          exact (contradicts_eq_false _ _).mp h
        | succ i =>
          simp only [List.getElem?_cons_succ] at hi
          have := hall i d1 hi
          rw [show k + (i + 1) = k + 1 + i by omega]
          exact this
      · intro hall i d1 hi
        have := hall (i + 1) d1 (by simpa using hi)
        rw [show k + (i + 1) = k + 1 + i by omega] at this
        exact this

theorem lvarsInnerLoop_iff (layout : Layout) (str : Store) (p : Nat) (decls : List VarDecl)
    (k : Nat) :
    lvarsInnerLoop layout str p decls k = true ↔
      ∀ (i : Nat) (d : VarDecl), decls[i]? = some d →
        CellOk (str.getD (layout.index (layout.local_nml (k + i) p)) Val.STAR) d := by
  induction decls generalizing k with
  | nil => simp [lvarsInnerLoop]
  | cons d rest ih =>
    unfold lvarsInnerLoop
    by_cases h : contradicts (str.getD (layout.index (layout.local_nml k p)) Val.STAR) d = true
    · simp only [h, ↓reduceIte, Bool.false_eq_true, false_iff, not_forall]
      refine ⟨0, d, by simp, ?_⟩
      intro hc
      rw [← contradicts_eq_false] at hc
      simp only [add_zero] at hc
      rw [h] at hc
      exact absurd hc (by decide)
    · simp only [Bool.not_eq_true] at h
      simp only [h, Bool.false_eq_true, ↓reduceIte, ih]
      constructor
      · intro hall i d1 hi
        cases i with
        | zero =>
          simp only [List.getElem?_cons_zero, Option.some.injEq] at hi
          subst hi
          exact (contradicts_eq_false _ _).mp h
        | succ i =>
          simp only [List.getElem?_cons_succ] at hi
          have := hall i d1 hi
          rw [show k + (i + 1) = k + 1 + i by omega]
          exact this
      · intro hall i d1 hi
        have := hall (i + 1) d1 (by simpa using hi)
        rw [show k + (i + 1) = k + 1 + i by omega] at this
        exact this

theorem lvarsLoop_iff (layout : Layout) (str : Store) (lvars : List (List VarDecl))
    (n k : Nat) :
    lvarsLoop layout str lvars n k = true ↔
      ∀ p, k ≤ p → p < k + n → ∀ (i : Nat) (d : VarDecl), (lvars.getD p [])[i]? = some d →
        CellOk (str.getD (layout.index (layout.local_nml i p)) Val.STAR) d := by
  induction n generalizing k with
  | zero =>
    simp only [lvarsLoop, add_zero, true_iff]
    intro p h1 h2; omega
  | succ n ih =>
    unfold lvarsLoop
    by_cases h : lvarsInnerLoop layout str k (lvars.getD k []) 0 = true
    · simp only [h, ↓reduceIte, ih]
      rw [lvarsInnerLoop_iff] at h
      constructor
      · intro hall p h1 h2 i d hi
        by_cases hp : p = k
        · subst hp
          have := h i d hi
          simpa using this
        · exact hall p (by omega) (by omega) i d hi
      · intro hall p h1 h2 i d hi
        exact hall p (by omega) (by omega) i d hi
    · simp only [h, Bool.false_eq_true, ↓reduceIte, false_iff]
      intro hall
      apply h
      rw [lvarsInnerLoop_iff]
      intro i d hi
      have := hall k (le_refl _) (by omega) i d hi
      simpa using this

theorem regsInnerLoop_iff (store : Store) (decls : List VarDecl) (n k : Nat) :
    regsInnerLoop store decls n k = true ↔
      ∀ i, k ≤ i → i < k + n →
        CellOk (store.getD i Val.STAR) (decls.getD i { value := none }) := by
  induction n generalizing k with
  | zero =>
    simp only [regsInnerLoop, add_zero, true_iff]
    intro i h1 h2; omega
  | succ n ih =>
    unfold regsInnerLoop
    by_cases h : contradicts (store.getD k Val.STAR) (decls.getD k { value := none }) = true
    · simp only [h, ↓reduceIte, Bool.false_eq_true, false_iff]
      intro hall
      have := hall k (le_refl _) (by omega)
      rw [← contradicts_eq_false, h] at this
      exact absurd this (by decide)
    · simp only [Bool.not_eq_true] at h
      simp only [h, Bool.false_eq_true, ↓reduceIte, ih]
      constructor
      · intro hall i h1 h2
        by_cases hi : i = k
        · subst hi; exact (contradicts_eq_false _ _).mp h
        · exact hall i (by omega) (by omega)
      · intro hall i h1 h2
        exact hall i (by omega) (by omega)

theorem regsLoop_iff (reg_count : List Nat) (regs : List (List VarDecl))
    (stores : List Store) (k : Nat) :
    regsLoop reg_count regs stores k = true ↔
      ∀ (p : Nat) (store : Store), stores[p]? = some store →
        ∀ i, i < reg_count.getD (k + p) 0 →
          CellOk (store.getD i Val.STAR) ((regs.getD (k + p) []).getD i { value := none }) := by
  induction stores generalizing k with
  | nil => simp [regsLoop]
  | cons store rest ih =>
    unfold regsLoop
    by_cases h : regsInnerLoop store (regs.getD k []) (reg_count.getD k 0) 0 = true
    · simp only [h, ↓reduceIte, ih]
      rw [regsInnerLoop_iff] at h
      constructor
      · intro hall p st hp i hi
        cases p with
        | zero =>
          simp only [List.getElem?_cons_zero, Option.some.injEq] at hp
          subst hp
          simp only [add_zero] at hi ⊢
          exact h i (Nat.zero_le _) (by omega)
        | succ p =>
          simp only [List.getElem?_cons_succ] at hp
          rw [show k + (p + 1) = k + 1 + p by omega] at hi ⊢
          exact hall p st hp i hi
      · intro hall p st hp i hi
        have := hall (p + 1) st (by simpa using hp) i
          (by rw [show k + (p + 1) = k + 1 + p by omega]; exact hi)
        rw [show k + (p + 1) = k + 1 + p by omega] at this
        exact this
    · simp only [h, Bool.false_eq_true, ↓reduceIte, false_iff]
      intro hall
      apply h
      rw [regsInnerLoop_iff]
      intro i _ hi
      have := hall 0 store (by simp) i (by simpa using hi)
      simpa using this

/-- C11: `is_init_state()` returns true iff every control state is 0, every
channel is empty, every cell of `mems[0]` of a global or local variable is
`STAR` or agrees with the declared initial value (wild, or equal to the cell),
and likewise every register cell; a constraint with a non-empty channel is not
initial. -/
theorem is_init_state_iff (common : CommonTables) (layout : Layout)
    (c : DualChannelConstraint) :
    (c.is_init_state common layout = true ↔
      (∀ pc ∈ c.pcs, pc = 0) ∧
      (∀ ch ∈ c.channels, ch = []) ∧
      (∀ (i : Nat) (d : VarDecl), common.machine.gvars[i]? = some d →
        CellOk ((c.mems.getD 0 []).getD i Val.STAR) d) ∧
      (∀ p, p < c.pcs.length → ∀ (i : Nat) (d : VarDecl),
        (common.machine.lvars.getD p [])[i]? = some d →
        CellOk ((c.mems.getD 0 []).getD (layout.index (layout.local_nml i p)) Val.STAR) d) ∧
      (∀ (p : Nat) (store : Store), c.reg_stores[p]? = some store →
        ∀ i, i < common.reg_count.getD p 0 →
          CellOk (store.getD i Val.STAR)
            ((common.machine.regs.getD p []).getD i { value := none }))) ∧
    ((∃ ch ∈ c.channels, ch ≠ []) → c.is_init_state common layout = false) := by
  have main : c.is_init_state common layout = true ↔
      (pcsLoop c.pcs = true ∧ channelsEmptyLoop c.channels = true ∧
        gvarsLoop (c.mems.getD 0 []) common.machine.gvars 0 = true ∧
        lvarsLoop layout (c.mems.getD 0 []) common.machine.lvars c.pcs.length 0 = true ∧
        regsLoop common.reg_count common.machine.regs c.reg_stores 0 = true) := by
    unfold DualChannelConstraint.is_init_state
    cases pcsLoop c.pcs <;> cases channelsEmptyLoop c.channels <;>
      cases gvarsLoop (c.mems.getD 0 []) common.machine.gvars 0 <;>
      cases lvarsLoop layout (c.mems.getD 0 []) common.machine.lvars c.pcs.length 0 <;>
      cases regsLoop common.reg_count common.machine.regs c.reg_stores 0 <;> simp
  have e1 := pcsLoop_iff c.pcs
  have e2 := channelsEmptyLoop_iff c.channels
  have e3 := gvarsLoop_iff (c.mems.getD 0 []) common.machine.gvars 0
  have e4 := lvarsLoop_iff layout (c.mems.getD 0 []) common.machine.lvars c.pcs.length 0
  have e5 := regsLoop_iff common.reg_count common.machine.regs c.reg_stores 0
  simp only [zero_add, Nat.zero_le, true_implies] at e3 e4 e5
  constructor
  · rw [main, e1, e2, e3, e4, e5]
  · rintro ⟨ch, hch, hne⟩
    cases h : c.is_init_state common layout with
    | false => rfl
    | true =>
      rw [main, e2] at h
      exact absurd (h.2.1 ch hch) hne

theorem store_of_write_integer (layout : Layout) (mem_size p m : Nat) (v : Int)
    (ws : List (List Nat)) :
    store_of_write layout mem_size
        { pid := p, instruction := Stmt.write m (Expr.integer v), write_sets := ws } =
      (Store.star mem_size).assign (layout.index (layout.nml m p)) v := by
  simp [store_of_write, Stmt.get_type, Stmt.get_expr, Expr.is_integer, Stmt.get_memloc,
    Expr.get_integer]

theorem store_of_write_other (layout : Layout) (mem_size p m : Nat)
    (ws : List (List Nat)) :
    store_of_write layout mem_size
        { pid := p, instruction := Stmt.write m Expr.other, write_sets := ws } =
      some (Store.star mem_size) := by
  simp [store_of_write, Stmt.get_type, Stmt.get_expr, Expr.is_integer]

/-- C12: for a WRITE transition of process `p` to location `m` whose cell
`index(NML(m, p))` lies in the store: with an integer constant `v`,
`store_of_write` is the store of length `mem_size` that holds `v` at that
index and `STAR` at every other index; with another expression it is the store
that holds `STAR` at every index. -/
theorem store_of_write_write (layout : Layout) (mem_size p m : Nat) (e : Expr)
    (ws : List (List Nat)) (hidx : layout.index (layout.nml m p) < mem_size) :
    (∀ v, e = Expr.integer v →
      ∃ s, store_of_write layout mem_size
          { pid := p, instruction := Stmt.write m e, write_sets := ws } = some s ∧
        s.length = mem_size ∧
        s[layout.index (layout.nml m p)]? = some (Val.int v) ∧
        ∀ j, j < mem_size → j ≠ layout.index (layout.nml m p) → s[j]? = some Val.STAR) ∧
    (e = Expr.other →
      ∃ s, store_of_write layout mem_size
          { pid := p, instruction := Stmt.write m e, write_sets := ws } = some s ∧
        s.length = mem_size ∧ ∀ j, j < mem_size → s[j]? = some Val.STAR) := by
  constructor
  · intro v he
    subst he
    refine ⟨(Store.star mem_size).set (layout.index (layout.nml m p)) (Val.int v), ?_, ?_, ?_, ?_⟩
    · rw [store_of_write_integer]
      unfold Store.assign
      rw [if_pos (by simpa [Store.star] using hidx)]
    · simp [Store.star]
    · simp [Store.star, hidx]
    · intro j hj hne
      rw [List.getElem?_set_ne (Ne.symm hne)]
      simp [Store.star, hj]
  · intro he
    subst he
    refine ⟨Store.star mem_size, store_of_write_other layout mem_size p m ws, ?_, ?_⟩
    · simp [Store.star]
    · intro j hj
      simp [Store.star, hj]

/-- Witness of C12: process 1 writes the constant 7 to location 2 of a store of
four cells, with the identity layout. -/
theorem store_of_write_write_witness :
    (2 < 4) ∧
    ((∀ v, Expr.integer 7 = Expr.integer v →
      ∃ s, store_of_write idLayout 4
          { pid := 1, instruction := Stmt.write 2 (Expr.integer 7), write_sets := [[2]] } =
            some s ∧
        s.length = 4 ∧ s[2]? = some (Val.int v) ∧
        ∀ j, j < 4 → j ≠ 2 → s[j]? = some Val.STAR) ∧
    (Expr.integer 7 = Expr.other →
      ∃ s, store_of_write idLayout 4
          { pid := 1, instruction := Stmt.write 2 (Expr.integer 7), write_sets := [[2]] } =
            some s ∧
        s.length = 4 ∧ ∀ j, j < 4 → s[j]? = some Val.STAR)) :=
  ⟨by decide,
    store_of_write_write idLayout 4 1 2
      (Expr.integer 7) [[2]] (by decide)⟩

theorem mem_vecInsert (x z : Nat) (l : List Nat) :
    z ∈ vecInsert x l ↔ z = x ∨ z ∈ l := by
  induction l with
  | nil => simp [vecInsert]
  | cons y ys ih =>
    unfold vecInsert
    by_cases h1 : x < y
    · simp [h1]
    · by_cases h2 : x = y
      · subst h2
        simp
      · simp only [h1, h2, ↓reduceIte, List.mem_cons, ih]
        tauto

theorem mem_nmlsOf (layout : Layout) (p z : Nat) (ws acc : List Nat) :
    z ∈ nmlsOf layout p ws acc ↔ z ∈ acc ∨ ∃ w ∈ ws, z = layout.nml w p := by
  induction ws generalizing acc with
  | nil => simp [nmlsOf]
  | cons w rest ih =>
    unfold nmlsOf
    rw [ih, mem_vecInsert]
    simp only [List.mem_cons, exists_eq_or_imp]
    tauto

theorem one_lt_length_of_two_mem {α : Type} (l : List α) (a b : α)
    (ha : a ∈ l) (hb : b ∈ l) (hne : a ≠ b) : 1 < l.length := by
  match l, ha, hb with
  | [c], ha, hb =>
    simp only [List.mem_singleton] at ha hb
    exact absurd (ha.trans hb.symm) hne
  | _ :: _ :: _, _, _ => simp

theorem addUnlocked_none (layout : Layout) (p : Nat) (type : StmtType)
    (wss : List (List Nat)) (acc : List MsgHdr) (htype : type ≠ StmtType.LOCKED)
    (ws : List Nat) (hws : ws ∈ wss) (hlen : 1 < (nmlsOf layout p ws []).length) :
    addUnlocked layout p type wss acc = none := by
  induction wss generalizing acc with
  | nil => simp at hws
  | cons w rest ih =>
    have hpos : ∀ u : List Nat, 1 < (nmlsOf layout p u []).length → u.length > 0 := by
      intro u hu
      cases u with
      | nil => simp [nmlsOf] at hu
      | cons _ _ => simp
    unfold addUnlocked
    rcases List.mem_cons.mp hws with h | h
    · subst h
      simp only [hpos ws hlen, ↓reduceIte, ne_eq, htype, not_false_eq_true, hlen]
    · by_cases h0 : w.length > 0
      · by_cases h1 : (nmlsOf layout p w []).length > 1
        · simp only [h0, ↓reduceIte, ne_eq, htype, not_false_eq_true, h1]
        · simp only [h0, ↓reduceIte, ne_eq, htype, not_false_eq_true, h1]
          exact ih _ h
      · simp only [h0, ↓reduceIte]
        exact ih _ h

theorem unlockedLoop_none (layout : Layout) (ts : List (Nat × PTransition))
    (acc : List MsgHdr) (p : Nat) (t : PTransition) (hmem : (p, t) ∈ ts)
    (h : ∀ acc1, addUnlocked layout p t.instruction.get_type t.write_sets acc1 = none) :
    unlockedLoop layout ts acc = none := by
  induction ts generalizing acc with
  | nil => simp at hmem
  | cons pt rest ih =>
    obtain ⟨q, u⟩ := pt
    unfold unlockedLoop
    rcases List.mem_cons.mp hmem with he | he
    · have hq : p = q := congrArg Prod.fst he
      have hu : t = u := congrArg Prod.snd he
      subst hq; subst hu
      rw [h acc]
    · cases hres : addUnlocked layout q u.instruction.get_type u.write_sets acc with
      | none => rfl
      | some acc1 => exact ih acc1 he

theorem mem_allTransitions (automata : List (List (List PTransition))) (k p : Nat)
    (states : List (List PTransition)) (st : List PTransition) (t : PTransition)
    (hp : automata[p]? = some states) (hst : st ∈ states) (ht : t ∈ st) :
    (k + p, t) ∈ allTransitions automata k := by
  induction automata generalizing k p with
  | nil => simp at hp
  | cons a rest ih =>
    unfold allTransitions
    cases p with
    | zero =>
      simp only [List.getElem?_cons_zero, Option.some.injEq] at hp
      subst hp
      apply List.mem_append_left
      simp only [add_zero, List.mem_map, Prod.mk.injEq, true_and, exists_eq_right,
        List.mem_flatten]
      exact ⟨st, hst, ht⟩
    | succ p =>
      simp only [List.getElem?_cons_succ] at hp
      apply List.mem_append_right
      have := ih (k + 1) p hp
      rw [show k + (p + 1) = k + 1 + p by omega]
      exact this

theorem construct_none (layout : Layout) (m : Machine) (p : Nat)
    (states : List (List PTransition)) (st : List PTransition) (t : PTransition)
    (hp : m.automata[p]? = some states) (hst : st ∈ states) (ht : t ∈ st)
    (htype : t.instruction.get_type ≠ StmtType.LOCKED)
    (ws : List Nat) (hws : ws ∈ t.write_sets)
    (hlen : 1 < (nmlsOf layout p ws []).length) :
    Common.construct layout m = none := by
  have hmem := mem_allTransitions m.automata 0 p states st t hp hst ht
  rw [zero_add] at hmem
  have := unlockedLoop_none layout (allTransitions m.automata 0) [] p t hmem
    (fun acc1 => addUnlocked_none layout p _ t.write_sets acc1 htype ws hws hlen)
  unfold Common.construct
  simp only [this]

/-- C13, counterexample: the machine whose only transition is a block of type
LOCKED with the write set of the two locations 0 and 1; constructing `Common`
for it does not throw. -/
theorem construct_locked_pair_succeeds :
    (∃ states st t, lockedPair.automata[0]? = some states ∧ st ∈ states ∧ t ∈ st ∧
      t.instruction.get_type = StmtType.LOCKED ∧ ∃ ws ∈ t.write_sets, 1 < ws.length) ∧
    (Common.construct idLayout lockedPair).isSome = true := by
  refine ⟨⟨_, _, _, rfl, List.mem_singleton.mpr rfl, List.mem_singleton.mpr rfl, rfl,
    [0, 1], List.mem_singleton.mpr rfl, by decide⟩, ?_⟩
  decide

/-- C13, amended: constructing `Common` throws the logic error whenever some
transition of the machine whose instruction type is not LOCKED (a block of type
SLOCKED among them) has a write set with two locations that normalize to
different locations; the blocks of type LOCKED are skipped by the guard of
line 111. -/
theorem construct_throws_unlocked_multi (layout : Layout) (m : Machine) (p : Nat)
    (states : List (List PTransition)) (st : List PTransition) (t : PTransition)
    (hp : m.automata[p]? = some states) (hst : st ∈ states) (ht : t ∈ st)
    (htype : t.instruction.get_type ≠ StmtType.LOCKED)
    (ws : List Nat) (hws : ws ∈ t.write_sets) (x y : Nat) (hx : x ∈ ws) (hy : y ∈ ws)
    (hne : layout.nml x p ≠ layout.nml y p) :
    Common.construct layout m = none := by
  apply construct_none layout m p states st t hp hst ht htype ws hws
  apply one_lt_length_of_two_mem _ (layout.nml x p) (layout.nml y p) _ _ hne
  · exact (mem_nmlsOf layout p _ ws []).mpr (Or.inr ⟨x, hx, rfl⟩)
  · exact (mem_nmlsOf layout p _ ws []).mpr (Or.inr ⟨y, hy, rfl⟩)

/-- Witness of the amended C13: the same block with type SLOCKED. -/
theorem construct_throws_unlocked_multi_witness :
    slockedPair.automata[0]? = some [[slockedPairTransition]] ∧
    slockedPairTransition.instruction.get_type ≠ StmtType.LOCKED ∧
    [0, 1] ∈ slockedPairTransition.write_sets ∧
    idLayout.nml 0 0 ≠ idLayout.nml 1 0 ∧
    Common.construct idLayout slockedPair = none :=
  ⟨rfl, by decide, by decide, by decide,
    construct_throws_unlocked_multi idLayout slockedPair 0 [[slockedPairTransition]]
      [slockedPairTransition] slockedPairTransition rfl (List.mem_singleton.mpr rfl)
      (List.mem_singleton.mpr rfl) (by decide) [0, 1] (by decide) 0 1 (by decide) (by decide)
      (by decide)⟩

/-! ## The command line of `main.cpp` -/

theorem find_erase (m : FlagMap) (k key : String) :
    FlagMap.find (FlagMap.erase m k) key = if k = key then none else FlagMap.find m key := by
  induction m with
  | nil => simp [FlagMap.erase, FlagMap.find]
  | cons e rest ih =>
    obtain ⟨k1, f⟩ := e
    unfold FlagMap.erase
    by_cases h1 : k1 = k
    · subst h1
      simp only [↓reduceIte, ih]
      by_cases h2 : k1 = key
      · simp [h2]
      · simp [h2, FlagMap.find]
    · simp only [h1, ↓reduceIte, FlagMap.find, ih]
      by_cases h2 : k1 = key
      · subst h2
        simp [Ne.symm h1]
      · simp [h2]

theorem find_assign (m : FlagMap) (k key : String) (f : Flag) :
    FlagMap.find (FlagMap.assign m k f) key =
      if k = key then some f else FlagMap.find m key := by
  unfold FlagMap.assign
  simp only [FlagMap.find, find_erase]
  by_cases h : k = key <;> simp [h]

theorem count_le_one (m : FlagMap) (key : String) : FlagMap.count m key ≤ 1 := by
  unfold FlagMap.count
  split_ifs <;> simp

theorem count_assign_self (m : FlagMap) (k : String) (f : Flag) :
    FlagMap.count (FlagMap.assign m k f) k = 1 := by
  simp [FlagMap.count, find_assign]

theorem count_assign_ne (m : FlagMap) (k key : String) (f : Flag) (h : k ≠ key) :
    FlagMap.count (FlagMap.assign m k f) key = FlagMap.count m key := by
  simp [FlagMap.count, find_assign, h]

theorem count_assign_ge (m : FlagMap) (k key : String) (f : Flag) :
    FlagMap.count m key ≤ FlagMap.count (FlagMap.assign m k f) key := by
  by_cases h : k = key
  · subst h
    rw [count_assign_self]
    exact count_le_one _ _
  · rw [count_assign_ne _ _ _ _ h]

theorem ite_ind {α : Type} (P : α → Prop) (c : Prop) [Decidable c] (x y : α)
    (h1 : c → P x) (h2 : ¬ c → P y) : P (if c then x else y) := by
  by_cases h : c
  · rw [if_pos h]; exact h1 h
  · rw [if_neg h]; exact h2 h

theorem classify_valued (a name : String) (h : classify a = ArgKind.valued name) :
    name ∈ ["o", "a", "k", "fmin", "max-refinements"] := by
  revert h
  unfold classify
  repeat' (apply ite_ind (fun k => k = ArgKind.valued name →
    name ∈ ["o", "a", "k", "fmin", "max-refinements"]) <;> intro _)
  all_goals intro h
  all_goals first
    | exact ArgKind.noConfusion h
    | (injection h with h; rw [← h]; decide)

theorem classify_valued_a (a : String) (h : classify a = ArgKind.valued "a") :
    a = "-a" ∨ a = "--abstraction" := by
  revert h
  unfold classify
  repeat' (apply ite_ind (fun k => k = ArgKind.valued "a" →
    (a = "-a" ∨ a = "--abstraction")) <;> intro _)
  all_goals intro h
  all_goals first
    | assumption
    | exact ArgKind.noConfusion h
    | (injection h with h; exact absurd h (by decide))

theorem classify_plain_version (a : String) (h : classify a = ArgKind.plain "version") :
    a = "--version" ∨ a = "-V" := by
  revert h
  unfold classify
  repeat' (apply ite_ind (fun k => k = ArgKind.plain "version" →
    (a = "--version" ∨ a = "-V")) <;> intro _)
  all_goals intro h
  all_goals first
    | assumption
    | exact ArgKind.noConfusion h
    | (injection h with h; exact absurd h (by decide))

theorem parseLoop_error (fileGood : String → Bool) :
    ∀ (n : Nat) (args : List String) (st : ParseState) (code : Int), args.length ≤ n →
      parseLoop fileGood args st = Except.error code → code = 1 := by
  intro n
  induction n with
  | zero =>
    intro args st code hn h
    have : args = [] := List.eq_nil_of_length_eq_zero (Nat.le_zero.mp hn)
    subst this
    simp [parseLoop] at h
  | succ n ih =>
    intro args st code hn h
    cases args with
    | nil => simp [parseLoop] at h
    | cons a rest =>
      have hrest : rest.length ≤ n := by simpa using hn
      rw [parseLoop] at h
      cases hc : classify a with
      | command c =>
        simp only [hc] at h
        split_ifs at h
        · exact ih _ _ _ hrest h
        · exact (Except.error.inj h).symm
      | plain name =>
        simp only [hc] at h
        exact ih _ _ _ hrest h
      | valued name =>
        simp only [hc] at h
        split_ifs at h
        · exact (Except.error.inj h).symm
        · cases rest with
          | nil => exact (Except.error.inj h).symm
          | cons v rest1 =>
            simp only at h
            split_ifs at h
            · exact (Except.error.inj h).symm
            · exact ih _ _ _ (by simp at hrest; omega) h
      | json =>
        simp only [hc] at h
        exact ih _ _ _ hrest h
      | other =>
        simp only [hc] at h
        split_ifs at h
        · exact ih _ _ _ hrest h
        · exact (Except.error.inj h).symm
        · exact (Except.error.inj h).symm

theorem classify_command_ne (a : String) (c : Command) (h : classify a = ArgKind.command c) :
    c ≠ Command.UNDEF := by
  revert h
  unfold classify
  repeat' (apply ite_ind (fun k => k = ArgKind.command c → c ≠ Command.UNDEF) <;> intro _)
  all_goals intro h
  all_goals first
    | exact ArgKind.noConfusion h
    | (injection h with h; rw [← h]; decide)

theorem parseLoop_ok (fileGood : String → Bool) :
    ∀ (n : Nat) (args : List String) (st st1 : ParseState), args.length ≤ n →
      parseLoop fileGood args st = Except.ok st1 → ParseOk args st st1 := by
  intro n
  induction n with
  | zero =>
    intro args st st1 hn h
    have : args = [] := List.eq_nil_of_length_eq_zero (Nat.le_zero.mp hn)
    subst this
    simp only [parseLoop, Except.ok.injEq] at h
    subst h
    refine ⟨?_, ?_, ?_, ?_, ?_, ?_, ?_⟩ <;> simp [items]
    · split_ifs <;> simp
    · intro name; exact count_le_one _ _
  | succ n ih =>
    intro args st st1 hn h
    cases args with
    | nil =>
      simp only [parseLoop, Except.ok.injEq] at h
      subst h
      refine ⟨?_, ?_, ?_, ?_, ?_, ?_, ?_⟩ <;> simp [items]
      · split_ifs <;> simp
      · intro name; exact count_le_one _ _
    | cons a rest =>
      have hrest : rest.length ≤ n := by simpa using hn
      rw [parseLoop] at h
      unfold ParseOk
      rw [items]
      cases hc : classify a with
      | command c =>
        simp only [hc] at h ⊢
        by_cases hu : st.cmd = Command.UNDEF
        · rw [if_pos hu] at h
          obtain ⟨i1, _, i3, i4, i5, i6, i7⟩ := ih _ _ _ hrest h
          have hcne := classify_command_ne a c hc
          simp only [hcne, ↓reduceIte] at i1
          refine ⟨?_, ?_, ?_, ?_, ?_, ?_, ?_⟩
          · simp only [List.filter_cons, Item.isCommand, ↓reduceIte, List.length_cons, hu]
            omega
          · intro hall
            have := hall (Item.command c) (List.mem_cons_self _ _)
            simp [Item.isCommand] at this
          · intro hv hcount
            exact i3 (fun hm => hv (List.mem_cons_of_mem _ hm)) hcount
          · intro name
            have := i4 name
            simpa [List.filter_cons, Item.isValued] using this
          · intro name hm
            rcases List.mem_cons.mp hm with he | he
            · exact Item.noConfusion he
            · exact i5 name he
          · intro v hm
            rcases List.mem_cons.mp hm with he | he
            · exact Item.noConfusion he
            · exact i6 v he
          · intro hm
            rcases List.mem_cons.mp hm with he | he
            · exact Item.noConfusion he
            · exact i7 he
        · rw [if_neg hu] at h
          exact Except.noConfusion h
      | plain name =>
        simp only [hc] at h ⊢
        obtain ⟨i1, i2, i3, i4, i5, i6, i7⟩ := ih _ _ _ hrest h
        refine ⟨?_, ?_, ?_, ?_, ?_, ?_, ?_⟩
        · simpa [List.filter_cons, Item.isCommand] using i1
        · intro hall hu
          exact i2 (fun it hit => hall it (List.mem_cons_of_mem _ hit)) hu
        · intro hv hcount
          have hne : name ≠ "version" := by
            intro he
            apply hv
            rw [he]
            exact List.mem_cons_self _ _
          apply i3 (fun hm => hv (List.mem_cons_of_mem _ hm))
          simp only
          rw [count_assign_ne _ _ _ _ hne]
          exact hcount
        · intro name1
          have h1 := i4 name1
          have h2 := count_assign_ge st.flags name name1 (Flag.plain name a true)
          simp only [List.filter_cons, Item.isValued] at h1 ⊢
          simp only [Bool.false_eq_true, ↓reduceIte]
          omega
        · intro name1 hm
          rcases List.mem_cons.mp hm with he | he
          · exact Item.noConfusion he
          · exact i5 name1 he
        · intro v hm
          rcases List.mem_cons.mp hm with he | he
          · exact Item.noConfusion he
          · exact i6 v he
        · intro hm
          rcases List.mem_cons.mp hm with he | he
          · exact Item.noConfusion he
          · exact i7 he
      | valued name =>
        simp only [hc] at h ⊢
        by_cases hcnt : FlagMap.count st.flags name ≠ 0
        · rw [if_pos hcnt] at h
          exact Except.noConfusion h
        · rw [if_neg hcnt] at h
          have hcnt0 : FlagMap.count st.flags name = 0 := by
            simpa using hcnt
          cases rest with
          | nil => exact Except.noConfusion h
          | cons v rest1 =>
            simp only at h ⊢
            by_cases hbad : name = "a" ∧ ¬ (v = "sb" ∨ v = "pb" ∨ v = "vips")
            · rw [if_pos hbad] at h
              exact Except.noConfusion h
            · rw [if_neg hbad] at h
              have hrest1 : rest1.length ≤ n := by
                simp only [List.length_cons] at hrest
                omega
              obtain ⟨i1, i2, i3, i4, i5, i6, i7⟩ := ih _ _ _ hrest1 h
              refine ⟨?_, ?_, ?_, ?_, ?_, ?_, ?_⟩
              · simpa [List.filter_cons, Item.isCommand] using i1
              · intro hall hu
                exact i2 (fun it hit => hall it (List.mem_cons_of_mem _ hit)) hu
              · intro hv hcount
                have hne : name ≠ "version" := by
                  intro he
                  have := classify_valued a name hc
                  rw [he] at this
                  exact absurd this (by decide)
                apply i3 (fun hm => hv (List.mem_cons_of_mem _ hm))
                simp only
                rw [count_assign_ne _ _ _ _ hne]
                exact hcount
              · intro name1
                have h1 := i4 name1
                simp only at h1
                by_cases hn1 : name = name1
                · subst hn1
                  rw [count_assign_self] at h1
                  simp only [List.filter_cons, Item.isValued, decide_True, ↓reduceIte,
                    List.length_cons]
                  omega
                · rw [count_assign_ne _ _ _ _ hn1] at h1
                  simp only [List.filter_cons, Item.isValued, hn1, decide_False,
                    Bool.false_eq_true, ↓reduceIte]
                  exact h1
              · intro name1 hm
                rcases List.mem_cons.mp hm with he | he
                · injection he with _ he2
                  exact Option.noConfusion he2
                · exact i5 name1 he
              · intro v1 hm
                rcases List.mem_cons.mp hm with he | he
                · injection he with he1 he2
                  injection he2 with he2
                  subst he2
                  by_contra hcon
                  exact hbad ⟨he1.symm, hcon⟩
                · exact i6 v1 he
              · intro hm
                rcases List.mem_cons.mp hm with he | he
                · exact Item.noConfusion he
                · exact i7 he
      | json =>
        simp only [hc] at h ⊢
        obtain ⟨i1, i2, i3, i4, i5, i6, i7⟩ := ih _ _ _ hrest h
        refine ⟨?_, ?_, ?_, ?_, ?_, ?_, ?_⟩
        · simpa [List.filter_cons, Item.isCommand] using i1
        · intro hall hu
          exact i2 (fun it hit => hall it (List.mem_cons_of_mem _ hit)) hu
        · intro hv hcount
          exact i3 (fun hm => hv (List.mem_cons_of_mem _ hm)) hcount
        · intro name1
          have h1 := i4 name1
          simpa [List.filter_cons, Item.isValued] using h1
        · intro name1 hm
          rcases List.mem_cons.mp hm with he | he
          · exact Item.noConfusion he
          · exact i5 name1 he
        · intro v hm
          rcases List.mem_cons.mp hm with he | he
          · exact Item.noConfusion he
          · exact i6 v he
        · intro hm
          rcases List.mem_cons.mp hm with he | he
          · exact Item.noConfusion he
          · exact i7 he
      | other =>
        simp only [hc] at h ⊢
        by_cases hfin : rest = [] ∧ needs_input_stream st.cmd = true
        · rw [if_pos hfin] at h
          by_cases hgood : fileGood a = true
          · rw [if_pos hgood] at h
            obtain ⟨hnil, _⟩ := hfin
            subst hnil
            simp only [parseLoop, Except.ok.injEq] at h
            subst h
            refine ⟨?_, ?_, ?_, ?_, ?_, ?_, ?_⟩
            · simp only [items, List.filter_cons, Item.isCommand, Bool.false_eq_true,
                ↓reduceIte, List.filter_nil, List.length_nil, zero_add]
              split_ifs <;> simp
            · intro _ hu
              exact hu
            · intro _ hcount
              exact hcount
            · intro name1
              simp only [items, List.filter_cons, Item.isValued, Bool.false_eq_true,
                ↓reduceIte, List.filter_nil, List.length_nil, zero_add]
              exact count_le_one _ _
            · intro name1 hm
              simp [items] at hm
            · intro v hm
              simp [items] at hm
            · intro hm
              simp [items] at hm
          · rw [if_neg hgood] at h
            exact Except.noConfusion h
        · rw [if_neg hfin] at h
          exact Except.noConfusion h

/-- C17: `main` returns 1 without dispatching a command for every argument
vector with invalid flags, the flags read by position (the argument after a
flag with a value is its value): more than one command; no command and no
`--version`; one of `-o`, `-a`, `-k`, `--fmin`, `--max-refinements` twice; one of
them last, without its value; `-a` with a value other than `sb`, `pb`, `vips`;
an unrecognised argument that is not the last one. -/
theorem main_invalid_flags (fileGood : String → Bool) (argv : List String)
    (h : InvalidFlags argv.tail) : main fileGood argv = MainResult.returned 1 := by
  unfold main
  cases hp : parseLoop fileGood argv.tail
      { cmd := Command.UNDEF, flags := [], input := none, json := false } with
  | error code =>
    have := parseLoop_error fileGood _ _ _ _ (le_refl _) hp
    subst this
    rfl
  | ok st =>
    obtain ⟨i1, i2, i3, i4, i5, i6, i7⟩ := parseLoop_ok fileGood _ _ _ _ (le_refl _) hp
    rcases h with h | h | h | h | h | h
    · simp only [↓reduceIte, add_zero] at i1
      omega
    · have hcmd := i2 h.1 rfl
      have hver := i3 h.2 rfl
      simp only [hver, ne_eq, not_true_eq_false, ↓reduceIte, hcmd]
    · obtain ⟨name, _, hname⟩ := h
      have := i4 name
      omega
    · obtain ⟨name, _, hname⟩ := h
      exact absurd hname (i5 name)
    · obtain ⟨v, hv, hbad⟩ := h
      exact absurd (i6 v hv) hbad
    · exact absurd h i7

/-- Witness of C17: `memorax reach fencins file` names two commands. -/
theorem main_invalid_flags_witness :
    InvalidFlags ["reach", "fencins", "file"] ∧
    main (fun _ => true) ["memorax", "reach", "fencins", "file"] = MainResult.returned 1 :=
  ⟨Or.inl (by decide),
    main_invalid_flags (fun _ => true) ["memorax", "reach", "fencins", "file"]
      (Or.inl (by decide))⟩

theorem classify_plain_ne_a (a name : String) (h : classify a = ArgKind.plain name) :
    name ≠ "a" := by
  revert h
  unfold classify
  repeat' (apply ite_ind (fun k => k = ArgKind.plain name → name ≠ "a") <;> intro _)
  all_goals intro h
  all_goals first
    | exact ArgKind.noConfusion h
    | (injection h with h; rw [← h]; decide)

theorem parseLoop_no_abstraction (fileGood : String → Bool) :
    ∀ (n : Nat) (args : List String) (st st1 : ParseState), args.length ≤ n →
      parseLoop fileGood args st = Except.ok st1 → "-a" ∉ args → "--abstraction" ∉ args →
      FlagMap.find st1.flags "a" = FlagMap.find st.flags "a" := by
  intro n
  induction n with
  | zero =>
    intro args st st1 hn h _ _
    have : args = [] := List.eq_nil_of_length_eq_zero (Nat.le_zero.mp hn)
    subst this
    simp only [parseLoop, Except.ok.injEq] at h
    rw [h]
  | succ n ih =>
    intro args st st1 hn h h1 h2
    cases args with
    | nil =>
      simp only [parseLoop, Except.ok.injEq] at h
      rw [h]
    | cons a rest =>
      have hrest : rest.length ≤ n := by simpa using hn
      have h1r : "-a" ∉ rest := fun hm => h1 (List.mem_cons_of_mem _ hm)
      have h2r : "--abstraction" ∉ rest := fun hm => h2 (List.mem_cons_of_mem _ hm)
      rw [parseLoop] at h
      cases hc : classify a with
      | command c =>
        simp only [hc] at h
        split_ifs at h
        exact ih _ { st with cmd := c } _ hrest h h1r h2r
      | plain name =>
        simp only [hc] at h
        rw [ih _ _ _ hrest h h1r h2r]
        simp only [find_assign, classify_plain_ne_a a name hc, ↓reduceIte]
      | valued name =>
        simp only [hc] at h
        have hne : name ≠ "a" := by
          intro he
          rw [he] at hc
          rcases classify_valued_a a hc with ha | ha
          · exact h1 (by rw [ha]; exact List.mem_cons_self _ _)
          · exact h2 (by rw [ha]; exact List.mem_cons_self _ _)
        split_ifs at h
        cases rest with
        | nil => exact Except.noConfusion h
        | cons v rest1 =>
          simp only at h
          split_ifs at h
          have hrest1 : rest1.length ≤ n := by
            simp only [List.length_cons] at hrest
            omega
          rw [ih _ _ _ hrest1 h (fun hm => h1r (List.mem_cons_of_mem _ hm))
            (fun hm => h2r (List.mem_cons_of_mem _ hm))]
          simp only [find_assign, hne, ↓reduceIte]
      | json =>
        simp only [hc] at h
        exact ih _ { st with json := true } _ hrest h h1r h2r
      | other =>
        simp only [hc] at h
        split_ifs at h
        exact ih _ { st with input := some a } _ hrest h h1r h2r

/-- C16, counterexample: `memorax reach --version` names a command and contains
neither `-a` nor `--abstraction`; `main` prints the version and returns 0, no
command is dispatched. -/
theorem main_version_not_dispatched :
    "reach" ∈ ["memorax", "reach", "--version"] ∧
    "-a" ∉ ["memorax", "reach", "--version"] ∧
    "--abstraction" ∉ ["memorax", "reach", "--version"] ∧
    main (fun _ => true) ["memorax", "reach", "--version"] = MainResult.returned 0 := by
  decide

/-- C16, amended: for every argument vector that contains neither `-a` nor
`--abstraction` and for which `main` dispatches a command (a command is named,
the flags are valid and there is no `--version`), the command is dispatched
with `flags["a"]` the flag with argument `sb` that is marked as not given by the
user. -/
theorem main_default_abstraction (fileGood : String → Bool) (argv : List String)
    (cmd : Command) (flags : FlagMap) (input : Option String)
    (h : main fileGood argv = MainResult.dispatch cmd flags input)
    (h1 : "-a" ∉ argv) (h2 : "--abstraction" ∉ argv) :
    cmd ≠ Command.UNDEF ∧
    FlagMap.find flags "a" = some (Flag.withArgument "a" "-a" false "sb") ∧
    FlagMap.argument flags "a" = "sb" := by
  unfold main at h
  cases hp : parseLoop fileGood argv.tail
      { cmd := Command.UNDEF, flags := [], input := none, json := false } with
  | error code =>
    rw [hp] at h
    exact MainResult.noConfusion h
  | ok st =>
    rw [hp] at h
    simp only at h
    have hfind := parseLoop_no_abstraction fileGood _ _ _ _ (le_refl _) hp
      (fun hm => h1 (List.mem_of_mem_tail hm)) (fun hm => h2 (List.mem_of_mem_tail hm))
    have hcount : FlagMap.count st.flags "a" = 0 := by
      simp [FlagMap.count, hfind, FlagMap.find]
    split_ifs at h with hv hu
    injection h with hcmd hflags _
    have hf : FlagMap.find flags "a" = some (Flag.withArgument "a" "-a" false "sb") := by
      rw [← hflags]
      simp only [find_erase, find_assign]
      simp
    refine ⟨?_, hf, ?_⟩
    · rw [← hcmd]
      exact hu
    · simp only [FlagMap.argument, hf]
      rfl

/-- Witness of the amended C16: `memorax reach file.rmm`. -/
theorem main_default_abstraction_witness :
    main (fun _ => true) ["memorax", "reach", "file.rmm"] =
      MainResult.dispatch Command.REACHABILITY
        [("a", Flag.withArgument "a" "-a" false "sb")] (some "file.rmm") ∧
    "-a" ∉ ["memorax", "reach", "file.rmm"] ∧
    "--abstraction" ∉ ["memorax", "reach", "file.rmm"] ∧
    (Command.REACHABILITY ≠ Command.UNDEF ∧
      FlagMap.find [("a", Flag.withArgument "a" "-a" false "sb")] "a" =
        some (Flag.withArgument "a" "-a" false "sb") ∧
      FlagMap.argument [("a", Flag.withArgument "a" "-a" false "sb")] "a" = "sb") :=
  ⟨by decide, by decide, by decide,
    main_default_abstraction (fun _ => true) ["memorax", "reach", "file.rmm"]
      Command.REACHABILITY [("a", Flag.withArgument "a" "-a" false "sb")] (some "file.rmm")
      (by decide) (by decide) (by decide)⟩

/-! ## `fencins` and `reachability` -/

theorem pbCegarArgInit_length (k n : Int) (preds : List Nat) (prev : Option (List Nat)) :
    preds.length ≤ (pbCegarArgInit k n preds prev).1.length := by
  unfold pbCegarArgInit
  cases prev with
  | none => exact le_refl _
  | some preds2 =>
    simp only
    split_ifs with h
    · exact le_of_lt h
    · exact le_refl _

/-- C14, counterexample: with `preds = [0]` and a previous result whose
predicate set is `[1, 2]`, the call replaces `preds` by `[1, 2]`: predicate 0
was in the set before the call and is not in it after the call. -/
theorem pbCegarArgInit_drops_predicate :
    0 ∈ [0] ∧ 0 ∉ (pbCegarArgInit 1 (-1) [0] (some [1, 2])).1 ∧
    (pbCegarArgInit 1 (-1) [0] (some [1, 2])).1 = [1, 2] := by
  decide

/-- C14, amended: a call of the initialiser never decreases the number of
predicates, also over any sequence of calls; it keeps `preds` when there is no
previous result or the set of the previous result is not larger, and else
replaces `preds` by that set, so every predicate is kept when that set
contains `preds`; the argument it returns carries the new set. -/
theorem pbCegarArgInit_grows (k n : Int) (preds : List Nat) (prev : Option (List Nat)) :
    preds.length ≤ (pbCegarArgInit k n preds prev).1.length ∧
    (prev = none → (pbCegarArgInit k n preds prev).1 = preds) ∧
    (∀ preds2, prev = some preds2 → preds2.length ≤ preds.length →
      (pbCegarArgInit k n preds prev).1 = preds) ∧
    (∀ preds2, prev = some preds2 → preds.length < preds2.length →
      (pbCegarArgInit k n preds prev).1 = preds2) ∧
    (∀ preds2, prev = some preds2 → (∀ x ∈ preds, x ∈ preds2) →
      ∀ x ∈ preds, x ∈ (pbCegarArgInit k n preds prev).1) ∧
    (pbCegarArgInit k n preds prev).2 =
      ReachArg.pbCegar k (pbCegarArgInit k n preds prev).1 n ∧
    (∀ prevs : List (Option (List Nat)),
      List.Chain (fun a b : List Nat => a.length ≤ b.length) preds
        (pbCegarArgInitCalls k n preds prevs)) := by
  refine ⟨pbCegarArgInit_length k n preds prev, ?_, ?_, ?_, ?_, rfl, ?_⟩
  · intro h
    subst h
    rfl
  · intro preds2 h hle
    subst h
    simp only [pbCegarArgInit]
    rw [if_neg (by omega)]
  · intro preds2 h hlt
    subst h
    simp only [pbCegarArgInit]
    rw [if_pos hlt]
  · intro preds2 h hsub x hx
    subst h
    simp only [pbCegarArgInit]
    split_ifs
    · exact hsub x hx
    · exact hx
  · intro prevs
    induction prevs generalizing preds with
    | nil => exact List.Chain.nil
    | cons p rest ih =>
      unfold pbCegarArgInitCalls
      exact List.Chain.cons (pbCegarArgInit_length k n preds p) (ih _)

/-- Witness of the amended C14: the set `[0, 1]` and a previous result `[0, 1, 2]`
that contains it. -/
theorem pbCegarArgInit_grows_witness :
    (pbCegarArgInit 1 (-1) [0, 1] (some [0, 1, 2])).1 = [0, 1, 2] ∧
    ∀ x ∈ [0, 1], x ∈ (pbCegarArgInit 1 (-1) [0, 1] (some [0, 1, 2])).1 :=
  ⟨(pbCegarArgInit_grows 1 (-1) [0, 1] (some [0, 1, 2])).2.2.2.1 [0, 1, 2] rfl (by decide),
    (pbCegarArgInit_grows 1 (-1) [0, 1] (some [0, 1, 2])).2.2.2.2.1 [0, 1, 2] rfl
      (by decide)⟩

theorem tsoFencins_supported (flags : FlagMap) (init : ArgInit)
    (h : fminOf flags ∈ ["cheap", "subset", "cost"]) :
    ∃ call, tsoFencins flags init = CmdResult.returned 0 (some call) ∧ call.init = init := by
  unfold tsoFencins
  simp only
  by_cases h1 : fminOf flags = "cheap"
  · rw [if_pos h1]
    exact ⟨_, rfl, rfl⟩
  · rw [if_neg h1]
    have h2 : fminOf flags = "subset" ∨ fminOf flags = "cost" := by
      simp only [List.mem_cons, List.mem_singleton, List.not_mem_nil, or_false] at h
      rcases h with h | h | h
      · exact absurd h h1
      · exact Or.inl h
      · exact Or.inr h
    rw [if_pos h2]
    exact ⟨_, rfl, rfl⟩

theorem tsoFencins_unsupported (flags : FlagMap) (init : ArgInit)
    (h : fminOf flags ∉ ["cheap", "subset", "cost"]) :
    tsoFencins flags init = CmdResult.returned 1 none := by
  unfold tsoFencins
  simp only [List.mem_cons, List.mem_singleton, List.not_mem_nil, or_false, not_or] at h
  simp only [h.1, h.2.1, h.2.2, or_self, ↓reduceIte]

theorem tsoFencins_init (flags : FlagMap) (init : ArgInit) (call : FencinsCall)
    (h : (tsoFencins flags init).analysis = some call) : call.init = init := by
  unfold tsoFencins at h
  simp only at h
  split_ifs at h <;> simp only [CmdResult.analysis, Option.some.injEq, reduceCtorEq] at h <;>
    (rw [← h]; rfl)

/-- C15, counterexample: `memorax reach -a pb --cegar --max-refinements 5
file.rmm`; the flag is given the integer 5 and the cap handed to the CEGAR
loop is -1. -/
theorem reachability_cap_not_flag :
    FlagMap.argument reachCegarFlags "a" = "pb" ∧
    FlagMap.count reachCegarFlags "cegar" = 1 ∧
    parseDecimal (FlagMap.argument reachCegarFlags "max-refinements") = some 5 ∧
    reachability parseDecimal (some plainMachine) reachCegarFlags =
      CmdResult.returned 0 (some (ReachArg.pbCegar 1 [] (-1))) ∧
    (ReachArg.pbCegar 1 [] (-1)).max_refinements ≠ some 5 := by
  decide

/-- C15, amended: for the fencins command with `-a pb --cegar` and
`--max-refinements N`, every argument that the initialiser hands to the CEGAR
loop has the cap `N` (and the command reaches the analysis when `-k` is valid,
the predicates of the machine are nullary and the criterion is supported); the
reach command with `-a pb --cegar` hands over the cap -1, whatever the flag. -/
theorem fencins_cap_is_flag (parseInt : String → Option Int) (m : MachineInfo)
    (flags : FlagMap) (N : Int)
    (ha : FlagMap.argument flags "a" = "pb") (hc : FlagMap.count flags "cegar" ≠ 0)
    (hm : FlagMap.count flags "max-refinements" ≠ 0)
    (hN : parseInt (FlagMap.argument flags "max-refinements") = some N) :
    (∀ k preds, kFlag parseInt flags = some k → convertAll m.predicates = some preds →
      fminOf flags ∈ ["cheap", "subset", "cost"] →
      ∃ call, fencins parseInt (some m) flags = CmdResult.returned 0 (some call) ∧
        call.init = ArgInit.pbCegar k preds N) ∧
    (∀ call, (fencins parseInt (some m) flags).analysis = some call →
      ∀ prev, (call.init.call prev).2.max_refinements = some N ∧
        ∀ prev1, ((call.init.call prev).1.call prev1).2.max_refinements = some N) ∧
    reachability parseInt (some m) flags =
      CmdResult.returned 0 (some (ReachArg.pbCegar 1 [] (-1))) := by
  have hint : intFlag parseInt flags "max-refinements" (-1) = some N := by
    unfold intFlag
    rw [if_pos hm, hN]
  refine ⟨?_, ?_, ?_⟩
  · intro k preds hk hp hf
    unfold fencins
    simp only [hint, ha, ↓reduceIte, hk, hc, ne_eq, not_false_eq_true, hp]
    exact tsoFencins_supported flags _ hf
  · intro call hcall prev
    unfold fencins at hcall
    simp only [hint, ha, ↓reduceIte] at hcall
    cases hk : kFlag parseInt flags with
    | none =>
      rw [hk] at hcall
      simp [CmdResult.analysis] at hcall
    | some k =>
      rw [hk] at hcall
      simp only [hc, ne_eq, not_false_eq_true, ↓reduceIte] at hcall
      cases hp : convertAll m.predicates with
      | none =>
        rw [hp] at hcall
        simp [CmdResult.analysis] at hcall
      | some preds =>
        rw [hp] at hcall
        simp only at hcall
        rw [tsoFencins_init flags _ call hcall]
        exact ⟨rfl, fun _ => rfl⟩
  · unfold reachability
    have hc1 : FlagMap.count flags "cegar" > 0 := Nat.pos_of_ne_zero hc
    simp only [ha, ↓reduceIte, hc1]

/-- Witness of the amended C15: `memorax fencins -a pb --cegar
--max-refinements 5 file.rmm`. -/
theorem fencins_cap_is_flag_witness :
    FlagMap.argument fencinsCegarFlags "a" = "pb" ∧
    FlagMap.count fencinsCegarFlags "cegar" ≠ 0 ∧
    FlagMap.count fencinsCegarFlags "max-refinements" ≠ 0 ∧
    parseDecimal (FlagMap.argument fencinsCegarFlags "max-refinements") = some 5 ∧
    ∃ call, fencins parseDecimal (some plainMachine) fencinsCegarFlags =
        CmdResult.returned 0 (some call) ∧ call.init = ArgInit.pbCegar 1 [] 5 :=
  ⟨by decide, by decide, by decide, by decide,
    (fencins_cap_is_flag parseDecimal plainMachine fencinsCegarFlags 5 (by decide)
      (by decide) (by decide) (by decide)).1 1 [] (by decide) (by decide) (by decide)⟩

theorem fencins_tso_unsupported (parseInt : String → Option Int)
    (machine : Option MachineInfo) (flags : FlagMap)
    (ha : FlagMap.argument flags "a" = "pb" ∨ FlagMap.argument flags "a" = "sb")
    (h : fminOf flags ∉ ["cheap", "subset", "cost"]) :
    (fencins parseInt machine flags).exitCode = 1 ∧
      (fencins parseInt machine flags).analysis = none := by
  unfold fencins
  cases machine with
  | none => exact ⟨rfl, rfl⟩
  | some m =>
    simp only
    cases intFlag parseInt flags "max-refinements" (-1) with
    | none => exact ⟨rfl, rfl⟩
    | some n =>
      simp only
      rcases ha with ha | ha
      · simp only [ha, ↓reduceIte]
        cases kFlag parseInt flags with
        | none => exact ⟨rfl, rfl⟩
        | some k =>
          simp only
          split_ifs
          · cases convertAll m.predicates with
            | none => exact ⟨rfl, rfl⟩
            | some preds =>
              simp only [tsoFencins_unsupported flags _ h]
              exact ⟨rfl, rfl⟩
          · simp only [tsoFencins_unsupported flags _ h]
            exact ⟨rfl, rfl⟩
      · have hne : ¬ ("sb" = "pb") := by decide
        simp only [ha, hne, ↓reduceIte, tsoFencins_unsupported flags _ h]
        exact ⟨rfl, rfl⟩

theorem fencins_vips_unsupported (parseInt : String → Option Int)
    (machine : Option MachineInfo) (flags : FlagMap)
    (ha : FlagMap.argument flags "a" = "vips") (hf : FlagMap.count flags "fmin" ≠ 0)
    (h : FlagMap.argument flags "fmin" ∉ ["cost", "subset"]) :
    (fencins parseInt machine flags).exitCode = 1 ∧
      (fencins parseInt machine flags).analysis = none := by
  unfold fencins
  cases machine with
  | none => exact ⟨rfl, rfl⟩
  | some m =>
    simp only
    cases intFlag parseInt flags "max-refinements" (-1) with
    | none => exact ⟨rfl, rfl⟩
    | some n =>
      have h1 : ¬ ("vips" = "pb") := by decide
      have h2 : ¬ ("vips" = "sb") := by decide
      simp only [List.mem_cons, List.mem_singleton, List.not_mem_nil, or_false, not_or] at h
      have hv : vipsAspect flags = none := by
        unfold vipsAspect
        simp only [hf, ne_eq, not_false_eq_true, ↓reduceIte, h.1, h.2]
      simp only [ha, h1, h2, ↓reduceIte, hv]
      exact ⟨rfl, rfl⟩

/-- C18: the fencins command returns exit code 1 and starts no computation of
synchronization sets with `-a vips` and `--fmin cheap`; in general, with
`--fmin` given, for `-a vips` every value other than `cost` and `subset`, and
for `-a pb` and `-a sb` every value other than `cheap`, `subset` and `cost`,
yields exit code 1 without a computation; with `-a sb` and `-a vips` the
values named are the supported ones, the computation is started for them. -/
theorem fencins_unsupported_fmin (parseInt : String → Option Int)
    (machine : Option MachineInfo) (flags : FlagMap)
    (hf : FlagMap.count flags "fmin" ≠ 0) :
    (FlagMap.argument flags "a" = "vips" → FlagMap.argument flags "fmin" = "cheap" →
      (fencins parseInt machine flags).exitCode = 1 ∧
        (fencins parseInt machine flags).analysis = none) ∧
    (FlagMap.argument flags "a" = "vips" →
      FlagMap.argument flags "fmin" ∉ ["cost", "subset"] →
      (fencins parseInt machine flags).exitCode = 1 ∧
        (fencins parseInt machine flags).analysis = none) ∧
    (FlagMap.argument flags "a" = "pb" ∨ FlagMap.argument flags "a" = "sb" →
      FlagMap.argument flags "fmin" ∉ ["cheap", "subset", "cost"] →
      (fencins parseInt machine flags).exitCode = 1 ∧
        (fencins parseInt machine flags).analysis = none) ∧
    (∀ m n, machine = some m → intFlag parseInt flags "max-refinements" (-1) = some n →
      (FlagMap.argument flags "a" = "vips" ∧
          FlagMap.argument flags "fmin" ∈ ["cost", "subset"]) ∨
        (FlagMap.argument flags "a" = "sb" ∧
          FlagMap.argument flags "fmin" ∈ ["cheap", "subset", "cost"]) →
      (fencins parseInt machine flags).exitCode = 0 ∧
        (fencins parseInt machine flags).analysis ≠ none) := by
  have hfmin : fminOf flags = FlagMap.argument flags "fmin" := by
    unfold fminOf
    rw [if_pos hf]
  refine ⟨?_, ?_, ?_, ?_⟩
  · intro ha hc
    apply fencins_vips_unsupported parseInt machine flags ha hf
    rw [hc]
    decide
  · intro ha hc
    exact fencins_vips_unsupported parseInt machine flags ha hf hc
  · intro ha hc
    apply fencins_tso_unsupported parseInt machine flags ha
    rw [hfmin]
    exact hc
  · intro m n hm hn hsup
    subst hm
    unfold fencins
    simp only [hn]
    rcases hsup with ⟨ha, hs⟩ | ⟨ha, hs⟩
    · have h1 : ¬ ("vips" = "pb") := by decide
      have h2 : ¬ ("vips" = "sb") := by decide
      have hv : ∃ asp, vipsAspect flags = some asp := by
        unfold vipsAspect
        simp only [hf, ne_eq, not_false_eq_true, ↓reduceIte]
        simp only [List.mem_cons, List.mem_singleton, List.not_mem_nil, or_false] at hs
        rcases hs with hs | hs
        · rw [if_pos hs]
          exact ⟨_, rfl⟩
        · split_ifs
          · exact ⟨_, rfl⟩
          · exact ⟨_, rfl⟩
      obtain ⟨asp, hv⟩ := hv
      simp only [ha, h1, h2, ↓reduceIte, hv]
      exact ⟨rfl, by simp [CmdResult.analysis]⟩
    · have h1 : ¬ ("sb" = "pb") := by decide
      rw [← hfmin] at hs
      obtain ⟨call, hcall, _⟩ := tsoFencins_supported flags ArgInit.sb hs
      simp only [ha, h1, ↓reduceIte, hcall]
      exact ⟨rfl, by simp [CmdResult.analysis]⟩

/-- Witness of C18: `memorax fencins -a vips --fmin cheap file.rmm`. -/
theorem fencins_unsupported_fmin_witness :
    FlagMap.count fencinsVipsCheapFlags "fmin" ≠ 0 ∧
    FlagMap.argument fencinsVipsCheapFlags "a" = "vips" ∧
    FlagMap.argument fencinsVipsCheapFlags "fmin" = "cheap" ∧
    (fencins parseDecimal (some plainMachine) fencinsVipsCheapFlags).exitCode = 1 ∧
    (fencins parseDecimal (some plainMachine) fencinsVipsCheapFlags).analysis = none :=
  ⟨by decide, by decide, by decide,
    (fencins_unsupported_fmin parseDecimal (some plainMachine) fencinsVipsCheapFlags
      (by decide)).1 (by decide) (by decide)⟩

/-- C19, counterexample: `memorax reach -a sb -k foo file.rmm`; the value of
`-k` is not an integer, the command runs the analysis for `sb` and returns 0. -/
theorem reachability_ignores_bad_k :
    FlagMap.argument reachSbBadKFlags "k" = "foo" ∧
    parseDecimal "foo" = none ∧
    reachability parseDecimal (some plainMachine) reachSbBadKFlags =
      CmdResult.returned 0 (some ReachArg.sb) := by
  decide

/-- C19, amended: the fencins command returns exit code 1 and runs no analysis
when `--max-refinements` is given a value that is not an integer (under every
abstraction) and, under `-a pb`, when `-k` is given a value that is not an
integer at least 1; the reach command does so under `-a pb` without `--cegar`
for such a value of `-k`. Elsewhere the flag is not read (the counterexample). -/
theorem bad_integer_flag (parseInt : String → Option Int)
    (machine : Option MachineInfo) (flags : FlagMap) :
    (FlagMap.count flags "max-refinements" ≠ 0 →
      parseInt (FlagMap.argument flags "max-refinements") = none →
      (fencins parseInt machine flags).exitCode = 1 ∧
        (fencins parseInt machine flags).analysis = none) ∧
    (FlagMap.argument flags "a" = "pb" → FlagMap.count flags "k" ≠ 0 →
      (∀ k, parseInt (FlagMap.argument flags "k") = some k → k < 1) →
      (fencins parseInt machine flags).exitCode = 1 ∧
        (fencins parseInt machine flags).analysis = none) ∧
    (FlagMap.argument flags "a" = "pb" → FlagMap.count flags "cegar" = 0 →
      FlagMap.count flags "k" ≠ 0 →
      (∀ k, parseInt (FlagMap.argument flags "k") = some k → k < 1) →
      (reachability parseInt machine flags).exitCode = 1 ∧
        (reachability parseInt machine flags).analysis = none) := by
  have hk : FlagMap.count flags "k" ≠ 0 →
      (∀ k, parseInt (FlagMap.argument flags "k") = some k → k < 1) →
      kFlag parseInt flags = none := by
    intro h1 h2
    unfold kFlag intFlag
    rw [if_pos h1]
    cases hp : parseInt (FlagMap.argument flags "k") with
    | none => rfl
    | some k =>
      simp only
      rw [if_pos (h2 k hp)]
  refine ⟨?_, ?_, ?_⟩
  · intro h1 h2
    have hint : intFlag parseInt flags "max-refinements" (-1) = none := by
      unfold intFlag
      rw [if_pos h1, h2]
    unfold fencins
    cases machine with
    | none => exact ⟨rfl, rfl⟩
    | some m =>
      simp only [hint]
      exact ⟨rfl, rfl⟩
  · intro ha h1 h2
    unfold fencins
    cases machine with
    | none => exact ⟨rfl, rfl⟩
    | some m =>
      simp only
      cases intFlag parseInt flags "max-refinements" (-1) with
      | none => exact ⟨rfl, rfl⟩
      | some n =>
        simp only [ha, ↓reduceIte, hk h1 h2]
        exact ⟨rfl, rfl⟩
  · intro ha hc h1 h2
    unfold reachability
    cases machine with
    | none => exact ⟨rfl, rfl⟩
    | some m =>
      simp only [ha, ↓reduceIte, hc, gt_iff_lt, lt_self_iff_false]
      cases (if m.predicates.length ≠ 0 then convertAll m.predicates
             else some m.extracted) with
      | none => exact ⟨rfl, rfl⟩
      | some preds =>
        simp only [hk h1 h2]
        exact ⟨rfl, rfl⟩

/-- Witness of the amended C19: `memorax fencins -a pb -k 0 file.rmm`. -/
theorem bad_integer_flag_witness :
    FlagMap.argument fencinsPbBadKFlags "a" = "pb" ∧
    FlagMap.count fencinsPbBadKFlags "k" ≠ 0 ∧
    parseDecimal (FlagMap.argument fencinsPbBadKFlags "k") = some 0 ∧
    (fencins parseDecimal (some plainMachine) fencinsPbBadKFlags).exitCode = 1 ∧
    (fencins parseDecimal (some plainMachine) fencinsPbBadKFlags).analysis = none :=
  ⟨by decide, by decide, by decide,
    (bad_integer_flag parseDecimal (some plainMachine) fencinsPbBadKFlags).2.1
      (by decide) (by decide)
      (fun k hk => by
        have h0 : parseDecimal (FlagMap.argument fencinsPbBadKFlags "k") = some 0 := by
          decide
        rw [h0] at hk
        injection hk with hk
        omega)⟩

/-! ## The subword embedding behind `LESS` -/

theorem subword_sublist (ci : Int) {S L : List Msg} {hS hL : NmlsSet}
    (h : Subword ci hS hL S L) :
    ∃ L1, List.Sublist L1 L ∧ List.Forall₂ (fun m d => msgLe m d = true) S L1 := by
  induction S generalizing L hS hL with
  | nil => exact ⟨[], List.nil_sublist _, List.Forall₂.nil⟩
  | cons m S ih =>
    obtain ⟨_, pre, d, L2, rfl, h2, h3⟩ := h
    obtain ⟨L1, hsub, hall⟩ := ih h3
    refine ⟨d :: L1, ?_, List.Forall₂.cons h2 hall⟩
    exact List.Sublist.trans (List.Sublist.cons₂ d hsub) (List.sublist_append_right _ _)

theorem forall₂_getElem? {α β : Type} {R : α → β → Prop} {x : List α} {y : List β}
    (h : List.Forall₂ R x y) (i : Nat) (m : α) (hm : x[i]? = some m) :
    ∃ d, y[i]? = some d ∧ R m d := by
  induction h generalizing i with
  | nil => simp at hm
  | cons hr _ ih =>
    cases i with
    | zero =>
      simp only [List.getElem?_cons_zero, Option.some.injEq] at hm
      subst hm
      exact ⟨_, by simp, hr⟩
    | succ i =>
      simp only [List.getElem?_cons_succ] at hm ⊢
      exact ih i hm

theorem chansLe_getElem? (ci : Nat) (A B : List (List Msg)) (h : chansLe ci A B = true)
    (c : Nat) (x y : List Msg) (hx : A[c]? = some x) (hy : B[c]? = some y) :
    chanLe (ci + c) x y = true := by
  induction A generalizing B ci c with
  | nil => simp at hx
  | cons a as ih =>
    cases B with
    | nil => simp at hy
    | cons b bs =>
      simp only [chansLe, Bool.and_eq_true] at h
      cases c with
      | zero =>
        simp only [List.getElem?_cons_zero, Option.some.injEq] at hx hy
        subst hx; subst hy
        exact h.1
      | succ c =>
        simp only [List.getElem?_cons_succ] at hx hy
        have := ih (ci + 1) bs h.2 c hx hy
        rw [show ci + (c + 1) = ci + 1 + c by omega]
        exact this

theorem msg_compare_of_msgLe (m d : Msg) (h : msgLe m d = true) :
    m.wpid = d.wpid ∧ m.nmls = d.nmls ∧
      (m.entailment_compare d = EQUAL ∨ m.entailment_compare d = LESS) := by
  have h1 := h
  simp only [msgLe, Bool.and_eq_true, decide_eq_true_eq] at h1
  refine ⟨h1.1.1, h1.1.2, ?_⟩
  rw [← msg_le] at h
  cases hc : m.entailment_compare d <;> rw [hc] at h <;> simp [Comparison.le] at h ⊢

/-- C20: whenever `a.entailment_compare(b) = LESS` (for constraints with as
many register stores and channels, as over one `Common`), every channel of `a`
is a subword of the channel of `b` of the same index: there is a strictly
increasing map `f` of positions such that the message of `a` at position `i`
and the message of `b` at position `f i` have the same writer and locations and
compare `EQUAL` or `LESS`; the channel of `a` is not the longer one. -/
theorem less_channels_subword (a b : DualChannelConstraint)
    (hr : a.reg_stores.length = b.reg_stores.length)
    (hc : a.channels.length = b.channels.length)
    (h : a.entailment_compare b = LESS)
    (c : Nat) (x y : List Msg) (hx : a.channels[c]? = some x)
    (hy : b.channels[c]? = some y) :
    x.length ≤ y.length ∧
    ∃ f : Nat → Nat, StrictMono f ∧
      ∀ (i : Nat) (m : Msg), x[i]? = some m →
        ∃ d, y[f i]? = some d ∧ m.wpid = d.wpid ∧ m.nmls = d.nmls ∧
          (m.entailment_compare d = EQUAL ∨ m.entailment_compare d = LESS) := by
  obtain ⟨_, hle⟩ := le_of_compare hr hc (Or.inl h)
  simp only [DualChannelConstraint.le, Bool.and_eq_true] at hle
  have hch := chansLe_getElem? 0 a.channels b.channels hle.2 c x y hx hy
  rw [chanLe_iff] at hch
  have hlen := subword_length _ hch
  simp only [List.length_reverse] at hlen
  obtain ⟨L1, hsub, hall⟩ := subword_sublist _ hch
  have hsub1 : List.Sublist L1.reverse y := by
    rw [← List.reverse_sublist, List.reverse_reverse]
    exact hsub
  have hall1 : List.Forall₂ (fun m d => msgLe m d = true) x L1.reverse := by
    rw [← List.forall₂_reverse_iff, List.reverse_reverse]
    exact hall
  obtain ⟨f, hf⟩ := List.sublist_iff_exists_orderEmbedding_get?_eq.mp hsub1
  refine ⟨hlen, f, f.strictMono, ?_⟩
  intro i m hm
  obtain ⟨d, hd, hmd⟩ := forall₂_getElem? hall1 i m hm
  refine ⟨d, ?_, msg_compare_of_msgLe m d hmd⟩
  have := hf i
  simp only [List.get?_eq_getElem?] at this
  rw [← this]
  exact hd

/-- Witness of C20: the channel `[w0(0)]` of process 0 against `[w0(1), w0(0)]`. -/
theorem less_channels_subword_witness :
    (oneProc [wmsg 0 0]).entailment_compare (oneProc [wmsg 0 1, wmsg 0 0]) = LESS ∧
    [wmsg 0 0].length ≤ [wmsg 0 1, wmsg 0 0].length ∧
    ∃ f : Nat → Nat, StrictMono f ∧
      ∀ (i : Nat) (m : Msg), [wmsg 0 0][i]? = some m →
        ∃ d, [wmsg 0 1, wmsg 0 0][f i]? = some d ∧ m.wpid = d.wpid ∧ m.nmls = d.nmls ∧
          (m.entailment_compare d = EQUAL ∨ m.entailment_compare d = LESS) :=
  ⟨by decide,
    less_channels_subword (oneProc [wmsg 0 0]) (oneProc [wmsg 0 1, wmsg 0 0]) rfl rfl
      (by decide) 0 [wmsg 0 0] [wmsg 0 1, wmsg 0 0] rfl rfl⟩

/-! ## `index_of_read` -/

theorem indexLoop_none (pid : Int) (nml : Nat) (L : List Msg) :
    indexLoop pid nml L = none ↔ ∀ d ∈ L, ¬ (d.wpid = pid ∧ nml ∈ d.nmls) := by
  induction L with
  | nil => simp [indexLoop]
  | cons m ms ih =>
    unfold indexLoop
    by_cases h : m.wpid = pid ∧ nml ∈ m.nmls
    · rw [if_pos h]
      simp only [reduceCtorEq, List.mem_cons, forall_eq_or_imp, false_iff, not_and,
        not_forall]
      intro h1
      exact absurd h.2 (h1 h.1)
    · rw [if_neg h, ih]
      simp only [List.mem_cons, forall_eq_or_imp]
      exact ⟨fun h1 => ⟨h, h1⟩, fun h1 => h1.2⟩

theorem indexLoop_some (pid : Int) (nml : Nat) (L : List Msg) (i : Nat)
    (h : indexLoop pid nml L = some i) :
    ∃ m, L.reverse[i]? = some m ∧ (m.wpid = pid ∧ nml ∈ m.nmls) ∧
      ∀ (j : Nat) (d : Msg), i < j → L.reverse[j]? = some d →
        ¬ (d.wpid = pid ∧ nml ∈ d.nmls) := by
  induction L with
  | nil => simp [indexLoop] at h
  | cons m ms ih =>
    unfold indexLoop at h
    by_cases hown : m.wpid = pid ∧ nml ∈ m.nmls
    · rw [if_pos hown] at h
      injection h with h
      subst h
      refine ⟨m, ?_, hown, ?_⟩
      · simp [List.getElem?_append_right]
      · intro j d hj hd
        have : (m :: ms).reverse[j]? = none := by
          apply List.getElem?_eq_none
          simp only [List.reverse_cons, List.length_append, List.length_reverse,
            List.length_singleton]
          omega
        rw [this] at hd
        exact absurd hd (by simp)
    · rw [if_neg hown] at h
      obtain ⟨m1, h1, h2, h3⟩ := ih h
      have hi : i < ms.reverse.length := by
        by_contra hcon
        rw [List.getElem?_eq_none (by omega)] at h1
        exact absurd h1 (by simp)
      refine ⟨m1, ?_, h2, ?_⟩
      · rw [List.reverse_cons, List.getElem?_append_left hi]
        exact h1
      · intro j d hj hd
        rw [List.reverse_cons] at hd
        by_cases hjl : j < ms.reverse.length
        · rw [List.getElem?_append_left hjl] at hd
          exact h3 j d hj hd
        · rw [List.getElem?_append_right (by omega)] at hd
          have hd1 : d = m := by
            cases hk : j - ms.reverse.length with
            | zero => rw [hk] at hd; simpa using hd.symm
            | succ k => rw [hk] at hd; simp at hd
          rw [hd1]
          exact hown

/-- C23: `index_of_read(nml, pid)` returns the largest position of
`channels[pid]` whose message is written by `pid` and contains `nml`, when there
is such a position; otherwise -1 when the channel is non-empty and its message
at position 0 has writer -1 and contains `nml`; otherwise -2, so -2 for an
empty channel. -/
theorem index_of_read_spec (c : DualChannelConstraint) (nml pid : Nat) (ch : List Msg)
    (hch : c.channels[pid]? = some ch) :
    (∀ (i : Nat) (m : Msg), ch[i]? = some m → m.wpid = (pid : Int) → nml ∈ m.nmls →
      (∀ (j : Nat) (d : Msg), i < j → ch[j]? = some d →
        ¬ (d.wpid = (pid : Int) ∧ nml ∈ d.nmls)) →
      c.index_of_read nml pid = (i : Int)) ∧
    ((∀ d ∈ ch, ¬ (d.wpid = (pid : Int) ∧ nml ∈ d.nmls)) →
      (∃ m, ch[0]? = some m ∧ m.wpid = -1 ∧ nml ∈ m.nmls) →
      c.index_of_read nml pid = -1) ∧
    ((∀ d ∈ ch, ¬ (d.wpid = (pid : Int) ∧ nml ∈ d.nmls)) →
      ¬ (∃ m, ch[0]? = some m ∧ m.wpid = -1 ∧ nml ∈ m.nmls) →
      c.index_of_read nml pid = -2) ∧
    (ch = [] → c.index_of_read nml pid = -2) := by
  have hget : c.channels.getD pid [] = ch := by simp [hch]
  have hnone : (∀ d ∈ ch, ¬ (d.wpid = (pid : Int) ∧ nml ∈ d.nmls)) →
      indexLoop (pid : Int) nml ch.reverse = none := by
    intro h
    rw [indexLoop_none]
    intro d hd
    exact h d (List.mem_reverse.mp hd)
  refine ⟨?_, ?_, ?_, ?_⟩
  · intro i m hm hw hn hlast
    unfold DualChannelConstraint.index_of_read
    rw [hget]
    cases hl : indexLoop (pid : Int) nml ch.reverse with
    | none =>
      rw [indexLoop_none] at hl
      exact absurd ⟨hw, hn⟩ (hl m (List.mem_reverse.mpr (List.getElem?_mem hm)))
    | some i1 =>
      obtain ⟨m1, h1, h2, h3⟩ := indexLoop_some _ _ _ _ hl
      rw [List.reverse_reverse] at h1 h3
      simp only
      have : i1 = i := by
        rcases Nat.lt_trichotomy i1 i with hlt | heq | hgt
        · exact absurd ⟨hw, hn⟩ (h3 i m hlt hm)
        · exact heq
        · exact absurd h2 (hlast i1 m1 hgt h1)
      rw [this]
  · intro hno hfirst
    obtain ⟨m, hm, hw, hn⟩ := hfirst
    unfold DualChannelConstraint.index_of_read
    rw [hget, hnone hno]
    have hlen : ch.length > 0 := by
      cases ch with
      | nil => simp at hm
      | cons _ _ => simp
    simp only [hlen, ↓reduceIte, hm, hw, hn, and_self]
  · intro hno hfirst
    unfold DualChannelConstraint.index_of_read
    rw [hget, hnone hno]
    simp only
    split_ifs with hlen
    · cases h0 : ch[0]? with
      | none => rfl
      | some m =>
        simp only
        rw [if_neg]
        intro hcon
        exact hfirst ⟨m, h0, hcon.1, hcon.2⟩
    · rfl
  · intro hnil
    subst hnil
    unfold DualChannelConstraint.index_of_read
    rw [hget]
    rfl

/-- C23 at the channel `[w(-1)(0), w0(0), w0(1), w0(0), w1(0)]` of process 0: the
newest own write to location 0 is at position 3. -/
theorem index_of_read_spec_witness :
    (oneProc [wmsg (-1) 0, wmsg 0 0, wmsg 0 1, wmsg 0 0, wmsg 1 0]).channels[0]? =
      some [wmsg (-1) 0, wmsg 0 0, wmsg 0 1, wmsg 0 0, wmsg 1 0] ∧
    (oneProc [wmsg (-1) 0, wmsg 0 0, wmsg 0 1, wmsg 0 0, wmsg 1 0]).index_of_read 0 0 = 3 ∧
    (oneProc [wmsg (-1) 0, wmsg 1 0]).index_of_read 0 0 = -1 ∧
    (oneProc [wmsg 1 0]).index_of_read 0 0 = -2 :=
  ⟨rfl,
    (index_of_read_spec (oneProc [wmsg (-1) 0, wmsg 0 0, wmsg 0 1, wmsg 0 0, wmsg 1 0]) 0 0
      [wmsg (-1) 0, wmsg 0 0, wmsg 0 1, wmsg 0 0, wmsg 1 0] rfl).1 3 (wmsg 0 0) rfl rfl
      (by decide) (by
        intro j d hj hd
        have h4 : j = 4 ∨ 5 ≤ j := by omega
        rcases h4 with h4 | h4
        · subst h4
          simp only [List.getElem?_cons_succ, List.getElem?_cons_zero,
            Option.some.injEq] at hd
          rw [← hd]
          decide
        · rw [List.getElem?_eq_none (by simpa using h4)] at hd
          exact absurd hd (by simp)),
    by decide, by decide⟩

/-! ## `characterize_channels` -/

theorem characterizeChannel_cons (ci : Int) (m : Msg) (ms : List Msg) (hw : NmlsSet) :
    characterizeChannel ci (m :: ms) hw =
      (if m.wpid = ci ∧ m.nmls ∉ hw then [(m.wpid, m.nmls)] else []) ++
        characterizeChannel ci ms (addOwn ci m hw) := by
  rw [characterizeChannel]
  unfold addOwn
  by_cases h1 : m.wpid = ci
  · by_cases h2 : m.nmls ∈ hw
    · simp [h1, h2, List.insert_of_mem h2]
    · simp [h1, h2]
  · simp [h1]

theorem characterizeChannel_append (ci : Int) (A B : List Msg) (hw : NmlsSet) :
    characterizeChannel ci (A ++ B) hw =
      characterizeChannel ci A hw ++ characterizeChannel ci B (addOwns ci A hw) := by
  induction A generalizing hw with
  | nil => simp [characterizeChannel, addOwns_nil]
  | cons m ms ih =>
    rw [List.cons_append, characterizeChannel_cons, characterizeChannel_cons, ih,
      addOwns_cons, List.append_assoc]

theorem characterizeChannel_eq_lastOwn (ci : Int) (ch : List Msg) :
    (characterizeChannel ci ch.reverse []).reverse = lastOwn ci ch := by
  induction ch with
  | nil => rfl
  | cons m ms ih =>
    rw [List.reverse_cons, characterizeChannel_append, List.reverse_append, ih,
      characterizeChannel_cons]
    have hmem : m.nmls ∉ addOwns ci ms.reverse [] ↔
        ∀ d ∈ ms, ¬ (d.wpid = ci ∧ d.nmls = m.nmls) := by
      rw [mem_addOwns]
      simp only [List.not_mem_nil, List.mem_reverse, false_or, not_exists, not_and]
      constructor
      · intro h d hd hw he
        exact h d hd hw he.symm
      · intro h d hd hw he
        exact h d hd hw he.symm
    rw [lastOwn]
    by_cases hc : m.wpid = ci ∧ ∀ d ∈ ms, ¬ (d.wpid = ci ∧ d.nmls = m.nmls)
    · rw [if_pos hc, if_pos ⟨hc.1, hmem.mpr hc.2⟩]
      simp [characterizeChannel]
    · rw [if_neg hc, if_neg (fun h => hc ⟨h.1, hmem.mp h.2⟩)]
      simp [characterizeChannel]

theorem lastOwn_mem (ci : Int) (ch : List Msg) (x : MsgCharacterization)
    (h : x ∈ lastOwn ci ch) : ∃ d ∈ ch, d.wpid = ci ∧ x = (ci, d.nmls) := by
  induction ch with
  | nil => simp [lastOwn] at h
  | cons m ms ih =>
    rw [lastOwn] at h
    split_ifs at h with hc
    · rcases List.mem_cons.mp h with e | e
      · refine ⟨m, List.mem_cons_self _ _, hc.1, ?_⟩
        rw [e, hc.1]
      · obtain ⟨d, hd, h1, h2⟩ := ih e
        exact ⟨d, List.mem_cons_of_mem _ hd, h1, h2⟩
    · obtain ⟨d, hd, h1, h2⟩ := ih h
      exact ⟨d, List.mem_cons_of_mem _ hd, h1, h2⟩

theorem lastOwn_nodup (ci : Int) (ch : List Msg) :
    ((lastOwn ci ch).map Prod.snd).Nodup := by
  induction ch with
  | nil => simp [lastOwn]
  | cons m ms ih =>
    rw [lastOwn]
    split_ifs with hc
    · simp only [List.map_cons, List.nodup_cons]
      refine ⟨?_, ih⟩
      intro hm
      obtain ⟨x, hx, hx2⟩ := List.mem_map.mp hm
      obtain ⟨d, hd, h1, h2⟩ := lastOwn_mem ci ms x hx
      apply hc.2 d hd
      refine ⟨h1, ?_⟩
      rw [← hx2, h2]
    · exact ih

theorem lastOwnAt_zero (ci : Int) (m : Msg) (ms : List Msg) :
    LastOwnAt ci (m :: ms) 0 ↔
      (m.wpid = ci ∧ ∀ d ∈ ms, ¬ (d.wpid = ci ∧ d.nmls = m.nmls)) := by
  unfold LastOwnAt
  constructor
  · rintro ⟨m1, h1, h2, h3⟩
    simp only [List.getElem?_cons_zero, Option.some.injEq] at h1
    subst h1
    refine ⟨h2, ?_⟩
    intro d hd
    obtain ⟨k, hk⟩ := List.mem_iff_getElem?.mp hd
    exact h3 (k + 1) d (Nat.succ_pos _) (by simpa using hk)
  · rintro ⟨h2, h3⟩
    refine ⟨m, by simp, h2, ?_⟩
    intro k1 d hk hd
    cases k1 with
    | zero => omega
    | succ k =>
      simp only [List.getElem?_cons_succ] at hd
      exact h3 d (List.getElem?_mem hd)

theorem lastOwnAt_succ (ci : Int) (m : Msg) (ms : List Msg) (k : Nat) :
    LastOwnAt ci (m :: ms) (k + 1) ↔ LastOwnAt ci ms k := by
  unfold LastOwnAt
  constructor
  · rintro ⟨m1, h1, h2, h3⟩
    simp only [List.getElem?_cons_succ] at h1
    refine ⟨m1, h1, h2, ?_⟩
    intro k1 d hk hd
    exact h3 (k1 + 1) d (by omega) (by simpa using hd)
  · rintro ⟨m1, h1, h2, h3⟩
    refine ⟨m1, by simpa using h1, h2, ?_⟩
    intro k1 d hk hd
    cases k1 with
    | zero => omega
    | succ k2 =>
      simp only [List.getElem?_cons_succ] at hd
      exact h3 k2 d (by omega) hd

theorem lastOwn_positions (ci : Int) (ch : List Msg) :
    ∃ ks : List Nat, ks.Sorted (· < ·) ∧ (∀ k, k ∈ ks ↔ LastOwnAt ci ch k) ∧
      List.Forall₂ (fun k x => ∃ m, ch[k]? = some m ∧ x = (ci, m.nmls)) ks
        (lastOwn ci ch) := by
  induction ch with
  | nil =>
    refine ⟨[], List.sorted_nil, ?_, ?_⟩
    · intro k
      simp [LastOwnAt]
    · simp [lastOwn]
  | cons m ms ih =>
    obtain ⟨ks, hs, hm, hf⟩ := ih
    have hs1 : (ks.map (· + 1)).Sorted (· < ·) := by
      rw [List.Sorted, List.pairwise_map]
      exact List.Pairwise.imp (fun h => Nat.succ_lt_succ h) hs
    have hm1 : ∀ k, k ∈ ks.map (· + 1) ↔ (0 < k ∧ LastOwnAt ci (m :: ms) k) := by
      intro k
      cases k with
      | zero => simp
      | succ k =>
        rw [lastOwnAt_succ, ← hm]
        simp
    have hf1 : List.Forall₂ (fun k x => ∃ m1, (m :: ms)[k]? = some m1 ∧ x = (ci, m1.nmls))
        (ks.map (· + 1)) (lastOwn ci ms) := by
      rw [List.forall₂_map_left_iff]
      exact List.Forall₂.imp (fun _ _ h => by simp only [List.getElem?_cons_succ]; exact h) hf
    rw [lastOwn]
    by_cases hc : m.wpid = ci ∧ ∀ d ∈ ms, ¬ (d.wpid = ci ∧ d.nmls = m.nmls)
    · rw [if_pos hc]
      refine ⟨0 :: ks.map (· + 1), ?_, ?_, ?_⟩
      · apply List.sorted_cons.mpr
        refine ⟨?_, hs1⟩
        intro b hb
        exact ((hm1 b).mp hb).1
      · intro k
        rw [List.mem_cons, hm1]
        cases k with
        | zero =>
          simp only [true_or, true_iff]
          exact (lastOwnAt_zero ci m ms).mpr hc
        | succ k => simp
      · refine List.Forall₂.cons ⟨m, by simp, ?_⟩ hf1
        rw [hc.1]
    · rw [if_neg hc]
      refine ⟨ks.map (· + 1), hs1, ?_, hf1⟩
      intro k
      rw [hm1]
      cases k with
      | zero =>
        simp only [lt_self_iff_false, false_and, false_iff]
        intro h
        exact hc ((lastOwnAt_zero ci m ms).mp h)
      | succ k => simp

theorem characterizeFrom_length (k : Nat) (chs : List (List Msg)) :
    (characterizeFrom k chs).length = chs.length := by
  induction chs generalizing k with
  | nil => rfl
  | cons ch rest ih => simp [characterizeFrom, ih]

theorem characterizeFrom_getElem? (k : Nat) (chs : List (List Msg)) (i : Nat)
    (ch : List Msg) (h : chs[i]? = some ch) :
    (characterizeFrom k chs)[i]? = some (lastOwn ((k + i : Nat) : Int) ch) := by
  induction chs generalizing k i with
  | nil => simp at h
  | cons c rest ih =>
    rw [characterizeFrom]
    cases i with
    | zero =>
      simp only [List.getElem?_cons_zero, Option.some.injEq] at h
      subst h
      simp [characterizeChannel_eq_lastOwn]
    | succ i =>
      simp only [List.getElem?_cons_succ] at h ⊢
      rw [ih (k + 1) i h]
      rw [show k + 1 + i = k + (i + 1) by omega]

/-- C22: `characterize_channels()` returns one list per channel, and the list for
channel `c` consists, in increasing position, of the pair `(c, NMLs)` of exactly
the messages at a position `k` that are written by `c` and that no message
written by `c` with the same NMLs follows at a later position; the NMLs in one
list are pairwise distinct and every pair has the writer `c`. -/
theorem characterize_channels_spec (c : DualChannelConstraint) :
    c.characterize_channels.length = c.channels.length ∧
    ∀ (ci : Nat) (ch : List Msg), c.channels[ci]? = some ch →
      ∃ (R : List MsgCharacterization) (ks : List Nat),
        c.characterize_channels[ci]? = some R ∧
        ks.Sorted (· < ·) ∧ (∀ k, k ∈ ks ↔ LastOwnAt (ci : Int) ch k) ∧
        List.Forall₂ (fun k x => ∃ m, ch[k]? = some m ∧ x = ((ci : Int), m.nmls)) ks R ∧
        (R.map Prod.snd).Nodup ∧ (∀ x ∈ R, x.1 = (ci : Int)) ∧
        R = lastOwn (ci : Int) ch := by
  refine ⟨characterizeFrom_length 0 c.channels, ?_⟩
  intro ci ch hch
  obtain ⟨ks, hs, hm, hf⟩ := lastOwn_positions (ci : Int) ch
  refine ⟨lastOwn (ci : Int) ch, ks, ?_, hs, hm, hf, lastOwn_nodup _ _, ?_, rfl⟩
  · have := characterizeFrom_getElem? 0 c.channels ci ch hch
    simpa [DualChannelConstraint.characterize_channels] using this
  · intro x hx
    obtain ⟨d, _, _, h2⟩ := lastOwn_mem _ _ x hx
    rw [h2]

/-! ## `entailment_compare` on channels of equal lengths -/

theorem foldl_comb_le (l : List Comparison) (c : Comparison) :
    (l.foldl comb_comp c).le = (c.le && l.all Comparison.le) := by
  induction l generalizing c with
  | nil => simp
  | cons x l ih => simp [ih, comb_comp_le, Bool.and_assoc]

theorem foldl_comb_ge (l : List Comparison) (c : Comparison) :
    (l.foldl comb_comp c).ge = (c.ge && l.all Comparison.ge) := by
  induction l generalizing c with
  | nil => simp
  | cons x l ih => simp [ih, comb_comp_ge, Bool.and_assoc]

theorem allLe_eq_all {α : Type} (f : α → α → Bool) (g : α → α → Comparison)
    (p : Comparison → Bool) (hp : ∀ a b, p (g a b) = f a b) (A B : List α)
    (h : A.length = B.length) : allLe f A B = (List.zipWith g A B).all p := by
  induction A generalizing B with
  | nil =>
    cases B with
    | nil => rfl
    | cons b bs => simp at h
  | cons a as ih =>
    cases B with
    | nil => simp at h
    | cons b bs =>
      simp only [List.length_cons, add_left_inj] at h
      simp [allLe, ih bs h, hp]

theorem allLe_eq_all_conv {α : Type} (f : α → α → Bool) (g : α → α → Comparison)
    (p : Comparison → Bool) (hp : ∀ a b, p (g a b) = f b a) (A B : List α)
    (h : A.length = B.length) : allLe f B A = (List.zipWith g A B).all p := by
  induction A generalizing B with
  | nil =>
    cases B with
    | nil => rfl
    | cons b bs => simp at h
  | cons a as ih =>
    cases B with
    | nil => simp at h
    | cons b bs =>
      simp only [List.length_cons, add_left_inj] at h
      simp [allLe, ih bs h, hp]

theorem chansLe_eq_all (ci : Nat) (A B : List (List Msg))
    (h : List.Forall₂ (fun x y : List Msg => x.length = y.length) A B) :
    chansLe ci A B =
      (List.zipWith (List.zipWith Msg.entailment_compare) A B).flatten.all Comparison.le ∧
    chansLe ci B A =
      (List.zipWith (List.zipWith Msg.entailment_compare) A B).flatten.all Comparison.ge := by
  induction h generalizing ci with
  | nil => exact ⟨rfl, rfl⟩
  | cons hxy _ ih =>
    obtain ⟨i1, i2⟩ := ih (ci + 1)
    constructor
    · simp only [chansLe, chanLe, hxy, ↓reduceIte, List.zipWith_cons_cons,
        List.flatten_cons, List.all_append, i1]
      rw [allLe_eq_all msgLe Msg.entailment_compare Comparison.le msg_le _ _ hxy]
    · simp only [chansLe, chanLe, hxy, ↓reduceIte, List.zipWith_cons_cons,
        List.flatten_cons, List.all_append, i2]
      rw [allLe_eq_all_conv msgLe Msg.entailment_compare Comparison.ge msg_ge _ _ hxy]

theorem mem_of_all_false {l : List Comparison} {p : Comparison → Bool}
    (h : l.all p = false) : ∃ x ∈ l, p x = false := by
  simpa using h

/-- C21: for constraints with at least one process, equal control states, as many
register stores and pairwise equal channel lengths, `entailment_compare` is the
fold with the combinator, from `EQUAL`, of the comparisons of the register
stores, of `mems[0]` and of the messages of every channel position by position;
it is `INCOMPARABLE` exactly when one of these is `INCOMPARABLE` or one is
`LESS` and another `GREATER`. -/
theorem entailment_compare_fold (a b : DualChannelConstraint)
    (hp : a.pcs = b.pcs) (hne : a.channels ≠ [])
    (hr : a.reg_stores.length = b.reg_stores.length)
    (hc : List.Forall₂ (fun x y : List Msg => x.length = y.length) a.channels b.channels) :
    a.entailment_compare b = (a.components b).foldl comb_comp EQUAL ∧
    (a.entailment_compare b = INCOMPARABLE ↔
      INCOMPARABLE ∈ a.components b ∨
        (LESS ∈ a.components b ∧ GREATER ∈ a.components b)) := by
  have hfold : a.entailment_compare b = (a.components b).foldl comb_comp EQUAL := by
    obtain ⟨h1, h2⟩ := entailment_compare_parts a b hr hc.length_eq hne
    obtain ⟨c1, c2⟩ := chansLe_eq_all 0 a.channels b.channels hc
    apply Comparison.ext_parts
    · rw [h1, foldl_comb_le]
      simp only [DualChannelConstraint.le, hp, decide_True, Bool.true_and,
        DualChannelConstraint.components, List.all_append, c1,
        show EQUAL.le = true from rfl, List.all_cons, List.all_nil, Bool.and_true]
      rw [allLe_eq_all storeLe Store.entailment_compare Comparison.le store_le _ _ hr,
        store_le]
    · rw [h2, foldl_comb_ge]
      simp only [DualChannelConstraint.le, hp, decide_True, Bool.true_and,
        DualChannelConstraint.components, List.all_append, c2,
        show EQUAL.ge = true from rfl, List.all_cons, List.all_nil, Bool.and_true]
      rw [allLe_eq_all_conv storeLe Store.entailment_compare Comparison.ge store_ge _ _ hr,
        store_ge]
  refine ⟨hfold, ?_⟩
  rw [hfold, eq_incomparable_iff, foldl_comb_le, foldl_comb_ge]
  simp only [show EQUAL.le = true from rfl, show EQUAL.ge = true from rfl, Bool.true_and]
  constructor
  · rintro ⟨h1, h2⟩
    obtain ⟨x, hx, hxl⟩ := mem_of_all_false h1
    obtain ⟨y, hy, hyg⟩ := mem_of_all_false h2
    cases x with
    | LESS => simp [Comparison.le] at hxl
    | EQUAL => simp [Comparison.le] at hxl
    | INCOMPARABLE => exact Or.inl hx
    | GREATER =>
      cases y with
      | GREATER => simp [Comparison.ge] at hyg
      | EQUAL => simp [Comparison.ge] at hyg
      | INCOMPARABLE => exact Or.inl hy
      | LESS => exact Or.inr ⟨hy, hx⟩
  · rintro (h | ⟨h1, h2⟩)
    · constructor
      · rw [List.all_eq_false]
        exact ⟨INCOMPARABLE, h, by simp [Comparison.le]⟩
      · rw [List.all_eq_false]
        exact ⟨INCOMPARABLE, h, by simp [Comparison.ge]⟩
    · constructor
      · rw [List.all_eq_false]
        exact ⟨GREATER, h2, by simp [Comparison.le]⟩
      · rw [List.all_eq_false]
        exact ⟨LESS, h1, by simp [Comparison.ge]⟩

/-- C21 at two constraints of two processes: the value 1 against `*` in the first
channel gives `LESS`, `*` against the value 2 in the second gives `GREATER`, the
fold is `INCOMPARABLE`. -/
theorem entailment_compare_fold_witness :
    (twoProc [vmsg 0 0 1] [wmsg 1 2]).pcs = (twoProc [wmsg 0 0] [vmsg 1 2 2]).pcs ∧
    (twoProc [vmsg 0 0 1] [wmsg 1 2]).components (twoProc [wmsg 0 0] [vmsg 1 2 2]) =
      [EQUAL, EQUAL, EQUAL, LESS, GREATER] ∧
    (twoProc [vmsg 0 0 1] [wmsg 1 2]).entailment_compare (twoProc [wmsg 0 0] [vmsg 1 2 2]) =
      ((twoProc [vmsg 0 0 1] [wmsg 1 2]).components
        (twoProc [wmsg 0 0] [vmsg 1 2 2])).foldl comb_comp EQUAL ∧
    (twoProc [vmsg 0 0 1] [wmsg 1 2]).entailment_compare (twoProc [wmsg 0 0] [vmsg 1 2 2]) =
      INCOMPARABLE :=
  ⟨rfl, by decide,
    (entailment_compare_fold (twoProc [vmsg 0 0 1] [wmsg 1 2])
      (twoProc [wmsg 0 0] [vmsg 1 2 2]) rfl (by decide) rfl
      (List.Forall₂.cons rfl (List.Forall₂.cons rfl List.Forall₂.nil))).1,
    by decide⟩

/-! ## `EQUAL` -/

theorem forall₂_both {α : Type} {R S : α → α → Prop} {x y : List α}
    (h1 : List.Forall₂ R x y) (h2 : List.Forall₂ S y x) :
    List.Forall₂ (fun a b => R a b ∧ S b a) x y := by
  induction h1 with
  | nil => exact List.Forall₂.nil
  | cons hr _ ih =>
    cases h2 with
    | cons hs h2t => exact List.Forall₂.cons ⟨hr, hs⟩ (ih h2t)

theorem store_equal_of_le {s t : Store} (h1 : storeLe s t = true) (h2 : storeLe t s = true) :
    Store.entailment_compare s t = EQUAL := by
  apply Comparison.ext_parts
  · rw [store_le, h1]; rfl
  · rw [store_ge, h2]; rfl

theorem msg_equal_of_le {m d : Msg} (h1 : msgLe m d = true) (h2 : msgLe d m = true) :
    m.entailment_compare d = EQUAL := by
  apply Comparison.ext_parts
  · rw [msg_le, h1]; rfl
  · rw [msg_ge, h2]; rfl

theorem chansLe_both (ci : Nat) (A B : List (List Msg)) (h1 : chansLe ci A B = true)
    (h2 : chansLe ci B A = true) :
    List.Forall₂ (fun x y : List Msg => x.length = y.length ∧
      List.Forall₂ (fun m d => m.entailment_compare d = EQUAL) x y) A B := by
  induction A generalizing B ci with
  | nil =>
    cases B with
    | nil => exact List.Forall₂.nil
    | cons b bs => simp [chansLe] at h1
  | cons a as ih =>
    cases B with
    | nil => simp [chansLe] at h1
    | cons b bs =>
      simp only [chansLe, Bool.and_eq_true] at h1 h2
      refine List.Forall₂.cons ?_ (ih (ci + 1) bs h1.2 h2.2)
      have hlen : a.length = b.length := by
        have l1 := subword_length _ ((chanLe_iff ci a b).mp h1.1)
        have l2 := subword_length _ ((chanLe_iff ci b a).mp h2.1)
        simp only [List.length_reverse] at l1 l2
        omega
      refine ⟨hlen, ?_⟩
      have e1 := h1.1
      have e2 := h2.1
      simp only [chanLe, hlen, ↓reduceIte] at e1 e2
      have f1 := (allLe_iff_forall₂ msgLe a b).mp e1
      have f2 := (allLe_iff_forall₂ msgLe b a).mp e2
      exact List.Forall₂.imp (fun _ _ h => msg_equal_of_le h.1 h.2) (forall₂_both f1 f2)

/-- C30: if `a.entailment_compare(b) = EQUAL` (for constraints with as many
register stores and channels, as over one `Common`), then `a` and `b` have the
same control states, every channel of `a` has the length of the channel of `b`
of the same index and the messages compare `EQUAL` position by position, and
the register stores and `mems[0]` compare `EQUAL`; so `EQUAL` is never the
result when two channels of the same index differ in length. -/
theorem entailment_compare_equal (a b : DualChannelConstraint)
    (hr : a.reg_stores.length = b.reg_stores.length)
    (hc : a.channels.length = b.channels.length)
    (h : a.entailment_compare b = EQUAL) :
    a.pcs = b.pcs ∧
    List.Forall₂ (fun x y : List Msg => x.length = y.length ∧
      List.Forall₂ (fun m d => m.entailment_compare d = EQUAL) x y) a.channels b.channels ∧
    List.Forall₂ (fun s t => Store.entailment_compare s t = EQUAL)
      a.reg_stores b.reg_stores ∧
    Store.entailment_compare (a.mems.getD 0 []) (b.mems.getD 0 []) = EQUAL ∧
    (∀ (i : Nat) (x y : List Msg), a.channels[i]? = some x → b.channels[i]? = some y →
      x.length = y.length) := by
  obtain ⟨hne, hle⟩ := le_of_compare hr hc (Or.inr h)
  have hge : b.le a = true := by
    rw [← (entailment_compare_parts a b hr hc hne).2, h]
    rfl
  simp only [DualChannelConstraint.le, Bool.and_eq_true, decide_eq_true_eq] at hle hge
  have hch := chansLe_both 0 a.channels b.channels hle.2 hge.2
  refine ⟨hle.1.1.1, hch, ?_, store_equal_of_le hle.1.2 hge.1.2, ?_⟩
  · have f1 := (allLe_iff_forall₂ storeLe _ _).mp hle.1.1.2
    have f2 := (allLe_iff_forall₂ storeLe _ _).mp hge.1.1.2
    exact List.Forall₂.imp (fun _ _ h => store_equal_of_le h.1 h.2) (forall₂_both f1 f2)
  · intro i x y hx hy
    obtain ⟨d, hd, hxd⟩ := forall₂_getElem? hch i x hx
    rw [hy] at hd
    injection hd with hd
    rw [hd]
    exact hxd.1

/-- C30 at a constraint of two processes compared with itself. -/
theorem entailment_compare_equal_witness :
    (twoProc [vmsg 0 0 1] [wmsg 1 2]).entailment_compare (twoProc [vmsg 0 0 1] [wmsg 1 2]) =
      EQUAL ∧
    (twoProc [vmsg 0 0 1] [wmsg 1 2]).pcs = (twoProc [vmsg 0 0 1] [wmsg 1 2]).pcs ∧
    List.Forall₂ (fun x y : List Msg => x.length = y.length ∧
      List.Forall₂ (fun m d => m.entailment_compare d = EQUAL) x y)
      (twoProc [vmsg 0 0 1] [wmsg 1 2]).channels (twoProc [vmsg 0 0 1] [wmsg 1 2]).channels :=
  ⟨by decide,
    (entailment_compare_equal (twoProc [vmsg 0 0 1] [wmsg 1 2])
      (twoProc [vmsg 0 0 1] [wmsg 1 2]) rfl rfl (by decide)).1,
    (entailment_compare_equal (twoProc [vmsg 0 0 1] [wmsg 1 2])
      (twoProc [vmsg 0 0 1] [wmsg 1 2]) rfl rfl (by decide)).2.1⟩

end Memorax

namespace MinCoverage

/-! ### The order of candidates -/

theorem setLt_irrefl (a : List Nat) : setLt a a = false := by
  induction a with
  | nil => rfl
  | cons x xs ih => simp [setLt, ih]

theorem setLt_trans {a b c : List Nat} (h1 : setLt a b = true) (h2 : setLt b c = true) :
    setLt a c = true := by
  induction a generalizing b c with
  | nil =>
    cases b with
    | nil => simp [setLt] at h1
    | cons y ys =>
      cases c with
      | nil => simp [setLt] at h2
      | cons z zs => rfl
  | cons x xs ih =>
    cases b with
    | nil => simp [setLt] at h1
    | cons y ys =>
      cases c with
      | nil => simp [setLt] at h2
      | cons z zs =>
        simp only [setLt] at h1 h2 ⊢
        rcases Nat.lt_trichotomy x y with hxy | hxy | hxy
        · rcases Nat.lt_trichotomy y z with hyz | hyz | hyz
          · rw [if_pos (by omega)]
          · rw [if_pos (by omega)]
          · rw [if_neg (by omega), if_pos hyz] at h2
            exact absurd h2 (by simp)
        · subst hxy
          rcases Nat.lt_trichotomy x z with hyz | hyz | hyz
          · rw [if_pos hyz]
          · subst hyz
            simp only [lt_self_iff_false, ↓reduceIte] at h1 h2 ⊢
            exact ih h1 h2
          · rw [if_neg (by omega), if_pos hyz] at h2
            exact absurd h2 (by simp)
        · rw [if_neg (by omega), if_pos hxy] at h1
          exact absurd h1 (by simp)

theorem setLt_total (a b : List Nat) : setLt a b = true ∨ a = b ∨ setLt b a = true := by
  induction a generalizing b with
  | nil =>
    cases b with
    | nil => exact Or.inr (Or.inl rfl)
    | cons y ys => exact Or.inl rfl
  | cons x xs ih =>
    cases b with
    | nil => exact Or.inr (Or.inr rfl)
    | cons y ys =>
      simp only [setLt]
      rcases Nat.lt_trichotomy x y with hxy | hxy | hxy
      · left; rw [if_pos hxy]
      · subst hxy
        simp only [lt_self_iff_false, ↓reduceIte, List.cons.injEq, true_and]
        exact ih ys
      · right; right; rw [if_pos hxy]

theorem setLt_asymm {a b : List Nat} (h : setLt a b = true) : setLt b a = false := by
  cases hba : setLt b a with
  | false => rfl
  | true =>
    have := setLt_trans h hba
    rw [setLt_irrefl] at this
    exact absurd this (by simp)

theorem CandSet.gt_eq_lt (a b : CandSet) : CandSet.gt a b = CandSet.lt b a := by
  unfold CandSet.gt CandSet.lt
  have h1 : decide (a.cost > b.cost) = decide (b.cost < a.cost) := rfl
  have h2 : decide (a.cost = b.cost) = decide (b.cost = a.cost) := by
    by_cases h : a.cost = b.cost
    · simp [h]
    · have : ¬ b.cost = a.cost := fun e => h e.symm
      simp [h, this]
  rw [h1, h2]

theorem CandSet.lt_irrefl (a : CandSet) : CandSet.lt a a = false := by
  simp [CandSet.lt, setLt_irrefl]

theorem CandSet.lt_trans {a b c : CandSet} (h1 : CandSet.lt a b = true)
    (h2 : CandSet.lt b c = true) : CandSet.lt a c = true := by
  simp only [CandSet.lt, Bool.or_eq_true, decide_eq_true_eq, Bool.and_eq_true] at h1 h2 ⊢
  rcases h1 with h1 | ⟨e1, s1⟩
  · rcases h2 with h2 | ⟨e2, _⟩
    · left; omega
    · left; omega
  · rcases h2 with h2 | ⟨e2, s2⟩
    · left; omega
    · right; exact ⟨e1.trans e2, setLt_trans s1 s2⟩

theorem CandSet.lt_total (a b : CandSet) :
    CandSet.lt a b = true ∨ CandSet.eqv a b = true ∨ CandSet.lt b a = true := by
  simp only [CandSet.lt, CandSet.eqv, Bool.or_eq_true, decide_eq_true_eq, Bool.and_eq_true]
  rcases lt_trichotomy a.cost b.cost with h | h | h
  · left; left; exact h
  · rcases setLt_total a.set b.set with s | s | s
    · left; right; exact ⟨h, s⟩
    · right; left; exact ⟨h, s⟩
    · right; right; right; exact ⟨h.symm, s⟩
  · right; right; left; exact h

theorem CandSet.lt_asymm {a b : CandSet} (h : CandSet.lt a b = true) :
    CandSet.lt b a = false := by
  cases hba : CandSet.lt b a with
  | false => rfl
  | true =>
    have := CandSet.lt_trans h hba
    rw [CandSet.lt_irrefl] at this
    exact absurd this (by simp)

theorem CandSet.lt_not_eqv {a b : CandSet} (h : CandSet.lt a b = true) :
    CandSet.eqv a b = false := by
  cases he : CandSet.eqv a b with
  | false => rfl
  | true =>
    simp only [CandSet.eqv, Bool.and_eq_true, decide_eq_true_eq] at he
    simp only [CandSet.lt, Bool.or_eq_true, decide_eq_true_eq, Bool.and_eq_true] at h
    rcases h with h | ⟨_, s⟩
    · omega
    · rw [he.2, setLt_irrefl] at s
      exact absurd s (by simp)

/-- C24: the comparison operators of `CandSet` form a total order that compares
(cost, set) lexicographically: `operator<` is irreflexive and transitive,
`a > b` holds iff `b < a`, and of `a < b`, `a == b`, `a > b` exactly one holds. -/
theorem candSet_total_order (a b c : CandSet) :
    CandSet.lt a b = (decide (a.cost < b.cost) ||
      (decide (a.cost = b.cost) && setLt a.set b.set)) ∧
    CandSet.lt a a = false ∧
    (CandSet.lt a b = true → CandSet.lt b c = true → CandSet.lt a c = true) ∧
    CandSet.gt a b = CandSet.lt b a ∧
    (CandSet.lt a b = true ∨ CandSet.eqv a b = true ∨ CandSet.gt a b = true) ∧
    ¬ (CandSet.lt a b = true ∧ CandSet.eqv a b = true) ∧
    ¬ (CandSet.lt a b = true ∧ CandSet.gt a b = true) ∧
    ¬ (CandSet.eqv a b = true ∧ CandSet.gt a b = true) := by
  refine ⟨rfl, CandSet.lt_irrefl a, CandSet.lt_trans, CandSet.gt_eq_lt a b, ?_, ?_, ?_, ?_⟩
  · rw [CandSet.gt_eq_lt]
    exact CandSet.lt_total a b
  · rintro ⟨h1, h2⟩
    rw [CandSet.lt_not_eqv h1] at h2
    exact absurd h2 (by simp)
  · rintro ⟨h1, h2⟩
    rw [CandSet.gt_eq_lt, CandSet.lt_asymm h1] at h2
    exact absurd h2 (by simp)
  · rintro ⟨h1, h2⟩
    rw [CandSet.gt_eq_lt] at h2
    have h3 := CandSet.lt_not_eqv h2
    simp only [CandSet.eqv, Bool.and_eq_true, decide_eq_true_eq, Bool.and_eq_false_imp] at h1 h3
    have := h3 h1.1.symm
    simp only [decide_eq_false_iff_not] at this
    exact this h1.2.symm

/-! ### Candidates built by calls of `insert` -/

theorem foldl_insert_coverage (T : List (List Nat)) (cost : Nat → Int) (ss : List Nat)
    (cs : CandSet)
    (h : cs.coverage = T.map (fun t => t.any (fun x => decide (x ∈ cs.set)))) :
    (ss.foldl (CandSet.insert T cost) cs).coverage =
      T.map (fun t => t.any (fun x => decide (x ∈ (ss.foldl (CandSet.insert T cost) cs).set))) := by
  induction ss generalizing cs with
  | nil => exact h
  | cons s ss ih =>
    simp only [List.foldl_cons]
    apply ih
    simp only [CandSet.insert, h]
    exact zipWith_coverUpdate s cs.set T

theorem foldl_insert_mem (T : List (List Nat)) (cost : Nat → Int) (ss : List Nat)
    (cs : CandSet) (x : Nat) :
    x ∈ (ss.foldl (CandSet.insert T cost) cs).set ↔ x ∈ cs.set ∨ x ∈ ss := by
  induction ss generalizing cs with
  | nil => simp
  | cons s ss ih =>
    simp only [List.foldl_cons, ih, CandSet.insert, mem_setInsert, List.mem_cons]
    tauto

theorem foldl_insert_cost (T : List (List Nat)) (cost : Nat → Int) (ss : List Nat)
    (cs : CandSet) :
    intWrap (ss.foldl (CandSet.insert T cost) cs).cost =
      intWrap (cs.cost + (ss.map cost).sum) := by
  induction ss generalizing cs with
  | nil => simp
  | cons s ss ih =>
    simp only [List.foldl_cons, ih, CandSet.insert, List.map_cons, List.sum_cons]
    rw [intWrap_add_left, add_assoc]

theorem foldl_insert_cost_wrapped (T : List (List Nat)) (cost : Nat → Int) (ss : List Nat)
    (cs : CandSet) (h : intWrap cs.cost = cs.cost) :
    intWrap (ss.foldl (CandSet.insert T cost) cs).cost =
      (ss.foldl (CandSet.insert T cost) cs).cost := by
  induction ss generalizing cs with
  | nil => exact h
  | cons s ss ih =>
    simp only [List.foldl_cons]
    apply ih
    simp only [CandSet.insert]
    exact intWrap_idem _

theorem inserts_cost (T : List (List Nat)) (cost : Nat → Int) (ss : List Nat) :
    (CandSet.inserts T cost ss).get_cost = intWrap ((ss.map cost).sum) := by
  unfold CandSet.inserts CandSet.get_cost
  rw [← foldl_insert_cost_wrapped T cost ss (CandSet.empty T)
    (by simp [CandSet.empty, intWrap]), foldl_insert_cost]
  simp [CandSet.empty]

theorem foldl_insert_totalCost (T : List (List Nat)) (cost : Nat → Int) (ss : List Nat)
    (cs : CandSet) (hn : ss.Nodup) (hd : ∀ s ∈ ss, s ∉ cs.set) :
    totalCost cost (ss.foldl (CandSet.insert T cost) cs).set =
      totalCost cost cs.set + (ss.map cost).sum := by
  induction ss generalizing cs with
  | nil => simp
  | cons s ss ih =>
    simp only [List.foldl_cons, List.map_cons, List.sum_cons]
    have hs : s ∉ cs.set := hd s (List.mem_cons_self _ _)
    rw [ih _ (List.nodup_cons.mp hn).2]
    · simp only [CandSet.insert]
      rw [totalCost_setInsert cost s cs.set hs]
      omega
    · intro x hx hmem
      simp only [CandSet.insert] at hmem
      rcases (mem_setInsert s x cs.set).mp hmem with e | e
      · subst e
        exact (List.nodup_cons.mp hn).1 hx
      · exact hd x (List.mem_cons_of_mem _ hx) e

theorem all_true_iff_hits (T : List (List Nat)) (set : List Nat) :
    (∀ c ∈ T.map (fun t => t.any (fun x => decide (x ∈ set))), c = true) ↔
      ∀ t ∈ T, ∃ s ∈ t, s ∈ set := by
  simp only [List.mem_map, forall_exists_index, and_imp, forall_apply_eq_imp_iff₂,
    List.any_eq_true, decide_eq_true_eq]

/-- C25: for every candidate obtained from the empty candidate over `T` by a
sequence of calls of `insert`, `get_uncovered_Ti()` returns -1 iff every `T[i]`
contains an element of the set of the candidate, `total_coverage()` is true
exactly then, and otherwise `get_uncovered_Ti()` returns the smallest index `i`
such that `T[i]` contains no element of the set. -/
theorem get_uncovered_Ti_spec (T : List (List Nat)) (cost : Nat → Int) (ss : List Nat) :
    (∀ x, x ∈ (CandSet.inserts T cost ss).get_set ↔ x ∈ ss) ∧
    ((CandSet.inserts T cost ss).get_uncovered_Ti = -1 ↔
      ∀ t ∈ T, ∃ s ∈ t, s ∈ (CandSet.inserts T cost ss).get_set) ∧
    ((CandSet.inserts T cost ss).total_coverage = true ↔
      ∀ t ∈ T, ∃ s ∈ t, s ∈ (CandSet.inserts T cost ss).get_set) ∧
    ((CandSet.inserts T cost ss).get_uncovered_Ti ≠ -1 →
      ∃ (i : Nat) (t : List Nat), (CandSet.inserts T cost ss).get_uncovered_Ti = (i : Int) ∧
        T[i]? = some t ∧ (∀ s ∈ t, s ∉ (CandSet.inserts T cost ss).get_set) ∧
        ∀ (j : Nat) (tj : List Nat), j < i → T[j]? = some tj →
          ∃ s ∈ tj, s ∈ (CandSet.inserts T cost ss).get_set) := by
  have hcov := foldl_insert_coverage T cost ss (CandSet.empty T)
    (good_empty T cost).1
  have hmem : ∀ x, x ∈ (CandSet.inserts T cost ss).get_set ↔ x ∈ ss := by
    intro x
    simp [CandSet.inserts, CandSet.get_set, foldl_insert_mem, CandSet.empty]
  have hiff : (CandSet.inserts T cost ss).get_uncovered_Ti = -1 ↔
      ∀ t ∈ T, ∃ s ∈ t, s ∈ (CandSet.inserts T cost ss).get_set := by
    unfold CandSet.get_uncovered_Ti CandSet.get_set CandSet.inserts
    rw [← all_true_iff_hits, ← hcov]
    rcases uncoveredFrom_spec 0 (ss.foldl (CandSet.insert T cost) (CandSet.empty T)).coverage
      with ⟨h1, h2⟩ | ⟨j, h1, h2, _⟩
    · exact ⟨fun _ => h2, fun _ => h1⟩
    · constructor
      · intro h
        rw [h1] at h
        omega
      · intro h
        have := h false (List.getElem?_mem h2)
        exact absurd this (by simp)
  refine ⟨hmem, hiff, ?_, ?_⟩
  · rw [← hiff]
    simp [CandSet.total_coverage]
  · intro hne
    unfold CandSet.get_uncovered_Ti CandSet.get_set CandSet.inserts at *
    rcases uncoveredFrom_spec 0 (ss.foldl (CandSet.insert T cost) (CandSet.empty T)).coverage
      with ⟨h1, _⟩ | ⟨j, h1, h2, h3⟩
    · exact absurd h1 hne
    · rw [hcov] at h2 h3
      simp only [List.getElem?_map] at h2 h3
      cases hT : T[j]? with
      | none => rw [hT] at h2; simp at h2
      | some t =>
        rw [hT] at h2
        simp only [Option.map_some', Option.some.injEq, List.any_eq_false, decide_eq_true_eq]
          at h2
        refine ⟨j, t, by simpa using h1, hT, h2, ?_⟩
        intro k tk hk hTk
        have := h3 k hk
        rw [hTk] at this
        simpa using this

/-- C26 fails on the code: `insert` adds `cost_fun(s)` also when `s` is already in
the set. After `insert(0)` twice with unit cost, `get_cost()` is 2 and
`get_set()` is `{0}`, of total cost 1. In general `get_cost()` is the sum of
`cost_fun` over the calls of `insert`, as an `int` (the sum itself when that is
between `INT_MIN` and `INT_MAX`), which is the total cost of the set when no
element is inserted twice. -/
theorem get_cost_counts_repeated_insert :
    (CandSet.inserts [[0]] (fun _ => 1) [0, 0]).get_cost = 2 ∧
    (CandSet.inserts [[0]] (fun _ => 1) [0, 0]).get_set = [0] ∧
    totalCost (fun _ => 1) (CandSet.inserts [[0]] (fun _ => 1) [0, 0]).get_set = 1 ∧
    (∀ (T : List (List Nat)) (cost : Nat → Int) (ss : List Nat),
      (CandSet.inserts T cost ss).get_cost = intWrap ((ss.map cost).sum)) ∧
    (∀ (T : List (List Nat)) (cost : Nat → Int) (ss : List Nat),
      -2147483648 ≤ (ss.map cost).sum → (ss.map cost).sum ≤ 2147483647 →
      (CandSet.inserts T cost ss).get_cost = (ss.map cost).sum) ∧
    (∀ (T : List (List Nat)) (cost : Nat → Int) (ss : List Nat), ss.Nodup →
      (CandSet.inserts T cost ss).get_cost =
        intWrap (totalCost cost (CandSet.inserts T cost ss).get_set)) ∧
    (∀ (T : List (List Nat)) (cost : Nat → Int) (ss : List Nat), ss.Nodup →
      -2147483648 ≤ (ss.map cost).sum → (ss.map cost).sum ≤ 2147483647 →
      (CandSet.inserts T cost ss).get_cost =
        totalCost cost (CandSet.inserts T cost ss).get_set) := by
  have htot : ∀ (T : List (List Nat)) (cost : Nat → Int) (ss : List Nat), ss.Nodup →
      totalCost cost (CandSet.inserts T cost ss).get_set = (ss.map cost).sum := by
    intro T cost ss hn
    simp only [CandSet.inserts, CandSet.get_set]
    rw [foldl_insert_totalCost T cost ss _ hn (by simp [CandSet.empty])]
    simp [CandSet.empty, totalCost]
  refine ⟨by decide, by decide, by decide, inserts_cost, ?_, ?_, ?_⟩
  · intro T cost ss h1 h2
    rw [inserts_cost, intWrap_of_range h1 h2]
  · intro T cost ss hn
    rw [inserts_cost, htot T cost ss hn]
  · intro T cost ss hn h1 h2
    rw [inserts_cost, htot T cost ss hn, intWrap_of_range h1 h2]

/-! ### The top of the queue is a least candidate -/

theorem CandSet.lt_congr_left {a b : CandSet} (h : CandSet.eqv a b = true) (c : CandSet) :
    CandSet.lt a c = CandSet.lt b c := by
  simp only [CandSet.eqv, Bool.and_eq_true, decide_eq_true_eq] at h
  simp only [CandSet.lt, h.1, h.2]

theorem CandSet.not_gt_trans {a b c : CandSet} (h1 : CandSet.gt a b = false)
    (h2 : CandSet.gt b c = false) : CandSet.gt a c = false := by
  rw [CandSet.gt_eq_lt] at h1 h2 ⊢
  cases hca : CandSet.lt c a with
  | false => rfl
  | true =>
    exfalso
    rcases CandSet.lt_total c b with h | h | h
    · rw [h] at h2
      exact absurd h2 (by simp)
    · rw [CandSet.lt_congr_left h a, h1] at hca
      exact absurd hca (by simp)
    · have := CandSet.lt_trans h hca
      rw [this] at h1
      exact absurd h1 (by simp)

theorem CandSet.not_gt_of_gt {a b : CandSet} (h : CandSet.gt a b = true) :
    CandSet.gt b a = false := by
  rw [CandSet.gt_eq_lt] at h ⊢
  exact CandSet.lt_asymm h

theorem CandSet.gt_irrefl (a : CandSet) : CandSet.gt a a = false := by
  rw [CandSet.gt_eq_lt]
  exact CandSet.lt_irrefl a

theorem extractTop_not_gt {q : List CandSet} {m : CandSet} {rest : List CandSet}
    (h : extractTop q = some (m, rest)) : ∀ x ∈ q, CandSet.gt m x = false := by
  induction q generalizing m rest with
  | nil => simp [extractTop] at h
  | cons c cs ih =>
    unfold extractTop at h
    cases hcs : extractTop cs with
    | none =>
      rw [hcs] at h
      simp only [Option.some.injEq, Prod.mk.injEq] at h
      obtain ⟨rfl, rfl⟩ := h
      have := extractTop_eq_none hcs
      subst this
      intro x hx
      simp only [List.mem_singleton] at hx
      subst hx
      exact CandSet.gt_irrefl _
    | some p =>
      obtain ⟨m1, rest1⟩ := p
      rw [hcs] at h
      simp only at h
      have ih1 := ih hcs
      by_cases hg : CandSet.gt c m1 = true
      · rw [if_pos hg] at h
        simp only [Option.some.injEq, Prod.mk.injEq] at h
        obtain ⟨rfl, rfl⟩ := h
        intro x hx
        rcases List.mem_cons.mp hx with e | e
        · subst e
          exact CandSet.not_gt_of_gt hg
        · exact ih1 x e
      · rw [if_neg hg] at h
        simp only [Option.some.injEq, Prod.mk.injEq] at h
        obtain ⟨rfl, rfl⟩ := h
        simp only [Bool.not_eq_true] at hg
        intro x hx
        rcases List.mem_cons.mp hx with e | e
        · subst e
          exact CandSet.gt_irrefl _
        · exact CandSet.not_gt_trans hg (ih1 x e)

theorem sorted_setInsert (s : Nat) (l : List Nat) (h : l.Sorted (· < ·)) :
    (setInsert s l).Sorted (· < ·) := by
  induction l with
  | nil => simp [setInsert]
  | cons x xs ih =>
    unfold setInsert
    have hx := List.sorted_cons.mp h
    by_cases h1 : s < x
    · rw [if_pos h1]
      apply List.sorted_cons.mpr
      refine ⟨?_, h⟩
      intro b hb
      rcases List.mem_cons.mp hb with e | e
      · rw [e]; exact h1
      · exact lt_trans h1 (hx.1 b e)
    · rw [if_neg h1]
      by_cases h2 : s = x
      · rw [if_pos h2]
        exact h
      · rw [if_neg h2]
        apply List.sorted_cons.mpr
        refine ⟨?_, ih hx.2⟩
        intro b hb
        rcases (mem_setInsert s b xs).mp hb with e | e
        · rw [e]; omega
        · exact hx.1 b e

theorem length_setInsert (s : Nat) (l : List Nat) (h : s ∉ l) :
    (setInsert s l).length = l.length + 1 := by
  induction l with
  | nil => simp [setInsert]
  | cons x xs ih =>
    unfold setInsert
    have hne : s ≠ x := fun e => h (by rw [e]; exact List.mem_cons_self _ _)
    have hxs : s ∉ xs := fun e => h (List.mem_cons_of_mem _ e)
    by_cases h1 : s < x
    · rw [if_pos h1]
      simp
    · rw [if_neg h1, if_neg hne]
      simp [ih hxs]

theorem totalCost_sublist {cost : Nat → Int} (hpos : ∀ s, 0 < cost s) {l1 l2 : List Nat}
    (h : l1.Sublist l2) :
    totalCost cost l1 ≤ totalCost cost l2 ∧
      (totalCost cost l2 ≤ totalCost cost l1 → l1 = l2) := by
  induction h with
  | slnil => exact ⟨le_refl _, fun _ => rfl⟩
  | cons a _ ih =>
    have := hpos a
    simp only [totalCost, List.map_cons, List.sum_cons] at ih ⊢
    refine ⟨by omega, fun hle => ?_⟩
    omega
  | cons₂ a _ ih =>
    simp only [totalCost, List.map_cons, List.sum_cons] at ih ⊢
    refine ⟨by omega, fun hle => ?_⟩
    rw [ih.2 (by omega)]

/-! ### The run of `min_coverage`: the returned candidate is a least one -/

theorem expand_potential (T : List (List Nat)) (cost : Nat → Int) (cs : CandSet)
    (rest : List CandSet) (j : Nat) (t : List Nat)
    (h2 : cs.coverage[j]? = some false) (ht : T[j]? = some t) :
    potential (maxCard T) (pushChildren T cost cs t rest) + 1 ≤
      expansions (maxCard T) (uncoveredCount cs.coverage) + potential (maxCard T) rest := by
  have htT : t ∈ T := List.getElem?_mem ht
  have hu := uncoveredCount_pos h2
  have hb := potential_pushChildren T cost cs (maxCard T)
    (uncoveredCount cs.coverage - 1) t rest (by
      intro s hs
      have := uncoveredCount_zipWith_lt s cs.coverage T j t h2 ht hs
      simp only [CandSet.insert]
      omega)
  have hlen := length_le_maxCard htT
  have hexp : expansions (maxCard T) (uncoveredCount cs.coverage) =
      1 + maxCard T * expansions (maxCard T) (uncoveredCount cs.coverage - 1) := by
    obtain ⟨k, hk⟩ : ∃ k, uncoveredCount cs.coverage = k + 1 :=
      ⟨uncoveredCount cs.coverage - 1, by omega⟩
    rw [hk]; simp [expansions]
  have hmul := Nat.mul_le_mul_right
    (expansions (maxCard T) (uncoveredCount cs.coverage - 1)) hlen
  rw [hexp]
  generalize maxCard T * expansions (maxCard T) (uncoveredCount cs.coverage - 1) = A
    at hmul
  generalize t.length * expansions (maxCard T) (uncoveredCount cs.coverage - 1) = B
    at hmul hb
  omega

theorem uncovered_member {T : List (List Nat)} {cost : Nat → Int} {cs : CandSet}
    (hg : Good T cost cs) {j : Nat} (h2 : cs.coverage[j]? = some false) :
    ∃ t, T[j]? = some t := by
  rw [hg.1, List.getElem?_map] at h2
  cases hT : T[j]? with
  | none => rw [hT] at h2; simp at h2
  | some t => exact ⟨t, rfl⟩

theorem search_returns_least (T : List (List Nat)) (cost : Nat → Int) (C : Nat → Prop)
    (hC : ∀ t ∈ T, ∃ s ∈ t, C s) :
    ∀ (fuel : Nat) (q : List CandSet),
      (∀ cs ∈ q, Good T cost cs ∧ cs.set.Sorted (· < ·)) →
      potential (maxCard T) q ≤ fuel → (∃ cs ∈ q, ∀ s ∈ cs.set, C s) →
      ∃ cs cs0, search T cost fuel q = Outcome.returned cs.set ∧ Good T cost cs ∧
        cs.set.Sorted (· < ·) ∧ cs.total_coverage = true ∧ Good T cost cs0 ∧
        cs0.set.Sorted (· < ·) ∧ (∀ s ∈ cs0.set, C s) ∧ CandSet.gt cs cs0 = false := by
  intro fuel
  induction fuel with
  | zero =>
    intro q hq hpot hex
    obtain ⟨c1, hc1, hc1C⟩ := hex
    unfold search
    cases htop : extractTop q with
    | none => rw [extractTop_eq_none htop] at hc1; simp at hc1
    | some p =>
      obtain ⟨cs, rest⟩ := p
      simp only
      have hcsq : cs ∈ q := (extractTop_mem htop cs).mpr (Or.inl rfl)
      by_cases htot : cs.total_coverage = true
      · simp only [htot, ↓reduceIte, CandSet.get_set]
        exact ⟨cs, c1, rfl, (hq cs hcsq).1, (hq cs hcsq).2, htot, (hq c1 hc1).1,
          (hq c1 hc1).2, hc1C, extractTop_not_gt htop c1 hc1⟩
      · exfalso
        have hpot1 := extractTop_potential (maxCard T) htop
        rcases uncoveredFrom_spec 0 cs.coverage with ⟨h1, _⟩ | ⟨j, _, h2, _⟩
        · apply htot
          simp [CandSet.total_coverage, CandSet.get_uncovered_Ti, h1]
        · have := uncoveredCount_pos h2
          have h3 := expansions_mono (maxCard T) this
          simp only [expansions] at h3
          omega
  | succ fuel ih =>
    intro q hq hpot hex
    obtain ⟨c1, hc1, hc1C⟩ := hex
    unfold search
    cases htop : extractTop q with
    | none => rw [extractTop_eq_none htop] at hc1; simp at hc1
    | some p =>
      obtain ⟨cs, rest⟩ := p
      simp only
      have hcsq : cs ∈ q := (extractTop_mem htop cs).mpr (Or.inl rfl)
      by_cases htot : cs.total_coverage = true
      · simp only [htot, ↓reduceIte, CandSet.get_set]
        exact ⟨cs, c1, rfl, (hq cs hcsq).1, (hq cs hcsq).2, htot, (hq c1 hc1).1,
          (hq c1 hc1).2, hc1C, extractTop_not_gt htop c1 hc1⟩
      · simp only [htot, Bool.false_eq_true, ↓reduceIte]
        have hpot1 := extractTop_potential (maxCard T) htop
        have hgood := (hq cs hcsq).1
        rcases uncoveredFrom_spec 0 cs.coverage with ⟨h1, _⟩ | ⟨j, h1, h2, _⟩
        · exfalso; apply htot
          simp [CandSet.total_coverage, CandSet.get_uncovered_Ti, h1]
        · have hi : cs.get_uncovered_Ti.toNat = j := by
            simp [CandSet.get_uncovered_Ti, h1]
          rw [hi]
          obtain ⟨t, ht⟩ := uncovered_member hgood h2
          have htd : T.getD j [] = t := by simp [ht]
          rw [htd]
          have htT : t ∈ T := List.getElem?_mem ht
          apply ih
          · intro x hx
            rcases (mem_pushChildren T cost cs t rest x).mp hx with e | ⟨s, hs, e⟩
            · exact hq x ((extractTop_mem htop x).mpr (Or.inr e))
            · subst e
              exact ⟨good_insert hgood h2 ht hs, sorted_setInsert s cs.set (hq cs hcsq).2⟩
          · have := expand_potential T cost cs rest j t h2 ht
            omega
          · rcases (extractTop_mem htop c1).mp hc1 with e | e
            · subst e
              obtain ⟨s, hs, hsC⟩ := hC t htT
              refine ⟨CandSet.insert T cost c1 s, ?_, ?_⟩
              · exact (mem_pushChildren T cost c1 t rest _).mpr (Or.inr ⟨s, hs, rfl⟩)
              · intro x hx
                rcases (mem_setInsert s x c1.set).mp hx with e | e
                · subst e; exact hsC
                · exact hc1C x e
            · exact ⟨c1, (mem_pushChildren T cost cs t rest c1).mpr (Or.inl e), hc1C⟩

theorem min_coverage_returns_least (T : List (List Nat)) (cost : Nat → Int) (C : Nat → Prop)
    (hC : ∀ t ∈ T, ∃ s ∈ t, C s) :
    ∃ cs cs0, min_coverage T cost = Outcome.returned cs.set ∧ Good T cost cs ∧
      cs.set.Sorted (· < ·) ∧ cs.total_coverage = true ∧ Good T cost cs0 ∧
      cs0.set.Sorted (· < ·) ∧ (∀ s ∈ cs0.set, C s) ∧ CandSet.gt cs cs0 = false := by
  unfold min_coverage
  apply search_returns_least T cost C hC
  · intro cs hcs
    simp only [List.mem_singleton] at hcs
    subst hcs
    exact ⟨good_empty T cost, by simp [CandSet.empty]⟩
  · simp [potential, CandSet.empty, uncoveredCount_replicate]
  · exact ⟨CandSet.empty T, by simp, by simp [CandSet.empty]⟩

/-- C27 fails on the code: the cost of a candidate is an `int`. For the family
`{{0},{1,2}}` with the strictly positive costs 1, 2147483647 and 2147483646 the
candidate `{0,1}` gets the cost `1 + 2147483647`, which wraps around to
`INT_MIN`, and is returned; the set `{0,2}` hits both members and is cheaper, so
the result is no minimum-cost set. -/
theorem min_coverage_overflow_not_least :
    (∀ t ∈ [[0], [1, 2]], t ≠ ([] : List Nat)) ∧
    (∀ s : Nat, 0 < steepCost s) ∧
    min_coverage [[0], [1, 2]] steepCost = Outcome.returned [0, 1] ∧
    [0, 2].Sorted (· < ·) ∧ Hits [[0], [1, 2]] [0, 2] ∧
    totalCost steepCost [0, 2] = 2147483647 ∧
    totalCost steepCost [0, 1] = 2147483648 := by
  refine ⟨by decide, ?_, by decide, by decide, ?_, by decide, by decide⟩
  · intro s
    unfold steepCost
    split_ifs <;> decide
  · intro t ht
    simp only [List.mem_cons, List.mem_singleton, List.not_mem_nil, or_false] at ht
    rcases ht with rfl | rfl
    · exact ⟨0, by decide, by decide⟩
    · exact ⟨2, by decide, by decide⟩

/-- C27, amended: for every family `T` of non-empty sets and every cost function
with strictly positive values such that the costs of all elements of the members
of `T` together do not exceed `INT_MAX`, `min_coverage(T, cost)` returns a set
that hits every member of `T`, has the least total cost among the sets that do,
and is the least of these minimum-cost sets in the lexicographic order of
`std::set`: every other one is greater. -/
theorem min_coverage_lex_least (T : List (List Nat)) (cost : Nat → Int)
    (hne : ∀ t ∈ T, t ≠ []) (hpos : ∀ s, 0 < cost s)
    (hb : totalCost cost T.flatten.dedup ≤ 2147483647) :
    ∃ R, min_coverage T cost = Outcome.returned R ∧ R.Sorted (· < ·) ∧ Hits T R ∧
      (∀ D : List Nat, D.Sorted (· < ·) → Hits T D → totalCost cost R ≤ totalCost cost D) ∧
      (∀ C : List Nat, C.Sorted (· < ·) → Hits T C → totalCost cost C ≤ totalCost cost R →
        setLt C R = false ∧ (C = R ∨ setLt R C = true)) := by
  have hnn : ∀ s, 0 ≤ cost s := fun s => le_of_lt (hpos s)
  have key : ∀ D : List Nat, D.Sorted (· < ·) → Hits T D →
      ∃ cs cs0, min_coverage T cost = Outcome.returned cs.set ∧ Good T cost cs ∧
        cs.set.Sorted (· < ·) ∧ cs.total_coverage = true ∧
        CandSet.gt cs cs0 = false ∧ cs0.cost = totalCost cost cs0.set ∧
        cs0.set.Sublist D := by
    intro D hD hhit
    obtain ⟨cs, cs0, h1, h2, h3, h4, h5, h6, h7, h8⟩ :=
      min_coverage_returns_least T cost (fun s => s ∈ D) hhit
    exact ⟨cs, cs0, h1, h2, h3, h4, h8, good_cost_exact h5 hnn hb,
      List.sublist_of_subperm_of_sorted (List.subperm_of_subset h6.nodup h7) h6 hD⟩
  obtain ⟨cs, _, hret, hgood, hsorted, htot, _⟩ :=
    min_coverage_returns_least T cost (fun _ => True) (ne_nil_hits hne)
  have hmin : ∀ D : List Nat, D.Sorted (· < ·) → Hits T D →
      totalCost cost cs.set ≤ totalCost cost D := by
    intro D hD hhit
    obtain ⟨cs1, cs0, h1, h2, _, _, h5, h6, h7⟩ := key D hD hhit
    rw [hret] at h1
    injection h1 with h1
    have hle := (totalCost_sublist hpos h7).1
    have hc1 : cs1.cost = totalCost cost cs.set := by rw [good_cost_exact h2 hnn hb, h1]
    simp only [CandSet.gt, Bool.or_eq_false_iff, decide_eq_false_iff_not] at h5
    omega
  refine ⟨cs.set, hret, hsorted, covers_of_total hgood htot, hmin, ?_⟩
  intro C hC hhit hle
  obtain ⟨cs1, cs0, h1, h2, _, _, h5, h6, h7⟩ := key C hC hhit
  rw [hret] at h1
  injection h1 with h1
  have hsub := totalCost_sublist hpos h7
  have hc1 : cs1.cost = totalCost cost cs.set := by rw [good_cost_exact h2 hnn hb, h1]
  have hg := h5
  simp only [CandSet.gt, Bool.or_eq_false_iff, decide_eq_false_iff_not, Bool.and_eq_false_imp,
    decide_eq_true_eq] at hg
  have hRC := hmin C hC hhit
  have hcost : cs1.cost = cs0.cost := by omega
  have hset : cs0.set = C := hsub.2 (by omega)
  have hlt : setLt C cs.set = false := by
    have := hg.2 hcost
    rw [hset, ← h1] at this
    exact this
  refine ⟨hlt, ?_⟩
  rcases setLt_total C cs.set with h | h | h
  · rw [h] at hlt
    exact absurd hlt (by simp)
  · exact Or.inl h
  · exact Or.inr h

/-- C27, amended, at the family `{{0,1},{0,2},{1,2}}` with unit cost: the
minimum-cost hitting sets are `{0,1}`, `{0,2}` and `{1,2}`, the result is
`{0,1}`. -/
theorem min_coverage_lex_least_witness :
    (∀ t ∈ [[0, 1], [0, 2], [1, 2]], t ≠ ([] : List Nat)) ∧
    (∀ s : Nat, (0 : Int) < (fun _ => 1) s) ∧
    totalCost (fun _ => 1) [[0, 1], [0, 2], [1, 2]].flatten.dedup ≤ 2147483647 ∧
    min_coverage [[0, 1], [0, 2], [1, 2]] (fun _ => 1) = Outcome.returned [0, 1] ∧
    ∃ R, min_coverage [[0, 1], [0, 2], [1, 2]] (fun _ => 1) = Outcome.returned R ∧
      R.Sorted (· < ·) ∧ Hits [[0, 1], [0, 2], [1, 2]] R ∧
      (∀ D : List Nat, D.Sorted (· < ·) → Hits [[0, 1], [0, 2], [1, 2]] D →
        totalCost (fun _ => 1) R ≤ totalCost (fun _ => 1) D) ∧
      (∀ C : List Nat, C.Sorted (· < ·) → Hits [[0, 1], [0, 2], [1, 2]] C →
        totalCost (fun _ => 1) C ≤ totalCost (fun _ => 1) R →
        setLt C R = false ∧ (C = R ∨ setLt R C = true)) :=
  ⟨by decide, fun _ => Int.one_pos, by decide, by decide,
    min_coverage_lex_least [[0, 1], [0, 2], [1, 2]] (fun _ => 1) (by decide)
      (fun _ => Int.one_pos) (by decide)⟩

/-! ### Termination of the search -/

theorem search_succ (T : List (List Nat)) (cost : Nat → Int) (fuel : Nat)
    (q : List CandSet) :
    search T cost (fuel + 1) q =
      match extractTop q with
      | none => Outcome.emptyTop
      | some (cs, rest) =>
        if cs.total_coverage then Outcome.returned cs.get_set
        else search T cost fuel
          (pushChildren T cost cs (T.getD cs.get_uncovered_Ti.toNat []) rest) := by
  rw [search]

theorem search_zero (T : List (List Nat)) (cost : Nat → Int) (q : List CandSet) :
    search T cost 0 q =
      match extractTop q with
      | none => Outcome.emptyTop
      | some (cs, _) =>
        if cs.total_coverage then Outcome.returned cs.get_set else Outcome.outOfFuel := by
  rw [search]

theorem search_fuel_succ (T : List (List Nat)) (cost : Nat → Int) :
    ∀ (fuel : Nat) (q : List CandSet), search T cost fuel q ≠ Outcome.outOfFuel →
      search T cost (fuel + 1) q = search T cost fuel q := by
  intro fuel
  induction fuel with
  | zero =>
    intro q h
    rw [search_zero] at h
    rw [search_succ, search_zero]
    cases htop : extractTop q with
    | none => rfl
    | some p =>
      obtain ⟨cs, rest⟩ := p
      rw [htop] at h
      simp only at h ⊢
      by_cases htot : cs.total_coverage = true
      · simp only [htot, ↓reduceIte]
      · simp only [htot, Bool.false_eq_true, ↓reduceIte, ne_eq, not_true_eq_false] at h
  | succ fuel ih =>
    intro q h
    rw [search_succ] at h
    rw [search_succ T cost (fuel + 1), search_succ T cost fuel]
    cases htop : extractTop q with
    | none => rfl
    | some p =>
      obtain ⟨cs, rest⟩ := p
      rw [htop] at h
      simp only at h ⊢
      by_cases htot : cs.total_coverage = true
      · simp only [htot, ↓reduceIte]
      · simp only [htot, Bool.false_eq_true, ↓reduceIte] at h ⊢
        exact ih _ h

theorem search_fuel_le (T : List (List Nat)) (cost : Nat → Int) (fuel : Nat)
    (q : List CandSet) (h : search T cost fuel q ≠ Outcome.outOfFuel) :
    ∀ k, search T cost (fuel + k) q = search T cost fuel q := by
  intro k
  induction k with
  | zero => rfl
  | succ k ih =>
    rw [← Nat.add_assoc, search_fuel_succ T cost (fuel + k) q (by rw [ih]; exact h), ih]

theorem inRun_good {T : List (List Nat)} {cost : Nat → Int} {cs : CandSet}
    (h : InRun T cost cs) : Good T cost cs := by
  induction h with
  | empty => exact good_empty T cost
  | push cs s _ htot hs ih =>
    rcases uncoveredFrom_spec 0 cs.coverage with ⟨h1, _⟩ | ⟨j, h1, h2, _⟩
    · simp [CandSet.total_coverage, CandSet.get_uncovered_Ti, h1] at htot
    · have hi : cs.get_uncovered_Ti.toNat = j := by
        simp [CandSet.get_uncovered_Ti, h1]
      rw [hi] at hs
      obtain ⟨t, ht⟩ := uncovered_member ih h2
      have htd : T.getD j [] = t := by simp [ht]
      rw [htd] at hs
      exact good_insert ih h2 ht hs

theorem inRun_not_mem {T : List (List Nat)} {cost : Nat → Int} {cs : CandSet}
    (h : InRun T cost cs) (htot : cs.total_coverage = false) {s : Nat}
    (hs : s ∈ T.getD cs.get_uncovered_Ti.toNat []) : s ∉ cs.set := by
  have hg := inRun_good h
  rcases uncoveredFrom_spec 0 cs.coverage with ⟨h1, _⟩ | ⟨j, h1, h2, _⟩
  · simp [CandSet.total_coverage, CandSet.get_uncovered_Ti, h1] at htot
  · have hi : cs.get_uncovered_Ti.toNat = j := by
      simp [CandSet.get_uncovered_Ti, h1]
    rw [hi] at hs
    obtain ⟨t, ht⟩ := uncovered_member hg h2
    have htd : T.getD j [] = t := by simp [ht]
    rw [htd] at hs
    exact not_mem_of_uncovered hg h2 ht hs

/-- C28: for every family `T` of non-empty sets and every cost function, of any
sign, the search loop of `min_coverage` terminates: it returns a set within the
bound on the number of expansions, whatever larger budget the loop is given, and
never inspects the top of an empty queue; every candidate pushed by an expansion
has the set of its parent and one element more (the inserted element is not in
the set of the parent), and the sets of the candidates are duplicate-free and
drawn from the members of `T`. -/
theorem min_coverage_terminates (T : List (List Nat)) (cost : Nat → Int)
    (hne : ∀ t ∈ T, t ≠ []) :
    (∃ R, min_coverage T cost = Outcome.returned R ∧
      ∀ fuel, expansions (maxCard T) T.length ≤ fuel →
        search T cost fuel [CandSet.empty T] = Outcome.returned R) ∧
    (∀ cs s, InRun T cost cs → cs.total_coverage = false →
      s ∈ T.getD cs.get_uncovered_Ti.toNat [] →
      s ∉ cs.set ∧ (∀ x ∈ cs.set, x ∈ (CandSet.insert T cost cs s).set) ∧
        (CandSet.insert T cost cs s).set.length = cs.set.length + 1) ∧
    (∀ cs, InRun T cost cs → cs.set.Nodup ∧ ∀ s ∈ cs.set, ∃ t ∈ T, s ∈ t) := by
  refine ⟨?_, ?_, ?_⟩
  · obtain ⟨cs, _, hret, _⟩ := min_coverage_returns T cost (fun _ => True) (ne_nil_hits hne)
    refine ⟨cs.set, hret, ?_⟩
    intro fuel hfuel
    obtain ⟨k, hk⟩ := Nat.exists_eq_add_of_le hfuel
    unfold min_coverage at hret
    rw [hk, search_fuel_le T cost _ _ (by rw [hret]; simp), hret]
  · intro cs s hrun htot hs
    have hnot := inRun_not_mem hrun htot hs
    refine ⟨hnot, ?_, ?_⟩
    · intro x hx
      exact (mem_setInsert s x cs.set).mpr (Or.inr hx)
    · exact length_setInsert s cs.set hnot
  · intro cs hrun
    have hg := inRun_good hrun
    exact ⟨hg.2.2.1, hg.2.2.2⟩

/-- C28 at the family `{{0,1},{0,2},{1,2}}` with a cost function of mixed sign. -/
theorem min_coverage_terminates_witness :
    (∀ t ∈ [[0, 1], [0, 2], [1, 2]], t ≠ ([] : List Nat)) ∧
    ∃ R, min_coverage [[0, 1], [0, 2], [1, 2]] (fun s => if s = 1 then -2 else 1) =
        Outcome.returned R ∧
      ∀ fuel, expansions (maxCard [[0, 1], [0, 2], [1, 2]]) [[0, 1], [0, 2], [1, 2]].length ≤
          fuel →
        search [[0, 1], [0, 2], [1, 2]] (fun s => if s = 1 then -2 else 1) fuel
          [CandSet.empty [[0, 1], [0, 2], [1, 2]]] = Outcome.returned R :=
  ⟨by decide,
    (min_coverage_terminates [[0, 1], [0, 2], [1, 2]] (fun s => if s = 1 then -2 else 1)
      (by decide)).1⟩

/-! ### A family with the empty set -/

theorem search_emptyTop (T : List (List Nat)) (cost : Nat → Int) (hT : [] ∈ T) :
    ∀ (fuel : Nat) (q : List CandSet), (∀ cs ∈ q, Good T cost cs) →
      potential (maxCard T) q ≤ fuel → search T cost fuel q = Outcome.emptyTop := by
  have hunc : ∀ cs, Good T cost cs →
      ∃ j, uncoveredFrom 0 cs.coverage = ((0 + j : Nat) : Int) ∧
        cs.coverage[j]? = some false := by
    intro cs hg
    rcases uncoveredFrom_spec 0 cs.coverage with ⟨_, h2⟩ | ⟨j, h1, h2, _⟩
    · exfalso
      have := h2 false (by
        rw [hg.1]
        exact List.mem_map.mpr ⟨[], hT, rfl⟩)
      exact absurd this (by simp)
    · exact ⟨j, h1, h2⟩
  intro fuel
  induction fuel with
  | zero =>
    intro q hq hpot
    unfold search
    cases htop : extractTop q with
    | none => rfl
    | some p =>
      obtain ⟨cs, rest⟩ := p
      exfalso
      have hcsq : cs ∈ q := (extractTop_mem htop cs).mpr (Or.inl rfl)
      obtain ⟨j, _, h2⟩ := hunc cs (hq cs hcsq)
      have hpot1 := extractTop_potential (maxCard T) htop
      have := uncoveredCount_pos h2
      have h3 := expansions_mono (maxCard T) this
      simp only [expansions] at h3
      omega
  | succ fuel ih =>
    intro q hq hpot
    unfold search
    cases htop : extractTop q with
    | none => rfl
    | some p =>
      obtain ⟨cs, rest⟩ := p
      simp only
      have hcsq : cs ∈ q := (extractTop_mem htop cs).mpr (Or.inl rfl)
      have hgood := hq cs hcsq
      obtain ⟨j, h1, h2⟩ := hunc cs hgood
      have htot : cs.total_coverage = false := by
        simp only [CandSet.total_coverage, CandSet.get_uncovered_Ti, h1]
        simp only [zero_add, beq_eq_false_iff_ne, ne_eq]
        omega
      have hi : cs.get_uncovered_Ti.toNat = j := by
        simp [CandSet.get_uncovered_Ti, h1]
      simp only [htot, Bool.false_eq_true, ↓reduceIte, hi]
      obtain ⟨t, ht⟩ := uncovered_member hgood h2
      have htd : T.getD j [] = t := by simp [ht]
      rw [htd]
      have hpot1 := extractTop_potential (maxCard T) htop
      apply ih
      · intro x hx
        rcases (mem_pushChildren T cost cs t rest x).mp hx with e | ⟨s, hs, e⟩
        · exact hq x ((extractTop_mem htop x).mpr (Or.inr e))
        · subst e
          exact good_insert hgood h2 ht hs
      · have := expand_potential T cost cs rest j t h2 ht
        omega

/-- C29: if the family `T` contains the empty set, no set hits every member and
the search exhausts its queue: the loop reaches `queue.top()` on an empty queue,
whatever budget it is given, and returns no set; for the empty family
`min_coverage` returns the empty set. -/
theorem min_coverage_empty_member (T : List (List Nat)) (cost : Nat → Int) :
    ([] ∈ T →
      (∀ C : List Nat, ¬ Hits T C) ∧
      min_coverage T cost = Outcome.emptyTop ∧
      ∀ fuel, expansions (maxCard T) T.length ≤ fuel →
        search T cost fuel [CandSet.empty T] = Outcome.emptyTop) ∧
    min_coverage [] cost = Outcome.returned [] := by
  refine ⟨?_, rfl⟩
  intro hT
  have hrun : ∀ fuel, expansions (maxCard T) T.length ≤ fuel →
      search T cost fuel [CandSet.empty T] = Outcome.emptyTop := by
    intro fuel hfuel
    apply search_emptyTop T cost hT
    · intro cs hcs
      simp only [List.mem_singleton] at hcs
      subst hcs
      exact good_empty T cost
    · simpa [potential, CandSet.empty, uncoveredCount_replicate] using hfuel
  refine ⟨?_, hrun _ (le_refl _), hrun⟩
  intro C hC
  obtain ⟨s, hs, _⟩ := hC [] hT
  simp at hs

/-- C29 at the family `{{}, {0}}` with unit cost. -/
theorem min_coverage_empty_member_witness :
    ([] : List Nat) ∈ [[], [0]] ∧
    min_coverage [[], [0]] (fun _ => 1) = Outcome.emptyTop ∧
    min_coverage [] (fun _ => 1) = Outcome.returned [] :=
  ⟨by decide,
    ((min_coverage_empty_member [[], [0]] (fun _ => 1)).1 (by decide)).2.1,
    (min_coverage_empty_member [[], [0]] (fun _ => 1)).2⟩

end MinCoverage
